import Mathlib

/-!
# gobot2flags: maze, circuit board and board controller

A shallow embedding of `maze.go`, `model/circuit-board.go` and
`model/controller.go`.  Go `int` values are `Int`; a run-time panic
(index out of range, division by zero, nil dereference) is `none`.
Slices are lists indexed through `sliceGet` / `sliceSet`.
-/

namespace Gobot

/-! ## Slices and integer remainder -/

/-- Read of `xs[i]` for a Go slice: `none` stands for the index-out-of-range panic. -/
def sliceGet {α : Type} (xs : List α) (i : Int) : Option α :=
  if i < 0 then none else xs[i.toNat]?

/-- Write of `xs[i] = a` for a Go slice: `none` stands for the index-out-of-range panic. -/
def sliceSet {α : Type} (xs : List α) (i : Int) (a : α) : Option (List α) :=
  if i < 0 then none
  else if i.toNat < xs.length then some (xs.set i.toNat a) else none

/-- Go `a % b` on `int`: truncated remainder, a panic when `b = 0`. -/
def goMod (a b : Int) : Option Int :=
  if b = 0 then none else some (Int.tmod a b)

/-- Go `make([]T, n)` filled with `zero`: a panic when `n` is negative. -/
def goMake {α : Type} (n : Int) (zero : α) : Option (List α) :=
  if n < 0 then none else some (List.replicate n.toNat zero)

/-! ## Geometry -/

/-- Modelled from the spec: the declaration of `Orientation` is not among the
sources; "one of {North, East, South, West}". -/
inductive Orientation where
  | North
  | East
  | South
  | West
  deriving DecidableEq, Repr

/-- Modelled from the spec: the declaration of `Position` is not among the
sources; "integer (x,y)". -/
structure Position where
  X : Int
  Y : Int
  deriving DecidableEq, Repr

/-- Modelled from the spec: `forwardVelocity` is not among the sources;
"North=(0,-1), South=(0,1), East=(1,0), West=(-1,0)". -/
def Orientation.VelocityForward : Orientation → Int × Int
  | .North => (0, -1)
  | .South => (0, 1)
  | .East => (1, 0)
  | .West => (-1, 0)

/-- Modelled from the spec: `reverse` is not among the sources; it "maps each
to its opposite". -/
def Orientation.Reverse : Orientation → Orientation
  | .North => .South
  | .South => .North
  | .East => .West
  | .West => .East

/-- Modelled from the spec: turning is not among the sources; turning left
"rotates by 90 degrees" counter-clockwise. -/
def Orientation.Left : Orientation → Orientation
  | .North => .West
  | .West => .South
  | .South => .East
  | .East => .North

/-- Modelled from the spec: turning is not among the sources; turning right
"rotates by 90 degrees" clockwise. -/
def Orientation.Right : Orientation → Orientation
  | .North => .East
  | .East => .South
  | .South => .West
  | .West => .North

/-- Modelled from the spec: `move` is not among the sources; "new Position (no
bounds checking; wrapping is the grid's responsibility)". -/
def Position.Move (p : Position) (v : Int × Int) : Position :=
  { X := p.X + v.1, Y := p.Y + v.2 }

/-! ## Cells (`maze.go`) -/

/-- A `Cell` is a Go `byte`; the values handled are below 256. -/
abbrev Cell := Nat

/-- A `Color` is a Go `byte`. -/
abbrev Color := Nat

def C1Pos : Nat := 4

def TF : Cell := 1
def LF : Cell := 2
def CF : Cell := 4
def FF : Cell := 8
def C1 : Cell := 16
def C2 : Cell := 32
def KF : Cell := 64

def NoColor : Color := 0
def Red : Color := 1
def Yellow : Color := 2
def Blue : Color := 3

/-- Go `^c` on a byte. -/
def byteNot (c : Nat) : Nat := 255 ^^^ c

/-- Go `p &^ c` (bit clear) on bytes. -/
def andNot (p c : Nat) : Nat := p &&& byteNot c

def Color.ToCell (c : Color) : Cell := (c <<< C1Pos) % 256

def Cell.NorthWall (c : Cell) : Bool := (c &&& TF) != 0

def Cell.WestWall (c : Cell) : Bool := (c &&& LF) != 0

def Cell.CornerWall (c : Cell) : Bool := (c &&& CF) != 0

def Cell.Color (c : Cell) : Color := (c &&& (C1 ||| C2)) >>> C1Pos

def Cell.Flag (c : Cell) : Bool := (c &&& FF) != 0

def Cell.Captured (c : Cell) : Bool := (c &&& KF) != 0

/-! ## Robot -/

/-- Commands of `model/controller.go`. -/
inductive Command where
  | NoCommand
  | TurnLeft
  | TurnRight
  | MoveForward
  | PaintRed
  | PaintBlue
  | PaintYellow
  deriving DecidableEq, Repr

/-- Modelled from the spec: the declaration of `Robot` is not among the
sources; "Position + Orientation + transient per-tick intent (a pending
forward-motion flag and/or a pending paint color set by the last applied
command)". -/
structure Robot extends Position where
  Orientation : Orientation
  movingForward : Bool
  painting : Color
  deriving DecidableEq, Repr

/-- Modelled from the spec: `Robot.Advance` is not among the sources; it
"translates position by the current orientation's forward velocity,
unconditionally, and returns the updated Robot". -/
def Robot.Advance (r : Robot) : Robot :=
  { r with toPosition := r.toPosition.Move r.Orientation.VelocityForward }

/-- Modelled from the spec: `Robot.ColorPainting` is not among the sources;
"pending paint, if any, is reported via colorPainting()". -/
def Robot.ColorPainting (r : Robot) : Color := r.painting

/-- Modelled from the spec: `Robot.IsMovingForward` is not among the sources;
it reports the pending forward-motion flag. -/
def Robot.IsMovingForward (r : Robot) : Bool := r.movingForward

/-- Modelled from the spec: `Robot.Stop` is not among the sources; it "clears
motion intent". -/
def Robot.Stop (r : Robot) : Robot :=
  { r with movingForward := false }

/-- Modelled from the spec: `Robot.ApplyCommand` is not among the sources;
"TurnLeft/TurnRight rotate orientation by 90 degrees without moving;
MoveForward sets the pending-forward-motion intent; PaintRed/Yellow/Blue
record a pending paint color; NoCommand clears all pending intent". -/
def Robot.ApplyCommand (r : Robot) : Command → Robot
  | .NoCommand => { r with movingForward := false, painting := NoColor }
  | .TurnLeft =>
    { r with Orientation := r.Orientation.Left, movingForward := false, painting := NoColor }
  | .TurnRight =>
    { r with Orientation := r.Orientation.Right, movingForward := false, painting := NoColor }
  | .MoveForward => { r with movingForward := true, painting := NoColor }
  | .PaintRed => { r with movingForward := false, painting := Red }
  | .PaintBlue => { r with movingForward := false, painting := Blue }
  | .PaintYellow => { r with movingForward := false, painting := Yellow }

/-! ## Maze (`maze.go`) -/

/-- The `Maze` struct; `robot` is a pointer, `none` when nil. -/
structure Maze where
  width : Int
  height : Int
  cells : List Cell
  robot : Option Robot
  flags : Int
  captured : Int
  deriving DecidableEq, Repr

def NewMaze (width height : Int) : Option Maze := do
  let cells ← goMake (width * height) (0 : Cell)
  pure { width := width, height := height, cells := cells, robot := none,
         flags := 0, captured := 0 }

def Maze.cellIndex (m : Maze) (x y : Int) : Option Int := do
  let x ←
    if x < 0 then (do let r ← goMod x m.width; pure (r + m.width))
    else if x ≥ m.width then goMod x m.width
    else pure x
  let y ←
    if y < 0 then (do let r ← goMod y m.height; pure (r + m.height))
    else if y ≥ m.height then goMod y m.height
    else pure y
  pure (x + y * m.width)

/-- The coordinate `cellIndex` computes on an axis of length `n`: the
non-negative remainder of `v`, except at a negative multiple of `n`, where the
code yields `n` itself. -/
def wrapCoord (v n : Int) : Int := if v < 0 ∧ n ∣ v then n else v % n

def Maze.UpdateCellAt (m : Maze) (x y : Int) (c : Cell) : Option Maze := do
  let i ← m.cellIndex x y
  let p ← sliceGet m.cells i
  let c0c := andNot p c
  let cc0 := andNot c p
  let flags :=
    if Cell.Flag c0c then m.flags - 1
    else if Cell.Flag cc0 then m.flags + 1
    else m.flags
  let captured :=
    if Cell.Captured c0c then m.captured - 1
    else if Cell.Captured cc0 then m.captured + 1
    else m.captured
  let p1 := if Cell.Color c ≠ NoColor then p &&& byteNot (C1 ||| C2) else p
  let cells ← sliceSet m.cells i (p1 ||| c)
  pure { m with cells := cells, flags := flags, captured := captured }

def Maze.FlagsCaptured (m : Maze) : Int := m.captured

def Maze.FlagsRemaining (m : Maze) : Int := m.flags

def Maze.CellAt (m : Maze) (x y : Int) : Option Cell := do
  let i ← m.cellIndex x y
  sliceGet m.cells i

def Maze.HasWallAt (m : Maze) (x y : Int) (o : Orientation) : Option Bool :=
  match o with
  | .North => (m.CellAt x y).map Cell.NorthWall
  | .West => (m.CellAt x y).map Cell.WestWall
  | .South => (m.CellAt x (y + 1)).map Cell.NorthWall
  | .East => (m.CellAt (x + 1) y).map Cell.WestWall

def Maze.StopRobot (m : Maze) : Option Maze := do
  let r ← m.robot
  pure { m with robot := some r.Stop }

def Maze.AdvanceRobot (m : Maze) : Option Maze := do
  let r ← m.robot
  let robot := r.Advance
  let cell ← m.CellAt robot.X robot.Y
  let m1 ←
    if Cell.Flag cell && !Cell.Captured cell then m.UpdateCellAt robot.X robot.Y KF
    else pure m
  let col := robot.ColorPainting
  let m2 ←
    if col ≠ NoColor then m1.UpdateCellAt robot.X robot.Y (Color.ToCell col)
    else pure m1
  pure { m2 with robot := some robot }

def Maze.CommandRobot (m : Maze) (com : Command) : Option (Maze × Bool) := do
  let r ← m.robot
  let next := r.ApplyCommand com
  let crash ←
    if next.IsMovingForward then m.HasWallAt next.X next.Y next.Orientation
    else pure false
  let next := if crash then r.ApplyCommand .NoCommand else next
  pure ({ m with robot := some next }, !crash)

/-- Runs `UpdateCellAt` for each `(x, y, c)` of the list, in order. -/
def Maze.updateAll (m : Maze) : List (Int × Int × Cell) → Option Maze
  | [] => some m
  | (x, y, c) :: rest => (m.UpdateCellAt x y c).bind (fun m1 => m1.updateAll rest)

/-- Direct recount: the number of cells whose Flag bit is set. -/
def Maze.countFlag (m : Maze) : Int := (m.cells.countP Cell.Flag : Nat)

/-- Direct recount: the number of cells whose Captured bit is set. -/
def Maze.countCaptured (m : Maze) : Int := (m.cells.countP Cell.Captured : Nat)

/-- Every call of the list, run in order from `m`, has a mask that carries the
Flag and Captured bits its target cell already holds. -/
def Maze.masksKeepBits (m : Maze) : List (Int × Int × Cell) → Bool
  | [] => true
  | (x, y, c) :: rest =>
    match m.CellAt x y, m.UpdateCellAt x y c with
    | some p, some m1 =>
      (!Cell.Flag p || Cell.Flag c) && (!Cell.Captured p || Cell.Captured c) &&
        m1.masksKeepBits rest
    | _, _ => false

/-- Direct recount: the number of flag cells not yet captured. -/
def Maze.countPending (m : Maze) : Int :=
  (m.cells.countP (fun c => Cell.Flag c && !Cell.Captured c) : Nat)

/-- Counters that agree with the cells the way a freshly parsed maze has them:
`flags` counts the flag cells not captured, `captured` the captured cells, and
only flag cells are captured. -/
def Maze.Consistent (m : Maze) : Prop :=
  m.flags = m.countPending ∧ m.captured = m.countCaptured ∧
    m.cells.all (fun c => !Cell.Captured c || Cell.Flag c) = true

instance (m : Maze) : Decidable m.Consistent := by
  unfold Maze.Consistent; infer_instance

/-- Runs `AdvanceRobot` once per list entry; the entry is the robot state that
the commands applied since the previous step left behind. -/
def Maze.advanceAll (m : Maze) : List Robot → Option Maze
  | [] => some m
  | r :: rest =>
    (Maze.AdvanceRobot { m with robot := some r }).bind (fun m1 => m1.advanceAll rest)

/-! ## Chips -/

/-- Modelled from the spec: the declaration of `ChipType` is not among the
sources; the names are those used by `chipTypeMap` in `circuit-board.go`. -/
inductive ChipType where
  | NoChip
  | StartChip
  | IsWallAheadChip
  | IsFloorBlueChip
  | IsFloorRedChip
  | IsFloorYellowChip
  | ForwardChip
  | TurnLeftChip
  | TurnRightChip
  | PaintBlueChip
  | PaintRedChip
  | PaintYellowChip
  deriving DecidableEq, Repr

/-- Modelled from the spec: the arrow label type is not among the sources;
arrows are "labeled (Yes/No)". -/
inductive ArrowType where
  | Yes
  | No
  deriving DecidableEq, Repr

/-- Modelled from the spec: the declaration of `Chip` is not among the
sources; "a ChipType, an optional Yes outgoing arrow (Orientation), an
optional No outgoing arrow, and a transient active flag", activated "with the
resolved arrow label's direction". -/
structure Chip where
  chipType : ChipType
  arrowYes : Option Orientation
  arrowNo : Option Orientation
  active : Bool
  activeArrow : Orientation
  deriving DecidableEq, Repr

/-- The zero value of `Chip`, as `make([]Chip, n)` fills the slice. -/
def Chip.zero : Chip :=
  { chipType := .NoChip, arrowYes := none, arrowNo := none, active := false,
    activeArrow := .North }

/-- Modelled from the spec: `Chip.Type` is not among the sources. -/
def Chip.Type (c : Chip) : ChipType := c.chipType

/-- Modelled from the spec: `withType` is not among the sources; a
"functional update to the packed fields". -/
def Chip.WithType (c : Chip) (t : ChipType) : Chip := { c with chipType := t }

/-- Modelled from the spec: `withArrowYes(o)` is not among the sources. -/
def Chip.WithArrowYes (c : Chip) (o : Orientation) : Chip := { c with arrowYes := some o }

/-- Modelled from the spec: `withArrowNo(o)` is not among the sources. -/
def Chip.WithArrowNo (c : Chip) (o : Orientation) : Chip := { c with arrowNo := some o }

/-- Modelled from the spec: `Chip.ArrowYes` is not among the sources; it
returns the Yes arrow and whether it is present. -/
def Chip.ArrowYes (c : Chip) : Orientation × Bool :=
  match c.arrowYes with
  | some o => (o, true)
  | none => (.North, false)

/-- Modelled from the spec: `Chip.ArrowNo` is not among the sources; it
returns the No arrow and whether it is present. -/
def Chip.ArrowNo (c : Chip) : Orientation × Bool :=
  match c.arrowNo with
  | some o => (o, true)
  | none => (.North, false)

/-- Modelled from the spec: `arrow(label)` is not among the sources; it "looks
up the Yes or No arrow; present=false signals no outgoing edge for that
label". -/
def Chip.Arrow (c : Chip) : ArrowType → Orientation × Bool
  | .Yes => c.ArrowYes
  | .No => c.ArrowNo

/-- Modelled from the spec: `clearArrow(o)` is not among the sources; an arrow
of orientation `o` is "cleared, regardless of its label". -/
def Chip.ClearArrow (c : Chip) (o : Orientation) : Chip :=
  { c with
    arrowYes := if c.arrowYes = some o then none else c.arrowYes,
    arrowNo := if c.arrowNo = some o then none else c.arrowNo }

/-- Modelled from the spec: `isActive()` is not among the sources. -/
def Chip.IsActive (c : Chip) : Bool := c.active

/-- Modelled from the spec: `clearActive()` is not among the sources. -/
def Chip.ClearActive (c : Chip) : Chip := { c with active := false, activeArrow := .North }

/-- Modelled from the spec: `activate(o)` is not among the sources; it marks
"that chip active with the resolved arrow label's direction". -/
def Chip.Activate (c : Chip) (o : Orientation) : Chip :=
  { c with active := true, activeArrow := o }

/-- Modelled from the spec: `command(floorColor, wallAhead)` is not among the
sources; "for a test chip, evaluates the corresponding boolean predicate
against the supplied sensor values and returns (NoCommand, Yes|No); for an
action chip, returns the chip's command and the fixed label Yes; for Start or
None, returns (NoCommand, Yes)". -/
def Chip.Command (c : Chip) (floorColor : Color) (wallAhead : Bool) : Command × ArrowType :=
  match c.chipType with
  | .NoChip => (.NoCommand, .Yes)
  | .StartChip => (.NoCommand, .Yes)
  | .IsWallAheadChip => (.NoCommand, if wallAhead then .Yes else .No)
  | .IsFloorBlueChip => (.NoCommand, if floorColor = Blue then .Yes else .No)
  | .IsFloorRedChip => (.NoCommand, if floorColor = Red then .Yes else .No)
  | .IsFloorYellowChip => (.NoCommand, if floorColor = Yellow then .Yes else .No)
  | .ForwardChip => (.MoveForward, .Yes)
  | .TurnLeftChip => (.TurnLeft, .Yes)
  | .TurnRightChip => (.TurnRight, .Yes)
  | .PaintBlueChip => (.PaintBlue, .Yes)
  | .PaintRedChip => (.PaintRed, .Yes)
  | .PaintYellowChip => (.PaintYellow, .Yes)

/-! ## Circuit board (`model/circuit-board.go`) -/

structure CircuitBoard where
  width : Int
  height : Int
  chips : List Chip
  startPos : Position
  hasStartPos : Bool
  deriving DecidableEq, Repr

def NewCircuitBoard (width height : Int) : Option CircuitBoard := do
  let chips ← goMake (width * height) Chip.zero
  pure { width := width, height := height, chips := chips,
         startPos := { X := 0, Y := 0 }, hasStartPos := false }

def CircuitBoard.StartPos (b : CircuitBoard) : Position × Bool := (b.startPos, b.hasStartPos)

def CircuitBoard.Contains (b : CircuitBoard) (x y : Int) : Bool :=
  decide (x ≥ 0) && decide (x < b.width) && decide (y ≥ 0) && decide (y < b.height)

def CircuitBoard.chipIndex (b : CircuitBoard) (x y : Int) : Int := x + b.width * y

def CircuitBoard.ChipAt (b : CircuitBoard) (x y : Int) : Option Chip :=
  sliceGet b.chips (b.chipIndex x y)

def CircuitBoard.deleteArrow (b : CircuitBoard) (p : Position) (o : Orientation) :
    Option CircuitBoard := do
  let c ← b.ChipAt p.X p.Y
  let chips ← sliceSet b.chips (b.chipIndex p.X p.Y) (c.ClearArrow o)
  pure { b with chips := chips }

def CircuitBoard.SetChipAt (b : CircuitBoard) (x y : Int) (c : Chip) : Option CircuitBoard := do
  let pc ← sliceGet b.chips (b.chipIndex x y)
  let b1 ←
    if c.Type = .StartChip then do
      let b0 ←
        if b.hasStartPos then do
          let currentStart ← b.ChipAt b.startPos.X b.startPos.Y
          let chips ← sliceSet b.chips (b.chipIndex b.startPos.X b.startPos.Y)
            (currentStart.WithType .NoChip)
          pure { b with chips := chips }
        else pure b
      pure { b0 with startPos := { X := x, Y := y }, hasStartPos := true }
    else if pc.Type = .StartChip then
      pure { b with hasStartPos := false, startPos := { X := 0, Y := 0 } }
    else pure b
  let p : Position := { X := x, Y := y }
  let b2 ←
    if c.ArrowYes.2 then b1.deleteArrow (p.Move c.ArrowYes.1.VelocityForward) c.ArrowYes.1.Reverse
    else pure b1
  let b3 ←
    if c.ArrowNo.2 then b2.deleteArrow (p.Move c.ArrowNo.1.VelocityForward) c.ArrowNo.1.Reverse
    else pure b2
  let chips ← sliceSet b3.chips (b3.chipIndex x y) c
  pure { b3 with chips := chips }

def CircuitBoard.ClearActiveChips (b : CircuitBoard) : CircuitBoard :=
  { b with chips := b.chips.map Chip.ClearActive }

def CircuitBoard.ActivateChip (b : CircuitBoard) (x y : Int) (o : Orientation) :
    Option CircuitBoard := do
  let c ← sliceGet b.chips (b.chipIndex x y)
  let chips ← sliceSet b.chips (b.chipIndex x y) (c.Activate o)
  pure { b with chips := chips }

/-- Runs `SetChipAt` for each `(x, y, c)` of the list, in order. -/
def CircuitBoard.setAll (b : CircuitBoard) : List (Int × Int × Chip) → Option CircuitBoard
  | [] => some b
  | (x, y, c) :: rest => (b.SetChipAt x y c).bind (fun b1 => b1.setAll rest)

/-- The chip holds an arrow, Yes or No, of orientation `o`. -/
def Chip.hasArrow (c : Chip) (o : Orientation) : Bool :=
  (c.ArrowYes.2 && c.ArrowYes.1 == o) || (c.ArrowNo.2 && c.ArrowNo.1 == o)

/-- The position one step from `(x, y)` in orientation `o`. -/
def neighbour (x y : Int) (o : Orientation) : Position :=
  Position.Move { X := x, Y := y } o.VelocityForward

/-- Edge uniqueness: no two adjacent on-board cells hold arrows pointing at
each other. -/
def CircuitBoard.EdgeUnique (b : CircuitBoard) : Prop :=
  ∀ (x y : Int) (o : Orientation) (p q : Chip),
    b.Contains x y = true →
    b.Contains (neighbour x y o).X (neighbour x y o).Y = true →
    b.ChipAt x y = some p →
    b.ChipAt (neighbour x y o).X (neighbour x y o).Y = some q →
    ¬ (p.hasArrow o = true ∧ q.hasArrow o.Reverse = true)

/-- The target cell of a `SetChipAt` call lies on the board. -/
def CircuitBoard.targetOnBoard (b : CircuitBoard) (call : Int × Int × Chip) : Bool :=
  b.Contains call.1 call.2.1

/-- The target cell of a `SetChipAt` call and the cells its chip's arrows point
to lie on the board. -/
def CircuitBoard.callOnBoard (b : CircuitBoard) (call : Int × Int × Chip) : Bool :=
  b.Contains call.1 call.2.1 &&
  (!call.2.2.ArrowYes.2 ||
    b.Contains (neighbour call.1 call.2.1 call.2.2.ArrowYes.1).X
      (neighbour call.1 call.2.1 call.2.2.ArrowYes.1).Y) &&
  (!call.2.2.ArrowNo.2 ||
    b.Contains (neighbour call.1 call.2.1 call.2.2.ArrowNo.1).X
      (neighbour call.1 call.2.1 call.2.2.ArrowNo.1).Y)

/-- The chip slice has one entry per cell, as `NewCircuitBoard` allocates it. -/
def CircuitBoard.WF (b : CircuitBoard) : Prop :=
  b.chips.length = (b.width * b.height).toNat

instance (b : CircuitBoard) : Decidable b.WF := by
  unfold CircuitBoard.WF; infer_instance

/-- Index by index, the chips of `l1` hold no arrow that the chips of `l` do
not hold. -/
def ArrowsShrink (l l1 : List Chip) : Prop :=
  l1.length = l.length ∧
    ∀ (j : Nat) (ch1 : Chip), l1[j]? = some ch1 →
      ∃ ch, l[j]? = some ch ∧ ∀ o, ch1.hasArrow o = true → ch.hasArrow o = true

/-- The first part of `SetChipAt`: the bookkeeping of the Start cell. -/
def CircuitBoard.startStep (b : CircuitBoard) (x y : Int) (c pc : Chip) :
    Option CircuitBoard :=
  if c.Type = .StartChip then do
    let b0 ←
      if b.hasStartPos then do
        let currentStart ← b.ChipAt b.startPos.X b.startPos.Y
        let chips ← sliceSet b.chips (b.chipIndex b.startPos.X b.startPos.Y)
          (currentStart.WithType .NoChip)
        pure { b with chips := chips }
      else pure b
    pure { b0 with startPos := { X := x, Y := y }, hasStartPos := true }
  else if pc.Type = .StartChip then
    pure { b with hasStartPos := false, startPos := { X := 0, Y := 0 } }
  else pure b

/-- The middle parts of `SetChipAt`: for an arrow `a` of the new chip, the
arrow pointing back from its target is deleted. -/
def CircuitBoard.arrowStep (b : CircuitBoard) (x y : Int) (a : Orientation × Bool) :
    Option CircuitBoard :=
  if a.2 then
    b.deleteArrow (Position.Move { X := x, Y := y } a.1.VelocityForward) a.1.Reverse
  else pure b

/-- At most one cell has type Start. -/
def CircuitBoard.AtMostOneStart (b : CircuitBoard) : Prop :=
  ∀ (i j : Nat) (ci cj : Chip), b.chips[i]? = some ci → b.chips[j]? = some cj →
    ci.Type = .StartChip → cj.Type = .StartChip → i = j

/-- Some cell has type Start. -/
def CircuitBoard.HasStartCell (b : CircuitBoard) : Prop :=
  ∃ ch ∈ b.chips, ch.Type = .StartChip

/-- Index by index, the chips of `l1` have the types of the chips of `l`. -/
def TypesSame (l l1 : List Chip) : Prop :=
  l1.length = l.length ∧
    ∀ (j : Nat) (ch1 : Chip), l1[j]? = some ch1 → ∃ ch, l[j]? = some ch ∧ ch1.Type = ch.Type

/-- No chip of the slice has type Start, except possibly the one at index `s`. -/
def OnlyStartAt (l : List Chip) (s : Option Nat) : Prop :=
  ∀ (i : Nat) (ci : Chip), l[i]? = some ci → ci.Type = .StartChip → s = some i

/-- Start uniqueness: at most one cell has type Start, `StartPos()` reports
ok = true exactly when such a cell exists, and then its position is that of
the Start cell, on the board. -/
def CircuitBoard.StartUnique (b : CircuitBoard) : Prop :=
  b.AtMostOneStart ∧ (b.StartPos.2 = true ↔ b.HasStartCell) ∧
    (b.StartPos.2 = true →
      b.Contains b.StartPos.1.X b.StartPos.1.Y = true ∧
      ∃ ch, b.ChipAt b.StartPos.1.X b.StartPos.1.Y = some ch ∧ ch.Type = .StartChip)

/-- The invariant behind Start uniqueness: the recorded Start position is on
the board and holds a Start chip, and no other chip has type Start. -/
def CircuitBoard.StartInv (b : CircuitBoard) : Prop :=
  OnlyStartAt b.chips
      (if b.hasStartPos then some (b.chipIndex b.startPos.X b.startPos.Y).toNat else none) ∧
    (b.hasStartPos = true →
      b.Contains b.startPos.X b.startPos.Y = true ∧
      ∃ ch, b.ChipAt b.startPos.X b.startPos.Y = some ch ∧ ch.Type = .StartChip)

/-- Index by index, the chips of `l1` have the type and the arrows of the chips
of `l`: they differ at most in their active markers. -/
def SameProgram (l l1 : List Chip) : Prop :=
  l1.length = l.length ∧
    ∀ (j : Nat) (ch1 : Chip), l1[j]? = some ch1 →
      ∃ ch, l[j]? = some ch ∧ ch1.chipType = ch.chipType ∧ ch1.arrowYes = ch.arrowYes ∧
        ch1.arrowNo = ch.arrowNo

/-- The number of chips whose active marker is clear. -/
def countInactive (l : List Chip) : Nat := l.countP (fun ch => !ch.IsActive)

/-! ## Board controller (`model/controller.go`) -/

/-- The `BoardController` struct.  Its `robot` field is the pointer
`maze.robot` (set by `NewBoardController`, never reassigned), so the robot is
read through `maze`. -/
structure BoardController where
  board : CircuitBoard
  maze : Maze
  boardPos : Position
  deadEnd : Bool
  deriving DecidableEq, Repr

/-- Outcome of code that contains the unbounded `for` loop of `NextCommand`,
run with a bound on the number of loop iterations. -/
inductive LoopResult (α : Type) where
  | returned (a : α)
  | panicked
  | unfinished
  deriving DecidableEq, Repr

def NewBoardController (board : CircuitBoard) (maze : Maze) : Option BoardController :=
  let (startPos, ok) := board.StartPos
  if !ok then none
  else some { board := board, maze := maze, boardPos := startPos, deadEnd := false }

def BoardController.GameWon (c : BoardController) : Bool := c.maze.FlagsRemaining == 0

/-- One pass through the body of the `for` loop of `NextCommand`, up to the
test that decides whether to return. -/
def BoardController.loopBody (c : BoardController) (floorColor : Color) (wallAhead : Bool) :
    Option (BoardController × Command) := do
  let chip ← c.board.ChipAt c.boardPos.X c.boardPos.Y
  let com := (chip.Command floorColor wallAhead).1
  let arrowType := (chip.Command floorColor wallAhead).2
  let nextChipDir := (chip.Arrow arrowType).1
  let ok := (chip.Arrow arrowType).2
  let board ← c.board.ActivateChip c.boardPos.X c.boardPos.Y nextChipDir
  if ok then
    let boardPos := c.boardPos.Move nextChipDir.VelocityForward
    let deadEnd ←
      if com = .NoCommand then (board.ChipAt boardPos.X boardPos.Y).map Chip.IsActive
      else pure false
    pure ({ c with board := board, boardPos := boardPos, deadEnd := deadEnd }, com)
  else
    pure ({ c with board := board, deadEnd := true }, com)

/-- The `for` loop of `NextCommand`, cut off after `fuel` iterations. -/
def BoardController.loop (floorColor : Color) (wallAhead : Bool) :
    Nat → BoardController → LoopResult (BoardController × Command)
  | 0, _ => .unfinished
  | fuel + 1, c =>
    match c.loopBody floorColor wallAhead with
    | none => .panicked
    | some (c1, com) =>
      if com ≠ .NoCommand || c1.deadEnd then .returned (c1, com)
      else BoardController.loop floorColor wallAhead fuel c1

/-- The command the chip yields for the sensor values. -/
def Chip.com (chip : Chip) (fc : Color) (wa : Bool) : Gobot.Command :=
  (chip.Command fc wa).1

/-- The direction of the chip's arrow for the label resolved from the sensor
values. -/
def Chip.nextDir (chip : Chip) (fc : Color) (wa : Bool) : Orientation :=
  (chip.Arrow (chip.Command fc wa).2).1

/-- Whether the chip has an arrow for the label resolved from the sensor
values. -/
def Chip.hasNext (chip : Chip) (fc : Color) (wa : Bool) : Bool :=
  (chip.Arrow (chip.Command fc wa).2).2

/-- The board after `ActivateChip` at the cursor, `chip` being the chip there. -/
def BoardController.activated (c : BoardController) (chip : Chip) (o : Orientation) :
    CircuitBoard :=
  { c.board with
    chips := c.board.chips.set (c.board.chipIndex c.boardPos.X c.boardPos.Y).toNat
      (chip.Activate o) }

/-- The traversal loop gets from state `c` to state `c1` in `k` iterations,
each of which yields `NoCommand`, records no dead end and so continues. -/
def BoardController.reaches (fc : Color) (wa : Bool) :
    Nat → BoardController → BoardController → Prop
  | 0, c, c1 => c = c1
  | k + 1, c, c1 =>
    ∃ c2, c.loopBody fc wa = some (c2, .NoCommand) ∧ c2.deadEnd = false ∧
      BoardController.reaches fc wa k c2 c1

/-- The sensor values read at the start of `NextCommand`: wall ahead and floor
color at the robot's position. -/
def BoardController.sensors (c : BoardController) : Option (Bool × Color) := do
  let r ← c.maze.robot
  let wallAhead ← c.maze.HasWallAt r.X r.Y r.Orientation
  let cell ← c.maze.CellAt r.X r.Y
  pure (wallAhead, Cell.Color cell)

def BoardController.NextCommand (fuel : Nat) (c : BoardController) :
    LoopResult (BoardController × Command) :=
  if c.deadEnd then .returned (c, .NoCommand)
  else
    let c0 := { c with board := c.board.ClearActiveChips }
    match c0.sensors with
    | none => .panicked
    | some (wallAhead, floorColor) => BoardController.loop floorColor wallAhead fuel c0

def BoardController.Advance (fuel : Nat) (c : BoardController) : LoopResult BoardController :=
  match c.maze.AdvanceRobot with
  | none => .panicked
  | some maze =>
    let c1 := { c with maze := maze }
    if c1.GameWon then
      match c1.maze.StopRobot with
      | none => .panicked
      | some stopped => .returned { c1 with board := c1.board.ClearActiveChips, maze := stopped }
    else
      match BoardController.NextCommand fuel c1 with
      | .unfinished => .unfinished
      | .panicked => .panicked
      | .returned (c2, com) =>
        match c2.maze.CommandRobot com with
        | none => .panicked
        | some (maze2, _) => .returned { c2 with maze := maze2 }

/-! ## Example configurations -/

/-- A 1x1 maze without walls, one flag, the robot on it facing North. -/
def openMaze : Maze :=
  { width := 1, height := 1, cells := [FF],
    robot := some (Robot.mk { X := 0, Y := 0 } .North false NoColor),
    flags := 1, captured := 0 }

/-- The 2x1 board `ST -> MF`: a Start chip whose arrow points East to a
MoveForward chip without arrows. -/
def lineBoard : CircuitBoard :=
  { width := 2, height := 1,
    chips := [(Chip.zero.WithType .StartChip).WithArrowYes .East,
              Chip.zero.WithType .ForwardChip],
    startPos := { X := 0, Y := 0 }, hasStartPos := true }

/-- The controller for `lineBoard` on `openMaze`, cursor on the Start chip. -/
def lineController : BoardController :=
  { board := lineBoard, maze := openMaze, boardPos := { X := 0, Y := 0 }, deadEnd := false }

/-- A 2x2 board whose chips form a cycle: Start at (0,0) pointing East, a
red-floor test at (1,0) whose No arrow points South, an empty chip at (1,1)
pointing West, a wall-ahead test at (0,1) whose No arrow points North. -/
def cycleBoard : CircuitBoard :=
  { width := 2, height := 2,
    chips := [(Chip.zero.WithType .StartChip).WithArrowYes .East,
              (Chip.zero.WithType .IsFloorRedChip).WithArrowNo .South,
              (Chip.zero.WithType .IsWallAheadChip).WithArrowNo .North,
              Chip.zero.WithArrowYes .West],
    startPos := { X := 0, Y := 0 }, hasStartPos := true }

/-- The controller for `cycleBoard` on `openMaze`, cursor on the Start chip. -/
def cycleController : BoardController :=
  { board := cycleBoard, maze := openMaze, boardPos := { X := 0, Y := 0 }, deadEnd := false }

/-! ## Texts and parse results -/

/-- ASCII white space, the characters `strings.TrimSpace` removes from ASCII
text. Texts are lists of characters and are taken to be ASCII, one character
per byte, so that `len` and the offsets delivered by `range` count
characters. -/
def isSpace (c : Char) : Bool :=
  c = ' ' || c = '\t' || c = '\n' || c = '\x0b' || c = '\x0c' || c = '\r'

/-- Go `strings.TrimSpace` on ASCII text. -/
def TrimSpace (s : List Char) : List Char :=
  ((s.dropWhile isSpace).reverse.dropWhile isSpace).reverse

/-- Go `strings.Split(s, "\n")`: the pieces between line feeds, always at
least one. -/
def Split : List Char → List (List Char)
  | [] => [[]]
  | c :: cs =>
    if c = '\n' then [] :: Split cs
    else
      match Split cs with
      | [] => [[c]]
      | r :: rs => (c :: r) :: rs

/-- The errors the two parsers return; line and column numbers are the ones
the messages print. -/
inductive ParseError where
  | oddLines
  | noRows
  | wrongLength (line : Int)
  | wrongChar (line col : Int) (allowed : String)
  | secondRobot (line col : Int)
  | noBars (line : Int)
  | invalidChipCode (line col : Int) (code : List Char)
  | secondStart (line col : Int)
  | invalidArrowCode (line col : Int) (code : List Char)
  | startMissing
  deriving DecidableEq, Repr

/-- What a parser call does: it returns a value, returns an error, or
panics. -/
inductive ParseResult (α : Type) where
  | ok (a : α)
  | error (e : ParseError)
  | panicked
  deriving DecidableEq, Repr

/-- A maze or board operation inside a parser: its panic is the parser's. -/
def ParseResult.ofOption {α : Type} : Option α → ParseResult α
  | some a => .ok a
  | none => .panicked

/-- Go `for j, c := range row` with a body that may return early: `f` is the
body, `j` the offset of the first character. -/
def forRange {σ : Type} (f : σ → Nat → Char → ParseResult σ) :
    Nat → List Char → σ → ParseResult σ
  | _, [], s => .ok s
  | j, c :: cs, s =>
    match f s j c with
    | .ok s1 => forRange f (j + 1) cs s1
    | .error e => .error e
    | .panicked => .panicked

/-! ## The maze parser (`maze.go`) -/

def wrongCharErr (i j : Nat) (allowed : String) : ParseError :=
  .wrongChar (i + 1) (j + 1) allowed

/-- The table `rune2Orientation`; a character outside the table gets the zero
value, as a Go map lookup gives it (the parser only looks up the four
glyphs). -/
def rune2Orientation (c : Char) : Orientation :=
  if c = '>' then .East
  else if c = '<' then .West
  else if c = '^' then .North
  else if c = 'v' then .South
  else .North

/-- The body of the loop over the characters of a horizontal wall row (line
`i`, cell row `y`) of `MazeFromString`. -/
def wallRowChar (width : Int) (i : Nat) (y : Int) (maze : Maze) (j : Nat) (c : Char) :
    ParseResult Maze :=
  let x : Int := ((j / 3 : Nat) : Int)
  if x = width then
    if c ≠ '+' then .error (wrongCharErr i j "+") else .ok maze
  else if j % 3 = 0 then
    if c = '+' then .ofOption (maze.UpdateCellAt x y CF)
    else if c = '.' then .ok maze
    else .error (wrongCharErr i j "+.")
  else if j % 3 = 1 then
    if c = '-' then .ofOption (maze.UpdateCellAt x y TF)
    else if c = ' ' then .ok maze
    else .error (wrongCharErr i j "- ")
  else if j % 3 = 2 then
    if c = '-' then
      match maze.CellAt x y with
      | none => .panicked
      | some cell => if !Cell.NorthWall cell then .error (wrongCharErr i j " ") else .ok maze
    else if c = ' ' then
      match maze.CellAt x y with
      | none => .panicked
      | some cell => if Cell.NorthWall cell then .error (wrongCharErr i j "-") else .ok maze
    else .error (wrongCharErr i j "- ")
  else .ok maze

/-- The body of the loop over the characters of a floor row (line `i`, cell
row `y`) of `MazeFromString`. -/
def floorRowChar (width : Int) (i : Nat) (y : Int) (maze : Maze) (j : Nat) (c : Char) :
    ParseResult Maze :=
  let x : Int := ((j / 3 : Nat) : Int)
  if x = width then
    if c ≠ '|' then .error (wrongCharErr i j "|") else .ok maze
  else if j % 3 = 0 then
    if c = '|' then .ofOption (maze.UpdateCellAt x y LF)
    else if c = ' ' then .ok maze
    else .error (wrongCharErr i j "| ")
  else if j % 3 = 1 then
    if c = 'R' then .ofOption (maze.UpdateCellAt x y (Color.ToCell Red))
    else if c = 'Y' then .ofOption (maze.UpdateCellAt x y (Color.ToCell Yellow))
    else if c = 'B' then .ofOption (maze.UpdateCellAt x y (Color.ToCell Blue))
    else if c = ' ' then .ok maze
    else .error (wrongCharErr i j "RYB ")
  else if j % 3 = 2 then
    if c = 'F' then .ofOption (maze.UpdateCellAt x y FF)
    else if c = '>' || c = '<' || c = '^' || c = 'v' then
      if maze.robot ≠ none then .error (.secondRobot i j)
      else
        .ok { maze with
              robot := some { X := x, Y := y, Orientation := rune2Orientation c,
                              movingForward := false, painting := NoColor } }
    else if c = ' ' then .ok maze
    else .error (wrongCharErr i j "F ")
  else .ok maze

/-- The loop over the lines of `MazeFromString`, `i` being the index of the
first line of the list. -/
def parseMazeRows (width height : Int) : Nat → List (List Char) → Maze → ParseResult Maze
  | _, [], maze => .ok maze
  | i, row :: rows, maze =>
    let y : Int := ((i / 2 : Nat) : Int)
    if y = height then parseMazeRows width height (i + 1) rows maze
    else
      match (if i % 2 = 0 then forRange (wallRowChar width i y) 0 row maze
             else forRange (floorRowChar width i y) 0 row maze) with
      | .ok m1 => parseMazeRows width height (i + 1) rows m1
      | .error e => .error e
      | .panicked => .panicked

/-- The first line, by index, whose length is not `lr0`. -/
def firstWrongLength (lr0 : Nat) : Nat → List (List Char) → Option Nat
  | _, [] => none
  | i, row :: rows => if row.length ≠ lr0 then some i else firstWrongLength lr0 (i + 1) rows

/-- The parser `MazeFromString`, from the lines of the trimmed text on. -/
def MazeFromRows (rows : List (List Char)) : ParseResult Maze :=
  if rows.length % 2 ≠ 1 then .error .oddLines
  else
    let height : Int := (((rows.length - 1) / 2 : Nat) : Int)
    if height = 0 then .error .noRows
    else
      let lr0 : Nat := (rows.headD []).length
      let width : Int := Int.tdiv ((lr0 : Int) - 1) 3
      if width * 3 + 1 ≠ (lr0 : Int) then .error (.wrongLength 1)
      else
        match firstWrongLength lr0 0 rows with
        | some i => .error (.wrongLength (i + 1))
        | none =>
          match NewMaze width height with
          | none => .panicked
          | some maze => parseMazeRows width height 0 rows maze

def MazeFromString (s : String) : ParseResult Maze :=
  MazeFromRows (Split (TrimSpace s.toList))

/-- One of the four robot glyphs. -/
def isRobotGlyph (c : Char) : Bool := c = '>' || c = '<' || c = '^' || c = 'v'

/-- The number of robot glyphs in the flag/robot positions (offset 2 in each
group of 3) of a row, `j` being the offset of its first character. -/
def robotCountFrom : Nat → List Char → Nat
  | _, [] => 0
  | j, c :: cs => (if j % 3 = 2 ∧ isRobotGlyph c = true then 1 else 0) + robotCountFrom (j + 1) cs

/-- The number of robot glyphs in the flag/robot positions of the cell rows
(the lines of odd index), `i` being the index of the first line of the list. -/
def robotCountRows : Nat → List (List Char) → Nat
  | _, [] => 0
  | i, row :: rows =>
    (if i % 2 = 1 then robotCountFrom 0 row else 0) + robotCountRows (i + 1) rows

/-- The maze has the given width and height and one cell per position. -/
def Maze.Shaped (w h : Int) (m : Maze) : Prop :=
  m.width = w ∧ m.height = h ∧ m.cells.length = (w * h).toNat

/-- The number of robots of the maze: 1 or, when the pointer is nil, 0. -/
def Maze.robotCount (m : Maze) : Nat := if m.robot = none then 0 else 1

/-- The call does not panic, and a value it returns satisfies `P`. -/
def ParseResult.Sat {α : Type} (r : ParseResult α) (P : α → Prop) : Prop :=
  r ≠ .panicked ∧ ∀ a, r = .ok a → P a

/-- The 3x1 board `TL <y W? n> MF`: a wall-ahead test whose Yes arrow points
West to a TurnLeft chip and whose No arrow points East to a MoveForward
chip. -/
def wallTestBoard : CircuitBoard :=
  { width := 3, height := 1,
    chips := [Chip.zero.WithType .TurnLeftChip,
              ((Chip.zero.WithType .IsWallAheadChip).WithArrowYes .West).WithArrowNo .East,
              Chip.zero.WithType .ForwardChip],
    startPos := { X := 0, Y := 0 }, hasStartPos := false }

/-- The controller for `wallTestBoard` on `openMaze`, cursor on the test chip. -/
def wallTestController : BoardController :=
  { board := wallTestBoard, maze := openMaze, boardPos := { X := 1, Y := 0 }, deadEnd := false }

/-! ## The board parser (`model/circuit-board.go`) -/

/-- Go `row[a:b]` on a string, for `a ≤ b`: a panic when `b` exceeds the
length. -/
def goSlice (row : List Char) (a b : Nat) : Option (List Char) :=
  if b ≤ row.length then some ((row.drop a).take (b - a)) else none

/-- Go `for x := 0; x < n; x++` with a body that may return early: `f` is the
body, the first argument counts the iterations left, the second is `x`. -/
def forUpTo {σ : Type} (f : σ → Nat → ParseResult σ) : Nat → Nat → σ → ParseResult σ
  | 0, _, s => .ok s
  | n + 1, x, s =>
    match f s x with
    | .ok s1 => forUpTo f n (x + 1) s1
    | .error e => .error e
    | .panicked => .panicked

/-- The table `chipTypeMap`. -/
def chipTypeMap (code : List Char) : Option ChipType :=
  if code = ['S', 'T'] then some .StartChip
  else if code = ['W', '?'] then some .IsWallAheadChip
  else if code = ['B', '?'] then some .IsFloorBlueChip
  else if code = ['R', '?'] then some .IsFloorRedChip
  else if code = ['Y', '?'] then some .IsFloorYellowChip
  else if code = ['M', 'F'] then some .ForwardChip
  else if code = ['T', 'L'] then some .TurnLeftChip
  else if code = ['T', 'R'] then some .TurnRightChip
  else if code = ['P', 'B'] then some .PaintBlueChip
  else if code = ['P', 'R'] then some .PaintRedChip
  else if code = ['P', 'Y'] then some .PaintYellowChip
  else if code = ['.', '.'] then some .NoChip
  else if code = [' ', ' '] then some .NoChip
  else none

/-- The statement `b.SetChipAt(x, y, f(b.ChipAt(x, y)))` of the parser. -/
def CircuitBoard.modifyChipAt (b : CircuitBoard) (x y : Int) (f : Chip → Chip) :
    ParseResult CircuitBoard :=
  match b.ChipAt x y with
  | none => .panicked
  | some ch => .ofOption (b.SetChipAt x y (f ch))

/-- The first loop of `CircuitBoardFromString`: every line must start and end
with a bar, which is stripped; `i` is the index of the first line of the
list. -/
def stripBars : Nat → List (List Char) → ParseResult (List (List Char))
  | _, [] => .ok []
  | i, row :: rows =>
    if row.length < 2 || row.head? != some '|' || row.getLast? != some '|' then
      .error (.noBars (i + 1))
    else
      match stripBars (i + 1) rows with
      | .ok rest => .ok (((row.drop 1).take (row.length - 2)) :: rest)
      | .error e => .error e
      | .panicked => .panicked

/-- The part `// Set the arrow` of the loop over the columns of a row of chips:
nothing in the last column, else the arrow between columns `x` and `x + 1`. -/
def chipArrowStep (width : Int) (i : Nat) (y : Int) (row : List Char) (b : CircuitBoard)
    (x : Nat) : ParseResult CircuitBoard :=
  if (x : Int) = width - 1 then .ok b
  else
    match goSlice row (x * 6 + 3) (x * 6 + 5) with
    | none => .panicked
    | some arrCode =>
      if arrCode = ['y', '>'] then b.modifyChipAt x y (fun ch => ch.WithArrowYes .East)
      else if arrCode = ['n', '>'] then b.modifyChipAt x y (fun ch => ch.WithArrowNo .East)
      else if arrCode = ['-', '>'] then b.modifyChipAt x y (fun ch => ch.WithArrowYes .East)
      else if arrCode = ['<', 'y'] then
        b.modifyChipAt (x + 1) y (fun ch => ch.WithArrowYes .West)
      else if arrCode = ['<', 'n'] then
        b.modifyChipAt (x + 1) y (fun ch => ch.WithArrowNo .West)
      else if arrCode = ['<', '-'] then
        b.modifyChipAt (x + 1) y (fun ch => ch.WithArrowYes .West)
      else if arrCode = ['.', '.'] || arrCode = [' ', ' '] then .ok b
      else .error (.invalidArrowCode (i + 1) (x * 6 + 4) arrCode)

/-- The part of the loop over the columns of a row of chips from
`b.SetChipAt(x, y, b.ChipAt(x, y).WithType(chipType))` on. -/
def chipSetStep (width : Int) (i : Nat) (y : Int) (row : List Char) (chipType : ChipType)
    (b : CircuitBoard) (x : Nat) : ParseResult CircuitBoard :=
  match b.modifyChipAt x y (fun ch => ch.WithType chipType) with
  | .error e => .error e
  | .panicked => .panicked
  | .ok b2 => chipArrowStep width i y row b2 x

/-- The body of the loop over the columns of a row of chips (line `i`, chip
row `y`). -/
def chipRowStep (width : Int) (i : Nat) (y : Int) (row : List Char) (b : CircuitBoard)
    (x : Nat) : ParseResult CircuitBoard :=
  match goSlice row (x * 6) (x * 6 + 2) with
  | none => .panicked
  | some chipCode =>
    match chipTypeMap chipCode with
    | none => .error (.invalidChipCode (i + 1) (x * 6 + 1) chipCode)
    | some chipType =>
      if chipType = .StartChip then
        if b.hasStartPos then .error (.secondStart (i + 1) (x * 6 + 1))
        else
          chipSetStep width i y row chipType
            { b with startPos := { X := x, Y := y }, hasStartPos := true } x
      else chipSetStep width i y row chipType b x

/-- The body of the loop over the columns of a row of vertical arrows (line
`i`, between chip rows `y` and `y + 1`). -/
def arrowRowStep (i : Nat) (y : Int) (row : List Char) (b : CircuitBoard) (x : Nat) :
    ParseResult CircuitBoard :=
  match goSlice row (x * 6) (x * 6 + 2) with
  | none => .panicked
  | some arrCode =>
    if arrCode = ['y', 'v'] then b.modifyChipAt x y (fun ch => ch.WithArrowYes .South)
    else if arrCode = ['n', 'v'] then b.modifyChipAt x y (fun ch => ch.WithArrowNo .South)
    else if arrCode = [' ', 'v'] then b.modifyChipAt x y (fun ch => ch.WithArrowYes .South)
    else if arrCode = ['y', '^'] then
      b.modifyChipAt x (y + 1) (fun ch => ch.WithArrowYes .North)
    else if arrCode = ['n', '^'] then
      b.modifyChipAt x (y + 1) (fun ch => ch.WithArrowNo .North)
    else if arrCode = [' ', '^'] then
      b.modifyChipAt x (y + 1) (fun ch => ch.WithArrowYes .North)
    else if arrCode = [' ', ' '] || arrCode = ['.', '.'] then .ok b
    else .error (.invalidArrowCode (i + 1) (x * 6) arrCode)

/-- The loop over the lines of `CircuitBoardFromString`, `i` being the index
of the first line of the list. -/
def parseBoardRows (width : Int) : Nat → List (List Char) → CircuitBoard →
    ParseResult CircuitBoard
  | _, [], b => .ok b
  | i, row :: rows, b =>
    let y : Int := ((i / 2 : Nat) : Int)
    match (if i % 2 = 0 then forUpTo (chipRowStep width i y row) width.toNat 0 b
           else forUpTo (arrowRowStep i y row) width.toNat 0 b) with
    | .ok b1 => parseBoardRows width (i + 1) rows b1
    | .error e => .error e
    | .panicked => .panicked

/-- The parser `CircuitBoardFromString`, from the lines of the trimmed text
on. -/
def CircuitBoardFromRows (lines : List (List Char)) : ParseResult CircuitBoard :=
  match stripBars 0 lines with
  | .error e => .error e
  | .panicked => .panicked
  | .ok rows =>
    if rows.length % 2 ≠ 1 then .error .oddLines
    else
      let height : Int := (((rows.length + 1) / 2 : Nat) : Int)
      if height = 0 then .error .noRows
      else
        let lr0 : Nat := (rows.headD []).length
        let width : Int := Int.tdiv ((lr0 : Int) + 4) 6
        if width * 6 - 4 ≠ (lr0 : Int) then .error (.wrongLength 1)
        else
          match NewCircuitBoard width height with
          | none => .panicked
          | some b0 =>
            match parseBoardRows width 0 rows { b0 with hasStartPos := false } with
            | .error e => .error e
            | .panicked => .panicked
            | .ok b => if !b.hasStartPos then .error .startMissing else .ok b

def CircuitBoardFromString (s : String) : ParseResult CircuitBoard :=
  CircuitBoardFromRows (Split (TrimSpace s.toList))

/-- The number of `ST` chip codes in a row of chips: the columns `x` below
`n` whose two characters at offset `6x` are `ST`, counted from column `x`. -/
def stCountFrom (row : List Char) : Nat → Nat → Nat
  | 0, _ => 0
  | n + 1, x =>
    (if goSlice row (x * 6) (x * 6 + 2) = some ['S', 'T'] then 1 else 0)
      + stCountFrom row n (x + 1)

/-- The number of `ST` chip codes in the rows of chips (the stripped lines of
even index), `i` being the index of the first line of the list. -/
def stCountRows (width : Nat) : Nat → List (List Char) → Nat
  | _, [] => 0
  | i, row :: rows =>
    (if i % 2 = 0 then stCountFrom row width 0 else 0) + stCountRows width (i + 1) rows

/-- The number of `ST` chip codes of a board text. -/
def stCodes (s : String) : Nat :=
  match stripBars 0 (Split (TrimSpace s.toList)) with
  | .ok rows => stCountRows (((rows.headD []).length + 4) / 6) 0 rows
  | _ => 0

/-- Every stripped line of a board text is at least as long as the first. -/
def longLines (s : String) : Bool :=
  match stripBars 0 (Split (TrimSpace s.toList)) with
  | .ok rows => rows.all (fun row => decide ((rows.headD []).length ≤ row.length))
  | _ => true

/-- The arrows of the chips of the board point at cells of the board. -/
def CircuitBoard.ArrowsOnBoard (b : CircuitBoard) : Prop :=
  ∀ (x y : Int) (ch : Chip) (o : Orientation), b.Contains x y = true →
    b.ChipAt x y = some ch → ch.hasArrow o = true →
    b.Contains (neighbour x y o).X (neighbour x y o).Y = true

/-- The invariant of the loops of `CircuitBoardFromString` on a board of
`W` by `H` chips. -/
def CircuitBoard.ParseInv (W H : Int) (b : CircuitBoard) : Prop :=
  b.width = W ∧ b.height = H ∧ b.WF ∧ b.StartInv ∧ b.ArrowsOnBoard

/-- The recorded Start position, if any, comes before column `x` of chip row
`y` in reading order. -/
def CircuitBoard.startBefore (b : CircuitBoard) (x y : Int) : Prop :=
  b.hasStartPos = true → b.startPos.Y < y ∨ (b.startPos.Y = y ∧ b.startPos.X < x)

/-- The number of Start chips the parser has met: 1 once `hasStartPos` is
set. -/
def CircuitBoard.startCount (b : CircuitBoard) : Nat := if b.hasStartPos then 1 else 0

/-- The number of chips of type Start on the board. -/
def CircuitBoard.startChips (b : CircuitBoard) : Nat :=
  b.chips.countP (fun ch => decide (ch.Type = .StartChip))

/-- A parse result that panics only when `short` holds and whose value, when
it has one, satisfies `P`. -/
def ParseResult.SatOr {α : Type} (short : Prop) (r : ParseResult α) (P : α → Prop) : Prop :=
  (r = .panicked → short) ∧ ∀ a, r = .ok a → P a

/-! ## The frame of `SetChipAt` -/

/-- What `SetChipAt(x, y, c)` makes of the chip `old` stored at index `k`, for
an index other than the target's: the chip at the previous Start position
loses its type when `c` is a Start chip, and the chips at the targets of the
Yes and No arrows of `c` lose their arrow of the reversed orientation. -/
def CircuitBoard.afterSet (b : CircuitBoard) (x y : Int) (c : Chip) (k : Int) (old : Chip) :
    Chip :=
  let o1 :=
    if c.Type = .StartChip ∧ b.hasStartPos = true ∧
        k = b.chipIndex b.startPos.X b.startPos.Y then old.WithType .NoChip
    else old
  let o2 :=
    if c.ArrowYes.2 = true ∧
        k = b.chipIndex (neighbour x y c.ArrowYes.1).X (neighbour x y c.ArrowYes.1).Y then
      o1.ClearArrow c.ArrowYes.1.Reverse
    else o1
  if c.ArrowNo.2 = true ∧
      k = b.chipIndex (neighbour x y c.ArrowNo.1).X (neighbour x y c.ArrowNo.1).Y then
    o2.ClearArrow c.ArrowNo.1.Reverse
  else o2

/-! ## Flags of a parsed maze -/

/-- The number of `F` glyphs in the flag/robot positions (offset 2 in each
group of 3) of a row, `j` being the offset of its first character. -/
def flagCountFrom : Nat → List Char → Nat
  | _, [] => 0
  | j, c :: cs => (if j % 3 = 2 ∧ c = 'F' then 1 else 0) + flagCountFrom (j + 1) cs

/-- The number of `F` glyphs in the flag/robot positions of the cell rows (the
lines of odd index), `i` being the index of the first line of the list. -/
def flagCountRows : Nat → List (List Char) → Nat
  | _, [] => 0
  | i, row :: rows =>
    (if i % 2 = 1 then flagCountFrom 0 row else 0) + flagCountRows (i + 1) rows

/-- The invariant of the loops of `MazeFromString` for the counters: `n`
flags met so far, all of them counted by `flags` and marked in the cells, no
cell captured, and no flag yet on the cells from index `K` on. -/
def Maze.FlagInv (K n : Nat) (m : Maze) : Prop :=
  m.flags = (n : Int) ∧ m.countFlag = (n : Int) ∧ m.captured = 0 ∧
    (∀ cell ∈ m.cells, Cell.Captured cell = false) ∧
    (∀ (k : Nat) (cell : Cell), K ≤ k → m.cells[k]? = some cell → Cell.Flag cell = false)

/-- The maze of the text `+--+--+ / | F|RF| / +--+--+ / |Y>|  | / +--+--+`: two
flag cells in the first row, the second one red, a yellow cell with the robot
facing East below. -/
def flagMaze : Maze :=
  { width := 2, height := 2, cells := [15, 31, 39, 7],
    robot := some (Robot.mk { X := 0, Y := 1 } .East false NoColor),
    flags := 2, captured := 0 }

/-! ## Calls as the program makes them -/

/-- Every call of the list, run in order from `m`, is of one of two kinds: a
capture, whose mask has the Captured bit and not the Flag bit (as `KF`) and
whose target cell has its Flag bit set and its Captured bit clear; or a call
whose mask carries the Flag bit if its target cell holds it and carries the
Captured bit exactly when its target cell holds it. -/
def Maze.callsByDesign (m : Maze) : List (Int × Int × Cell) → Bool
  | [] => true
  | (x, y, c) :: rest =>
    match m.CellAt x y, m.UpdateCellAt x y c with
    | some p, some m1 =>
      ((Cell.Captured c && !Cell.Flag c && Cell.Flag p && !Cell.Captured p) ||
          ((!Cell.Flag p || Cell.Flag c) && (Cell.Captured c == Cell.Captured p))) &&
        m1.callsByDesign rest
    | _, _ => false

/-! # Theorems -/

/-! ## Slices -/

theorem sliceGet_some {α : Type} {xs : List α} {i : Int} {a : α} (h : sliceGet xs i = some a) :
    0 ≤ i ∧ xs[i.toNat]? = some a := by
  unfold sliceGet at h
  split at h
  · simp at h
  · exact ⟨by omega, h⟩

theorem sliceSet_of_get {α : Type} {xs : List α} {i : Int} {a : α} (b : α)
    (h : sliceGet xs i = some a) : sliceSet xs i b = some (xs.set i.toNat b) := by
  obtain ⟨h0, h1⟩ := sliceGet_some h
  have hlt : i.toNat < xs.length := by
    rcases List.getElem?_eq_some.1 h1 with ⟨hl, _⟩
    exact hl
  unfold sliceSet
  simp [not_lt.2 h0, hlt]

theorem sliceGet_set_same {α : Type} {xs : List α} {i : Int} {a : α} (b : α)
    (h : sliceGet xs i = some a) : sliceGet (xs.set i.toNat b) i = some b := by
  obtain ⟨h0, h1⟩ := sliceGet_some h
  have hlt : i.toNat < xs.length := by
    rcases List.getElem?_eq_some.1 h1 with ⟨hl, _⟩
    exact hl
  unfold sliceGet
  simp [not_lt.2 h0, hlt]

theorem countP_set_of_get {α : Type} (q : α → Bool) :
    ∀ (l : List α) (i : Nat) (old a : α), l[i]? = some old →
      ((l.set i a).countP q : Int)
        = (l.countP q : Int) - (if q old then 1 else 0) + (if q a then 1 else 0) := by
  intro l
  induction l with
  | nil => intro i old a h; simp at h
  | cons x xs ih =>
    intro i old a h
    cases i with
    | zero =>
      simp at h
      subst h
      simp only [List.set_cons_zero, List.countP_cons]
      push_cast
      split <;> split <;> simp
    | succ n =>
      simp at h
      have := ih n old a h
      simp only [List.set_cons_succ, List.countP_cons]
      push_cast
      rw [this]; ring

/-! ## Bit-level facts about cells -/

theorem Cell.Flag_eq_testBit (c : Cell) : Cell.Flag c = c.testBit 3 := by
  have h := Nat.and_two_pow c 3
  unfold Cell.Flag FF
  cases hb : c.testBit 3 <;> simp [hb] at h <;> simp [h]

theorem Cell.Captured_eq_testBit (c : Cell) : Cell.Captured c = c.testBit 6 := by
  have h := Nat.and_two_pow c 6
  unfold Cell.Captured KF
  cases hb : c.testBit 6 <;> simp [hb] at h <;> simp [h]

theorem Cell.Flag_andNot (p c : Cell) :
    Cell.Flag (andNot p c) = (Cell.Flag p && !Cell.Flag c) := by
  have h1 : Nat.testBit 255 3 = true := by decide
  simp [Cell.Flag_eq_testBit, andNot, byteNot, Nat.testBit_and, Nat.testBit_xor, h1]

theorem Cell.Captured_andNot (p c : Cell) :
    Cell.Captured (andNot p c) = (Cell.Captured p && !Cell.Captured c) := by
  have h1 : Nat.testBit 255 6 = true := by decide
  simp [Cell.Captured_eq_testBit, andNot, byteNot, Nat.testBit_and, Nat.testBit_xor, h1]

theorem Cell.Flag_merge (p c : Cell) :
    Cell.Flag ((if Cell.Color c ≠ NoColor then p &&& byteNot (C1 ||| C2) else p) ||| c)
      = (Cell.Flag p || Cell.Flag c) := by
  have h1 : Nat.testBit 255 3 = true := by decide
  have h2 : Nat.testBit C1 3 = false := by decide
  have h3 : Nat.testBit C2 3 = false := by decide
  split <;>
    simp [Cell.Flag_eq_testBit, byteNot, Nat.testBit_or, Nat.testBit_and, Nat.testBit_xor,
      h1, h2, h3]

theorem Cell.Captured_merge (p c : Cell) :
    Cell.Captured ((if Cell.Color c ≠ NoColor then p &&& byteNot (C1 ||| C2) else p) ||| c)
      = (Cell.Captured p || Cell.Captured c) := by
  have h1 : Nat.testBit 255 6 = true := by decide
  have h2 : Nat.testBit C1 6 = false := by decide
  have h3 : Nat.testBit C2 6 = false := by decide
  split <;>
    simp [Cell.Captured_eq_testBit, byteNot, Nat.testBit_or, Nat.testBit_and, Nat.testBit_xor,
      h1, h2, h3]

/-! ## `UpdateCellAt` -/

/-- What a successful `UpdateCellAt` does, spelled out. -/
theorem Maze.UpdateCellAt_some {m m1 : Maze} {x y : Int} {c : Cell}
    (h : m.UpdateCellAt x y c = some m1) :
    ∃ i p, m.cellIndex x y = some i ∧ sliceGet m.cells i = some p ∧
      m1.cells = m.cells.set i.toNat
        ((if Cell.Color c ≠ NoColor then p &&& byteNot (C1 ||| C2) else p) ||| c) ∧
      m1.flags = (if Cell.Flag p && !Cell.Flag c then m.flags - 1
        else if Cell.Flag c && !Cell.Flag p then m.flags + 1 else m.flags) ∧
      m1.captured = (if Cell.Captured p && !Cell.Captured c then m.captured - 1
        else if Cell.Captured c && !Cell.Captured p then m.captured + 1 else m.captured) ∧
      m1.width = m.width ∧ m1.height = m.height ∧ m1.robot = m.robot := by
  unfold Maze.UpdateCellAt at h
  simp only [Option.bind_eq_bind, Option.bind_eq_some, Option.pure_def, Option.some.injEq] at h
  obtain ⟨i, hi, p, hp, cells, hset, rfl⟩ := h
  refine ⟨i, p, hi, hp, ?_, ?_, ?_, rfl, rfl, rfl⟩
  · rw [sliceSet_of_get _ hp] at hset
    simpa using hset.symm
  · simp only [Cell.Flag_andNot]
  · simp only [Cell.Captured_andNot]

/-- Success of `UpdateCellAt` wherever `CellAt` succeeds. -/
theorem Maze.UpdateCellAt_of_CellAt {m : Maze} {x y : Int} {p : Cell} (c : Cell)
    (h : m.CellAt x y = some p) : ∃ m1, m.UpdateCellAt x y c = some m1 := by
  unfold Maze.CellAt at h
  simp only [Option.bind_eq_bind, Option.bind_eq_some] at h
  obtain ⟨i, hi, hp⟩ := h
  unfold Maze.UpdateCellAt
  simp [hi, hp, sliceSet_of_get _ hp]

theorem Maze.cellIndex_congr {m m1 : Maze} (hw : m1.width = m.width) (hh : m1.height = m.height)
    (x y : Int) : m1.cellIndex x y = m.cellIndex x y := by
  unfold Maze.cellIndex
  rw [hw, hh]

/-- Marking an uncaptured flag cell with `KF`: the call succeeds, the cell
gains the Captured bit, `flags` drops by one and `captured` grows by one. -/
theorem Maze.UpdateCellAt_capture {m : Maze} {x y : Int} {cell : Cell}
    (hc : m.CellAt x y = some cell) (hf : Cell.Flag cell = true)
    (hk : Cell.Captured cell = false) :
    ∃ m1 i, m.UpdateCellAt x y KF = some m1 ∧ m.cellIndex x y = some i ∧
      sliceGet m.cells i = some cell ∧ m1.cells = m.cells.set i.toNat (cell ||| KF) ∧
      m1.flags = m.flags - 1 ∧ m1.captured = m.captured + 1 ∧
      m1.width = m.width ∧ m1.height = m.height ∧ m1.robot = m.robot := by
  obtain ⟨m1, h1⟩ := Maze.UpdateCellAt_of_CellAt KF hc
  obtain ⟨i, p, hi, hp, hcells, hflags, hcap, hw, hh, hr⟩ := Maze.UpdateCellAt_some h1
  have hp2 : p = cell := by
    unfold Maze.CellAt at hc
    simp only [Option.bind_eq_bind, Option.bind_eq_some] at hc
    obtain ⟨j, hj, hjp⟩ := hc
    rw [hi] at hj
    cases hj
    rw [hp] at hjp
    exact Option.some.inj hjp
  subst hp2
  have hcol : Cell.Color KF = NoColor := by decide
  have hfk : Cell.Flag KF = false := by decide
  have hkk : Cell.Captured KF = true := by decide
  refine ⟨m1, i, h1, hi, hp, ?_, ?_, ?_, hw, hh, hr⟩
  · rw [hcells]; simp [hcol]
  · rw [hflags]; simp [hf, hfk]
  · rw [hcap]; simp [hk, hkk]

/-- The result of `AdvanceRobot` with no paint pending, spelled out. -/
theorem Maze.AdvanceRobot_noPaint {m : Maze} {r : Robot} {cell : Cell}
    (hr : m.robot = some r) (hc : m.CellAt r.Advance.X r.Advance.Y = some cell)
    (hp : r.Advance.ColorPainting = NoColor) :
    m.AdvanceRobot =
      if Cell.Flag cell && !Cell.Captured cell then
        (m.UpdateCellAt r.Advance.X r.Advance.Y KF).map
          (fun m1 => { m1 with robot := some r.Advance })
      else some { m with robot := some r.Advance } := by
  unfold Maze.AdvanceRobot
  simp only [hr, Option.bind_eq_bind, Option.some_bind, hc, hp, ne_eq, not_true_eq_false,
    ite_false, Option.pure_def]
  split
  · cases m.UpdateCellAt r.Advance.X r.Advance.Y KF <;> simp
  · simp

/-! ## C1: cell index wrapping -/

theorem tmod_neg_bounds {v n : Int} (hv : v < 0) (hn : 0 < n) :
    -n < Int.tmod v n ∧ Int.tmod v n ≤ 0 := by
  obtain ⟨k, rfl⟩ := Int.eq_succ_of_zero_lt hn
  cases v with
  | ofNat m => exact absurd hv (by simp)
  | negSucc m =>
    have h1 : Int.tmod (Int.negSucc m) ((k.succ : Nat) : Int)
        = -(((m + 1) % (k + 1) : Nat) : Int) := rfl
    rw [h1]
    have h3 : (m + 1) % (k + 1) < k + 1 := Nat.mod_lt (m + 1) (Nat.succ_pos k)
    generalize (m + 1) % (k + 1) = r at h3 ⊢
    push_cast
    omega

/-- The wrap of one coordinate, as the code computes it with Go's truncated
remainder. -/
theorem wrapCoord_eq {v n : Int} (hn : 0 < n) :
    (if v < 0 then (goMod v n).bind (fun r => some (r + n))
      else if v ≥ n then goMod v n else some v) = some (wrapCoord v n) := by
  have hn0 : n ≠ 0 := by omega
  unfold goMod wrapCoord
  simp only [hn0, if_false, Option.some_bind]
  by_cases hv : v < 0
  · obtain ⟨h1, h2⟩ := tmod_neg_bounds hv hn
    simp only [hv, if_true, true_and, Option.some.injEq]
    split
    · rename_i hd
      rw [Int.tmod_eq_zero_of_dvd hd]; simp
    · rename_i hd
      have hne : Int.tmod v n ≠ 0 := fun h => hd (Int.dvd_of_tmod_eq_zero h)
      have hdef := Int.tmod_def v n
      have e : v = (Int.tmod v n + n) + (v.tdiv n - 1) * n := by rw [hdef]; ring
      have : v % n = (Int.tmod v n + n) % n := by
        conv_lhs => rw [e]
        exact Int.add_mul_emod_self
      rw [this, Int.emod_eq_of_lt (by omega) (by omega)]
  · simp only [hv, if_false, false_and]
    by_cases hb : v ≥ n
    · simp only [hb, if_true, Option.some.injEq]
      exact Int.tmod_eq_emod (by omega) (le_of_lt hn)
    · simp only [hb, if_false, Option.some.injEq]
      exact (Int.emod_eq_of_lt (by omega) (by omega)).symm

/-- What `cellIndex` computes on a maze of positive width and height: each
coordinate is wrapped to its non-negative remainder, except that a negative
multiple of the axis length is wrapped to the axis length itself. -/
theorem Maze.cellIndex_eq (m : Maze) (x y : Int) (hw : 0 < m.width) (hh : 0 < m.height) :
    m.cellIndex x y = some (wrapCoord x m.width + wrapCoord y m.height * m.width) := by
  have hx := wrapCoord_eq (v := x) hw
  have hy := wrapCoord_eq (v := y) hh
  have gx : goMod x m.width = some (Int.tmod x m.width) := by
    simp [goMod, ne_of_gt hw]
  have gy : goMod y m.height = some (Int.tmod y m.height) := by
    simp [goMod, ne_of_gt hh]
  unfold Maze.cellIndex
  simp only [gx, gy, Option.bind_eq_bind, Option.pure_def, Option.some_bind] at hx hy ⊢
  split_ifs at hx hy ⊢ <;> simp only [Option.some.injEq] at hx hy ⊢ <;> rw [← hx, ← hy]


/-- C1: the cell index is not the non-negative remainder at a negative multiple
of the width. On the 3x2 maze `cellIndex(-3, 1)` is 6 = w*h, outside
[0, w*h), where the wrapped index (x mod w) + (y mod h)*w is 3, and
`CellAt(-3, 1)` fails with an index out of range. -/
theorem cellIndex_negative_multiple_out_of_range :
    (NewMaze 3 2).bind (fun m => m.cellIndex (-3) 1) = some 6 ∧
    (NewMaze 3 2).bind (fun m => m.CellAt (-3) 1) = none ∧
    (NewMaze 3 2).bind (fun m => m.CellAt 0 1) = some 0 ∧
    ((-3 : Int) % 3 + ((1 : Int) % 2) * 3 = 3) := by
  decide

/-! ## C2: counters against a recount -/

/-- One `UpdateCellAt` whose mask keeps the Flag and Captured bits of its
target cell preserves the agreement of both counters with a recount. -/
theorem Maze.UpdateCellAt_recount {m m1 : Maze} {x y : Int} {c p : Cell}
    (hinv : m.flags = m.countFlag ∧ m.captured = m.countCaptured)
    (hc : m.CellAt x y = some p)
    (hf : (!Cell.Flag p || Cell.Flag c) = true)
    (hk : (!Cell.Captured p || Cell.Captured c) = true)
    (h : m.UpdateCellAt x y c = some m1) :
    m1.flags = m1.countFlag ∧ m1.captured = m1.countCaptured := by
  obtain ⟨i, p1, hi, hp, hcells, hflags, hcap, -, -, -⟩ := Maze.UpdateCellAt_some h
  have hp2 : p1 = p := by
    unfold Maze.CellAt at hc
    simp only [Option.bind_eq_bind, Option.bind_eq_some] at hc
    obtain ⟨j, hj, hjp⟩ := hc
    rw [hi] at hj
    cases hj
    rw [hp] at hjp
    exact Option.some.inj hjp
  subst hp2
  obtain ⟨-, hget⟩ := sliceGet_some hp
  constructor
  · unfold Maze.countFlag
    rw [hcells, countP_set_of_get Cell.Flag _ _ p1 _ hget, hflags, Cell.Flag_merge, hinv.1]
    unfold Maze.countFlag
    cases h1 : Cell.Flag p1 <;> cases h2 : Cell.Flag c <;> simp [h1, h2] at hf ⊢
  · unfold Maze.countCaptured
    rw [hcells, countP_set_of_get Cell.Captured _ _ p1 _ hget, hcap, Cell.Captured_merge, hinv.2]
    unfold Maze.countCaptured
    cases h1 : Cell.Captured p1 <;> cases h2 : Cell.Captured c <;> simp [h1, h2] at hk ⊢

theorem Maze.updateAll_recount_from (calls : List (Int × Int × Cell)) :
    ∀ m : Maze, (m.flags = m.countFlag ∧ m.captured = m.countCaptured) →
      m.masksKeepBits calls = true →
      ∃ m1, m.updateAll calls = some m1 ∧
        m1.flags = m1.countFlag ∧ m1.captured = m1.countCaptured := by
  induction calls with
  | nil => intro m hinv _; exact ⟨m, rfl, hinv⟩
  | cons call rest ih =>
    intro m hinv hk
    obtain ⟨x, y, c⟩ := call
    unfold Maze.masksKeepBits at hk
    cases hc : m.CellAt x y with
    | none => simp [hc] at hk
    | some p =>
      cases hu : m.UpdateCellAt x y c with
      | none => simp [hc, hu] at hk
      | some m1 =>
        simp only [hc, hu, Bool.and_eq_true] at hk
        obtain ⟨⟨hf, hcap⟩, hrest⟩ := hk
        have hinv1 := Maze.UpdateCellAt_recount hinv hc hf hcap hu
        obtain ⟨m2, hm2, hres⟩ := ih m1 hinv1 hrest
        exact ⟨m2, by simp [Maze.updateAll, hu, hm2], hres⟩

theorem NewMaze_recount {w h : Int} {m0 : Maze} (hnew : NewMaze w h = some m0) :
    m0.flags = m0.countFlag ∧ m0.captured = m0.countCaptured := by
  unfold NewMaze goMake at hnew
  split at hnew
  · simp at hnew
  · simp only [Option.bind_eq_bind, Option.some_bind, Option.pure_def, Option.some.injEq] at hnew
    subst hnew
    have h1 : Cell.Flag 0 = false := by decide
    have h2 : Cell.Captured 0 = false := by decide
    simp [Maze.countFlag, Maze.countCaptured, List.countP_replicate, h1, h2]

/-- C2 (as stated, fails): on the 1x1 empty maze, `UpdateCellAt(0,0,FF)` then
`UpdateCellAt(0,0,KF)` leaves `FlagsRemaining()` at 0 although one cell still
has its Flag bit set. -/
theorem recount_fails_after_flag_then_capture :
    ((NewMaze 1 1).bind (fun m => m.updateAll [(0, 0, FF), (0, 0, KF)])).map
      (fun m => (m.FlagsRemaining, m.countFlag, m.FlagsCaptured, m.countCaptured))
      = some (0, 1, 1, 1) := by
  decide

/-- Masks that keep bits: starting from an empty maze, after any sequence of
`UpdateCellAt` calls in which every mask carries the Flag and Captured bits
that its target cell already holds, every call succeeds, `FlagsRemaining()`
equals the number of cells whose Flag bit is set and `FlagsCaptured()` equals
the number of cells whose Captured bit is set. No capture is such a call. -/
theorem updateAll_counters_equal_recount (w h : Int) (m0 : Maze)
    (calls : List (Int × Int × Cell)) (hnew : NewMaze w h = some m0)
    (hkeep : m0.masksKeepBits calls = true) :
    ∃ m, m0.updateAll calls = some m ∧
      m.FlagsRemaining = m.countFlag ∧ m.FlagsCaptured = m.countCaptured :=
  Maze.updateAll_recount_from calls m0 (NewMaze_recount hnew) hkeep

/-- An instance of masks that keep bits: a 2x1 maze given a corner, a wall, a
color and a flag on one cell and a flag plus its capture in one mask on the
other. -/
theorem updateAll_counters_equal_recount_witness :
    ∃ m, Maze.updateAll
        { width := 2, height := 1, cells := [0, 0], robot := none, flags := 0, captured := 0 }
        [(0, 0, CF), (0, 0, TF), (0, 0, Color.ToCell Red), (0, 0, FF), (1, 0, FF),
          (1, 0, FF ||| KF)] = some m ∧
      m.FlagsRemaining = m.countFlag ∧ m.FlagsCaptured = m.countCaptured :=
  updateAll_counters_equal_recount 2 1 _ _ (by decide) (by decide)

/-! ## C3, C5: capture by `AdvanceRobot` -/

theorem Cell.Flag_or_KF (cell : Cell) : Cell.Flag (cell ||| KF) = Cell.Flag cell := by
  have h : Nat.testBit KF 3 = false := by decide
  simp [Cell.Flag_eq_testBit, Nat.testBit_or, h]

theorem Cell.Captured_or_KF (cell : Cell) : Cell.Captured (cell ||| KF) = true := by
  have h : Nat.testBit KF 6 = true := by decide
  simp [Cell.Captured_eq_testBit, Nat.testBit_or, h]

/-- With only flag cells captured, the flag cells split into pending and
captured ones. -/
theorem countP_flag_split (cells : List Cell)
    (hall : cells.all (fun c => !Cell.Captured c || Cell.Flag c) = true) :
    (cells.countP Cell.Flag : Int)
      = (cells.countP (fun c => Cell.Flag c && !Cell.Captured c) : Nat)
        + (cells.countP Cell.Captured : Nat) := by
  induction cells with
  | nil => simp
  | cons x xs ih =>
    simp only [List.all_cons, Bool.and_eq_true] at hall
    have := ih hall.2
    simp only [List.countP_cons]
    push_cast
    rw [this]
    have hx := hall.1
    cases h1 : Cell.Flag x <;> cases h2 : Cell.Captured x <;> simp [h1, h2] at hx ⊢ <;> ring

theorem Maze.Consistent.sum {m : Maze} (h : m.Consistent) :
    m.FlagsCaptured + m.FlagsRemaining = m.countFlag ∧ 0 ≤ m.FlagsRemaining ∧
      0 ≤ m.FlagsCaptured := by
  obtain ⟨h1, h2, h3⟩ := h
  have := countP_flag_split m.cells h3
  unfold Maze.FlagsCaptured Maze.FlagsRemaining Maze.countFlag
  unfold Maze.countPending at h1
  unfold Maze.countCaptured at h2
  rw [h1, h2, this]
  refine ⟨by ring, by positivity, by positivity⟩

/-- One `AdvanceRobot` step with no paint pending keeps the counters
consistent with the cells. -/
theorem Maze.AdvanceRobot_consistent {m m1 : Maze} {r : Robot}
    (hinv : m.Consistent) (hr : m.robot = some r)
    (hp : r.Advance.ColorPainting = NoColor) (h : m.AdvanceRobot = some m1) :
    m1.Consistent := by
  cases hc : m.CellAt r.Advance.X r.Advance.Y with
  | none =>
    unfold Maze.AdvanceRobot at h
    simp [hr, hc] at h
  | some cell =>
    rw [Maze.AdvanceRobot_noPaint hr hc hp] at h
    split at h
    · rename_i hcond
      simp only [Bool.and_eq_true, Bool.not_eq_true'] at hcond
      obtain ⟨m2, i, hu, -, hget, hcells, hflags, hcap, -, -, -⟩ :=
        Maze.UpdateCellAt_capture hc hcond.1 hcond.2
      rw [hu] at h
      simp only [Option.map_some', Option.some.injEq] at h
      subst h
      obtain ⟨h1, h2, h3⟩ := hinv
      obtain ⟨-, hget2⟩ := sliceGet_some hget
      refine ⟨?_, ?_, ?_⟩
      · show m2.flags = Maze.countPending _
        unfold Maze.countPending
        show m2.flags = ((m2.cells.countP (fun c => Cell.Flag c && !Cell.Captured c) : Nat) : Int)
        rw [hcells, countP_set_of_get _ _ _ cell _ hget2, hflags, h1]
        unfold Maze.countPending
        simp [hcond.1, hcond.2, Cell.Captured_or_KF]
      · show m2.captured = Maze.countCaptured _
        unfold Maze.countCaptured
        show m2.captured = ((m2.cells.countP Cell.Captured : Nat) : Int)
        rw [hcells, countP_set_of_get _ _ _ cell _ hget2, hcap, h2]
        unfold Maze.countCaptured
        simp [hcond.2, Cell.Captured_or_KF]
      · show m2.cells.all _ = true
        rw [hcells, List.all_eq_true]
        intro a ha
        rcases List.mem_or_eq_of_mem_set ha with ha | ha
        · exact List.all_eq_true.1 h3 a ha
        · subst ha
          simp [Cell.Flag_or_KF, hcond.1]
    · simp only [Option.some.injEq] at h
      subst h
      exact hinv

theorem Maze.advanceAll_consistent (rs : List Robot) :
    ∀ m m1 : Maze, m.Consistent → (∀ r ∈ rs, r.Advance.ColorPainting = NoColor) →
      m.advanceAll rs = some m1 → m1.Consistent := by
  induction rs with
  | nil =>
    intro m m1 hinv _ h
    simp only [Maze.advanceAll, Option.some.injEq] at h
    subst h
    exact hinv
  | cons r rest ih =>
    intro m m1 hinv hp h
    simp only [Maze.advanceAll, Option.bind_eq_some] at h
    obtain ⟨m2, hstep, hrest⟩ := h
    have hinv0 : Maze.Consistent { m with robot := some r } := hinv
    have hinv2 := Maze.AdvanceRobot_consistent hinv0 rfl (hp r (List.mem_cons_self _ _)) hstep
    exact ih m2 m1 hinv2 (fun r1 hr1 => hp r1 (List.mem_cons_of_mem _ hr1)) hrest

/-- C3 (as stated, fails): a 2x1 maze built from the empty maze with a flag on
cell (1,0); the robot at (0,0) facing East advances onto the flag. Afterwards
`FlagsCaptured()` is 1 and `FlagsRemaining()` is 0. -/
theorem captured_exceeds_flags_after_capture :
    (((NewMaze 2 1).bind (fun m => m.UpdateCellAt 1 0 FF)).bind (fun m =>
        m.advanceAll [{ X := 0, Y := 0, Orientation := .East, movingForward := true,
                        painting := NoColor }])).map
      (fun m => (m.FlagsCaptured, m.FlagsRemaining)) = some (1, 0) := by
  decide

/-- C3 (amended): starting from a maze whose counters are consistent with its
cells the way a parsed maze has them (`flags` counts the flag cells not yet
captured, `captured` the captured cells, only flag cells are captured), after
any sequence of `AdvanceRobot` steps with no paint pending the counters are
still consistent: `FlagsCaptured() + FlagsRemaining()` equals the number of
cells whose Flag bit is set and neither counter is negative. -/
theorem advanceAll_counters_sum (m m1 : Maze) (rs : List Robot) (hinv : m.Consistent)
    (hpaint : ∀ r ∈ rs, r.Advance.ColorPainting = NoColor)
    (hrun : m.advanceAll rs = some m1) :
    m1.Consistent ∧ m1.FlagsCaptured + m1.FlagsRemaining = m1.countFlag ∧
      0 ≤ m1.FlagsRemaining ∧ 0 ≤ m1.FlagsCaptured :=
  ⟨Maze.advanceAll_consistent rs m m1 hinv hpaint hrun,
    (Maze.advanceAll_consistent rs m m1 hinv hpaint hrun).sum⟩

/-- Witness for C3 (amended): a 3x1 maze with flags on cells (1,0) and (2,0);
the robot walks East from (0,0) over the first flag. -/
theorem advanceAll_counters_sum_witness :
    (Maze.Consistent
      { width := 3, height := 1, cells := [0, 72, 8],
        robot := some { X := 1, Y := 0, Orientation := .East, movingForward := false,
                        painting := NoColor }, flags := 1, captured := 1 }) ∧
      ((1 : Int) + 1 = Maze.countFlag
      { width := 3, height := 1, cells := [0, 72, 8],
        robot := some { X := 1, Y := 0, Orientation := .East, movingForward := false,
                        painting := NoColor }, flags := 1, captured := 1 }) ∧
      (0 : Int) ≤ 1 ∧ (0 : Int) ≤ 1 :=
  advanceAll_counters_sum
    { width := 3, height := 1, cells := [0, 8, 8], robot := none, flags := 2, captured := 0 }
    { width := 3, height := 1, cells := [0, 72, 8],
      robot := some { X := 1, Y := 0, Orientation := .East, movingForward := false,
                      painting := NoColor }, flags := 1, captured := 1 }
    [{ X := 0, Y := 0, Orientation := .East, movingForward := false, painting := NoColor }]
    (by decide) (by decide) (by decide)

/-- Advancing onto an uncaptured flag tile with no paint pending: the tile
is captured, `captured` grows by one and `flags` drops by one. -/
theorem Maze.AdvanceRobot_capture (m : Maze) (r : Robot) (cell : Cell)
    (hr : m.robot = some r) (hc : m.CellAt r.Advance.X r.Advance.Y = some cell)
    (hf : Cell.Flag cell = true) (hk : Cell.Captured cell = false)
    (hp : r.Advance.ColorPainting = NoColor) :
    ∃ m1 cell1, m.AdvanceRobot = some m1 ∧
      m1.CellAt r.Advance.X r.Advance.Y = some cell1 ∧
      Cell.Captured cell1 = true ∧ Cell.Flag cell1 = true ∧
      m1.FlagsCaptured = m.FlagsCaptured + 1 ∧
      m1.FlagsRemaining = m.FlagsRemaining - 1 ∧
      m1.robot = some r.Advance := by
  obtain ⟨m2, i, hu, hi, hget, hcells, hflags, hcap, hw, hh, -⟩ :=
    Maze.UpdateCellAt_capture hc hf hk
  refine ⟨{ m2 with robot := some r.Advance }, cell ||| KF, ?_, ?_,
    Cell.Captured_or_KF cell, ?_, hcap, hflags, rfl⟩
  · rw [Maze.AdvanceRobot_noPaint hr hc hp, hu]
    simp [hf, hk]
  · unfold Maze.CellAt
    have hidx : Maze.cellIndex { m2 with robot := some r.Advance } r.Advance.X r.Advance.Y
        = some i := by
      rw [← hi]
      exact Maze.cellIndex_congr hw hh _ _
    rw [hidx]
    simp only [Option.bind_eq_bind, Option.some_bind]
    show sliceGet m2.cells i = _
    rw [hcells]
    exact sliceGet_set_same _ hget
  · rw [Cell.Flag_or_KF]; exact hf

/-- C5 (as stated, fails): a 3x1 maze with flags on cells (1,0) and (2,0) and
`FlagsRemaining()` = 2; the robot at (0,0) facing East advances onto the first
flag with no paint pending. `FlagsRemaining()` becomes 1: it is not left
unchanged. -/
theorem capture_lowers_flags_remaining :
    (Maze.AdvanceRobot
      { width := 3, height := 1, cells := [0, 8, 8],
        robot := some { X := 0, Y := 0, Orientation := .East, movingForward := true,
                        painting := NoColor },
        flags := 2, captured := 0 }).map
      (fun m => (m.FlagsRemaining, m.FlagsCaptured, m.cells)) = some (1, 1, [0, 72, 8]) := by
  decide

/-- C5 (amended): when `AdvanceRobot` moves the robot onto a tile carrying an
uncaptured flag (no paint pending), the call succeeds, the tile's Captured bit
is set (its Flag bit stays), `FlagsCaptured()` increases by one and
`FlagsRemaining()` decreases by one. -/
theorem AdvanceRobot_captures_flag (m : Maze) (r : Robot) (cell : Cell)
    (hr : m.robot = some r) (hc : m.CellAt r.Advance.X r.Advance.Y = some cell)
    (hf : Cell.Flag cell = true) (hk : Cell.Captured cell = false)
    (hp : r.Advance.ColorPainting = NoColor) :
    ∃ m1 cell1, m.AdvanceRobot = some m1 ∧
      m1.CellAt r.Advance.X r.Advance.Y = some cell1 ∧
      Cell.Captured cell1 = true ∧ Cell.Flag cell1 = true ∧
      m1.FlagsCaptured = m.FlagsCaptured + 1 ∧
      m1.FlagsRemaining = m.FlagsRemaining - 1 ∧
      m1.robot = some r.Advance :=
  Maze.AdvanceRobot_capture m r cell hr hc hf hk hp

/-- Witness for C5 (amended): the robot at (0,0) facing East on a 2x1 maze with
a flag on (1,0). -/
theorem AdvanceRobot_captures_flag_witness :
    ∃ m1 cell1, Maze.AdvanceRobot
        { width := 2, height := 1, cells := [0, 8],
          robot := some { X := 0, Y := 0, Orientation := .East, movingForward := true,
                          painting := NoColor },
          flags := 1, captured := 0 } = some m1 ∧
      m1.CellAt 1 0 = some cell1 ∧
      Cell.Captured cell1 = true ∧ Cell.Flag cell1 = true ∧
      m1.FlagsCaptured = 0 + 1 ∧ m1.FlagsRemaining = 1 - 1 ∧
      m1.robot = some { X := 1, Y := 0, Orientation := .East, movingForward := true,
                        painting := NoColor } :=
  AdvanceRobot_captures_flag
    { width := 2, height := 1, cells := [0, 8],
      robot := some { X := 0, Y := 0, Orientation := .East, movingForward := true,
                      painting := NoColor },
      flags := 1, captured := 0 }
    { X := 0, Y := 0, Orientation := .East, movingForward := true, painting := NoColor }
    8 rfl (by decide) (by decide) (by decide) (by decide)

/-! ## C4: winning on the last flag -/

/-- C4: when `FlagsRemaining()` is 1 and the robot's advance lands on a tile
carrying an uncaptured flag with no paint pending, `BoardController.Advance()`
returns, and on that call the tile is captured, `FlagsRemaining()` is 0,
`GameWon()` holds, the active markers are cleared and the robot is stopped. -/
theorem Advance_wins_on_last_flag (fuel : Nat) (c : BoardController) (r : Robot) (cell : Cell)
    (hr : c.maze.robot = some r)
    (hc : c.maze.CellAt r.Advance.X r.Advance.Y = some cell)
    (hf : Cell.Flag cell = true) (hk : Cell.Captured cell = false)
    (hp : r.Advance.ColorPainting = NoColor)
    (hone : c.maze.FlagsRemaining = 1) :
    ∃ c1 cell1, c.Advance fuel = .returned c1 ∧
      c1.maze.CellAt r.Advance.X r.Advance.Y = some cell1 ∧
      Cell.Captured cell1 = true ∧
      c1.maze.FlagsRemaining = 0 ∧ c1.GameWon = true ∧
      c1.board = c.board.ClearActiveChips ∧ c1.maze.robot = some r.Advance.Stop := by
  obtain ⟨m1, cell1, hadv, hcell1, hcap1, -, -, hrem, hrob⟩ :=
    Maze.AdvanceRobot_capture c.maze r cell hr hc hf hk hp
  have hzero : m1.FlagsRemaining = 0 := by rw [hrem, hone]; rfl
  have hflags : m1.flags = 0 := hzero
  refine ⟨{ c with board := c.board.ClearActiveChips,
                   maze := { m1 with robot := some r.Advance.Stop } }, cell1, ?_, ?_, hcap1,
    hzero, ?_, rfl, rfl⟩
  · unfold BoardController.Advance
    simp [hadv, BoardController.GameWon, hzero, Maze.StopRobot, hrob]
  · have : Maze.cellIndex { m1 with robot := some r.Advance.Stop } r.Advance.X r.Advance.Y
        = m1.cellIndex r.Advance.X r.Advance.Y := Maze.cellIndex_congr rfl rfl _ _
    unfold Maze.CellAt at hcell1 ⊢
    rw [this]
    exact hcell1
  · simp [BoardController.GameWon, Maze.FlagsRemaining, hflags]

/-- Witness for C4: the spec's scenario, a 1x1 maze with a flag, the robot on
it facing East (the advance wraps around onto the same tile), and a 1x1 board
holding only the Start chip. -/
theorem Advance_wins_on_last_flag_witness :
    ∃ c1 cell1, BoardController.Advance 1
        { board := { width := 1, height := 1, chips := [Chip.zero.WithType .StartChip],
                     startPos := { X := 0, Y := 0 }, hasStartPos := true },
          maze := { width := 1, height := 1, cells := [15],
                    robot := some (Robot.mk { X := 0, Y := 0 } .East true NoColor),
                    flags := 1, captured := 0 },
          boardPos := { X := 0, Y := 0 }, deadEnd := false } = .returned c1 ∧
      c1.maze.CellAt 1 0 = some cell1 ∧
      Cell.Captured cell1 = true ∧
      c1.maze.FlagsRemaining = 0 ∧ c1.GameWon = true ∧
      c1.board = CircuitBoard.ClearActiveChips
        { width := 1, height := 1, chips := [Chip.zero.WithType .StartChip],
          startPos := { X := 0, Y := 0 }, hasStartPos := true } ∧
      c1.maze.robot = some (Robot.mk { X := 1, Y := 0 } .East false NoColor) :=
  Advance_wins_on_last_flag 1
    { board := { width := 1, height := 1, chips := [Chip.zero.WithType .StartChip],
                 startPos := { X := 0, Y := 0 }, hasStartPos := true },
      maze := { width := 1, height := 1, cells := [15],
                robot := some (Robot.mk { X := 0, Y := 0 } .East true NoColor),
                flags := 1, captured := 0 },
      boardPos := { X := 0, Y := 0 }, deadEnd := false }
    (Robot.mk { X := 0, Y := 0 } .East true NoColor)
    15 rfl (by decide) (by decide) (by decide) (by decide) rfl

/-! ## Circuit board: the shape of `SetChipAt` -/

theorem CircuitBoard.SetChipAt_eq (b : CircuitBoard) (x y : Int) (c : Chip) :
    b.SetChipAt x y c =
      (sliceGet b.chips (b.chipIndex x y)).bind (fun pc =>
      (b.startStep x y c pc).bind (fun b1 =>
      (b1.arrowStep x y c.ArrowYes).bind (fun b2 =>
      (b2.arrowStep x y c.ArrowNo).bind (fun b3 =>
      (sliceSet b3.chips (b3.chipIndex x y) c).bind (fun chips =>
      some { b3 with chips := chips }))))) := by
  unfold CircuitBoard.SetChipAt CircuitBoard.startStep CircuitBoard.arrowStep
  cases sliceGet b.chips (b.chipIndex x y) with
  | none => rfl
  | some pc =>
    simp only [Option.bind_eq_bind, Option.some_bind, Option.pure_def]
    by_cases h1 : c.ArrowYes.2 = true <;> by_cases h2 : c.ArrowNo.2 = true <;>
      by_cases h3 : c.Type = .StartChip <;> by_cases h4 : pc.Type = .StartChip <;>
      by_cases h5 : b.hasStartPos = true <;>
      simp only [h1, h2, h3, h4, h5, if_true, if_false, Bool.false_eq_true, reduceIte,
        Option.bind_assoc, Option.some_bind]

theorem sliceGet_set_ne {α : Type} {xs : List α} {i j : Int} (b : α)
    (hi : 0 ≤ i) (hj : 0 ≤ j) (hne : i ≠ j) :
    sliceGet (xs.set i.toNat b) j = sliceGet xs j := by
  unfold sliceGet
  have : i.toNat ≠ j.toNat := by omega
  simp [not_lt.2 hj, List.getElem?_set_ne this]

theorem sliceSet_some {α : Type} {xs ys : List α} {i : Int} {a : α}
    (h : sliceSet xs i a = some ys) :
    0 ≤ i ∧ i.toNat < xs.length ∧ ys = xs.set i.toNat a := by
  unfold sliceSet at h
  split at h
  · simp at h
  · split at h
    · exact ⟨by omega, by assumption, by simpa using h.symm⟩
    · simp at h

theorem sliceGet_of_lt {α : Type} {xs : List α} {i : Int} (h0 : 0 ≤ i)
    (h1 : i.toNat < xs.length) : ∃ a, sliceGet xs i = some a := by
  unfold sliceGet
  simp only [not_lt.2 h0, ite_false]
  exact ⟨xs[i.toNat], List.getElem?_eq_getElem h1⟩

/-! ## C6: edge uniqueness -/

theorem Orientation.Reverse_Reverse (o : Orientation) : o.Reverse.Reverse = o := by
  cases o <;> rfl

theorem neighbour_back (x y : Int) (o : Orientation) :
    neighbour (neighbour x y o).X (neighbour x y o).Y o.Reverse = { X := x, Y := y } := by
  cases o <;> simp [neighbour, Position.Move, Orientation.VelocityForward, Orientation.Reverse]

theorem neighbour_ne (x y : Int) (o : Orientation) :
    ¬ ((neighbour x y o).X = x ∧ (neighbour x y o).Y = y) := by
  cases o <;> simp [neighbour, Position.Move, Orientation.VelocityForward]

theorem Chip.hasArrow_ClearArrow (c : Chip) (o o1 : Orientation) :
    (c.ClearArrow o).hasArrow o1 = (c.hasArrow o1 && decide (o1 ≠ o)) := by
  obtain ⟨t, ay, an, act, aa⟩ := c
  rcases ay with _ | a <;> rcases an with _ | a2 <;> cases o <;> cases o1 <;>
    (try cases a) <;> (try cases a2) <;> rfl

theorem Chip.hasArrow_WithType (c : Chip) (t : ChipType) (o : Orientation) :
    (c.WithType t).hasArrow o = c.hasArrow o := rfl

theorem Chip.Type_ClearArrow (c : Chip) (o : Orientation) : (c.ClearArrow o).Type = c.Type := rfl

theorem ArrowsShrink.shrink_refl (l : List Chip) : ArrowsShrink l l :=
  ⟨rfl, fun _ ch1 h => ⟨ch1, h, fun _ ho => ho⟩⟩

theorem ArrowsShrink.shrink_trans {l l1 l2 : List Chip} (h1 : ArrowsShrink l l1)
    (h2 : ArrowsShrink l1 l2) : ArrowsShrink l l2 := by
  refine ⟨h2.1.trans h1.1, fun j ch2 hj => ?_⟩
  obtain ⟨ch1, hj1, ha1⟩ := h2.2 j ch2 hj
  obtain ⟨ch, hj0, ha0⟩ := h1.2 j ch1 hj1
  exact ⟨ch, hj0, fun o ho => ha0 o (ha1 o ho)⟩

theorem ArrowsShrink.shrink_set {l : List Chip} {k : Nat} {ch v : Chip} (hk : l[k]? = some ch)
    (hv : ∀ o, v.hasArrow o = true → ch.hasArrow o = true) : ArrowsShrink l (l.set k v) := by
  refine ⟨by simp, fun j ch1 hj => ?_⟩
  by_cases hkj : k = j
  · subst hkj
    have hlt : k < l.length := (List.getElem?_eq_some.1 hk).1
    rw [List.getElem?_set_self hlt] at hj
    cases hj
    exact ⟨ch, hk, hv⟩
  · rw [List.getElem?_set_ne hkj] at hj
    exact ⟨ch1, hj, fun _ ho => ho⟩

/-- Shrinking keeps an absent arrow absent. -/
theorem ArrowsShrink.noArrow {l l1 : List Chip} (h : ArrowsShrink l l1) {i : Int} {ch ch1 : Chip}
    {o : Orientation} (hg : sliceGet l i = some ch) (hno : ch.hasArrow o = false)
    (hg1 : sliceGet l1 i = some ch1) : ch1.hasArrow o = false := by
  obtain ⟨-, h0⟩ := sliceGet_some hg
  obtain ⟨-, h1⟩ := sliceGet_some hg1
  obtain ⟨ch0, hch0, ha⟩ := h.2 _ ch1 h1
  rw [h0] at hch0
  cases hch0
  cases hb : ch1.hasArrow o
  · rfl
  · rw [ha o hb] at hno
    exact absurd hno (by simp)

theorem CircuitBoard.Contains_iff (b : CircuitBoard) (x y : Int) :
    b.Contains x y = true ↔ 0 ≤ x ∧ x < b.width ∧ 0 ≤ y ∧ y < b.height := by
  unfold CircuitBoard.Contains
  simp only [Bool.and_eq_true, decide_eq_true_eq, ge_iff_le]
  tauto

/-- An on-board cell has a valid index into the chip slice. -/
theorem CircuitBoard.index_valid {b : CircuitBoard} (hwf : b.WF) {x y : Int}
    (hc : b.Contains x y = true) :
    0 ≤ b.chipIndex x y ∧ (b.chipIndex x y).toNat < b.chips.length := by
  rw [CircuitBoard.Contains_iff] at hc
  obtain ⟨hx0, hxw, hy0, hyh⟩ := hc
  unfold CircuitBoard.chipIndex
  have h1 : 0 ≤ b.width * y := Int.mul_nonneg (by omega) hy0
  have h2 : b.width * y ≤ b.width * (b.height - 1) :=
    Int.mul_le_mul_of_nonneg_left (by omega) (by omega)
  have h3 : b.width * (b.height - 1) = b.width * b.height - b.width := by ring
  rw [hwf]
  constructor
  · omega
  · omega

/-- Distinct on-board cells have distinct indices. -/
theorem CircuitBoard.index_inj {b : CircuitBoard} {x y x1 y1 : Int}
    (hc : b.Contains x y = true) (hc1 : b.Contains x1 y1 = true)
    (h : b.chipIndex x y = b.chipIndex x1 y1) : x = x1 ∧ y = y1 := by
  rw [CircuitBoard.Contains_iff] at hc hc1
  obtain ⟨hx0, hxw, hy0, hyh⟩ := hc
  obtain ⟨hx10, hx1w, hy10, hy1h⟩ := hc1
  unfold CircuitBoard.chipIndex at h
  have hy : y = y1 := by
    by_contra hne
    rcases lt_or_gt_of_ne hne with hlt | hgt
    · have : b.width * (y + 1) ≤ b.width * y1 :=
        Int.mul_le_mul_of_nonneg_left (by omega) (by omega)
      have h3 : b.width * (y + 1) = b.width * y + b.width := by ring
      omega
    · have : b.width * (y1 + 1) ≤ b.width * y :=
        Int.mul_le_mul_of_nonneg_left (by omega) (by omega)
      have h3 : b.width * (y1 + 1) = b.width * y1 + b.width := by ring
      omega
  subst hy
  exact ⟨by omega, rfl⟩

theorem CircuitBoard.chipIndex_congr {b b1 : CircuitBoard} (hw : b1.width = b.width)
    (x y : Int) : b1.chipIndex x y = b.chipIndex x y := by
  unfold CircuitBoard.chipIndex
  rw [hw]

theorem CircuitBoard.Contains_congr {b b1 : CircuitBoard} (hw : b1.width = b.width)
    (hh : b1.height = b.height) (x y : Int) : b1.Contains x y = b.Contains x y := by
  unfold CircuitBoard.Contains
  rw [hw, hh]

/-- The Start bookkeeping of `SetChipAt` succeeds on a well-formed board whose
recorded Start position is on the board; it only changes a chip's type. -/
theorem CircuitBoard.startStep_ok {b : CircuitBoard} (hwf : b.WF)
    (hst : b.hasStartPos = true → b.Contains b.startPos.X b.startPos.Y = true)
    {x y : Int} (hxy : b.Contains x y = true) (c pc : Chip) :
    ∃ b1, b.startStep x y c pc = some b1 ∧ b1.width = b.width ∧ b1.height = b.height ∧
      ArrowsShrink b.chips b1.chips ∧
      (b1.hasStartPos = true → b.Contains b1.startPos.X b1.startPos.Y = true) := by
  unfold CircuitBoard.startStep
  by_cases h3 : c.Type = .StartChip
  · by_cases h5 : b.hasStartPos = true
    · obtain ⟨hi0, hi1⟩ := CircuitBoard.index_valid hwf (hst h5)
      obtain ⟨cs, hcs⟩ := sliceGet_of_lt hi0 hi1
      have hset := sliceSet_of_get (cs.WithType .NoChip) hcs
      refine ⟨
        { b with
          chips := b.chips.set (b.chipIndex b.startPos.X b.startPos.Y).toNat (cs.WithType .NoChip),
          startPos := { X := x, Y := y },
          hasStartPos := true },
        ?_, rfl, rfl, ?_, fun _ => hxy⟩
      · simp [h3, h5, CircuitBoard.ChipAt, hcs, hset]
      · exact ArrowsShrink.shrink_set (sliceGet_some hcs).2 (fun o ho => ho)
    · refine ⟨{ b with startPos := { X := x, Y := y }, hasStartPos := true }, ?_, rfl, rfl,
        ArrowsShrink.shrink_refl _, fun _ => hxy⟩
      simp [h3, h5]
  · by_cases h4 : pc.Type = .StartChip
    · refine ⟨{ b with hasStartPos := false, startPos := { X := 0, Y := 0 } }, ?_, rfl, rfl,
        ArrowsShrink.shrink_refl _, fun h => ?_⟩
      · simp [h3, h4]
      · simp at h
    · exact ⟨b, by simp [h3, h4], rfl, rfl, ArrowsShrink.shrink_refl _, hst⟩

/-- Deleting the arrow that points back from an on-board arrow target
succeeds, only removes arrows, and leaves no arrow of the reversed orientation
on the target. -/
theorem CircuitBoard.arrowStep_ok {b : CircuitBoard} (hwf : b.WF) {x y : Int}
    {a : Orientation × Bool}
    (ht : a.2 = true → b.Contains (neighbour x y a.1).X (neighbour x y a.1).Y = true) :
    ∃ b1, b.arrowStep x y a = some b1 ∧ b1.width = b.width ∧ b1.height = b.height ∧
      b1.startPos = b.startPos ∧ b1.hasStartPos = b.hasStartPos ∧
      ArrowsShrink b.chips b1.chips ∧
      (a.2 = true → ∃ ch1, b1.ChipAt (neighbour x y a.1).X (neighbour x y a.1).Y = some ch1 ∧
        ch1.hasArrow a.1.Reverse = false) := by
  unfold CircuitBoard.arrowStep
  by_cases ha : a.2 = true
  · obtain ⟨hi0, hi1⟩ := CircuitBoard.index_valid hwf (ht ha)
    obtain ⟨ch, hch⟩ := sliceGet_of_lt hi0 hi1
    have hset := sliceSet_of_get (ch.ClearArrow a.1.Reverse) hch
    refine ⟨
      { b with
        chips := b.chips.set (b.chipIndex (neighbour x y a.1).X (neighbour x y a.1).Y).toNat
          (ch.ClearArrow a.1.Reverse) },
      ?_, rfl, rfl, rfl, rfl, ?_, fun _ => ?_⟩
    · simp only [ha, if_true]
      unfold CircuitBoard.deleteArrow CircuitBoard.ChipAt
      unfold neighbour at hch hset
      simp [hch, hset]
      rfl
    · refine ArrowsShrink.shrink_set (sliceGet_some hch).2 (fun o ho => ?_)
      rw [Chip.hasArrow_ClearArrow] at ho
      simp only [Bool.and_eq_true] at ho
      exact ho.1
    · refine ⟨ch.ClearArrow a.1.Reverse, ?_, ?_⟩
      · unfold CircuitBoard.ChipAt
        exact sliceGet_set_same _ hch
      · rw [Chip.hasArrow_ClearArrow]
        simp
  · refine ⟨b, by simp [ha], rfl, rfl, rfl, rfl, ArrowsShrink.shrink_refl _, fun h => absurd h ha⟩

/-- One on-board `SetChipAt` call succeeds and keeps the board well formed,
edge-unique and with its recorded Start position on the board. -/
theorem CircuitBoard.SetChipAt_edgeUnique {b : CircuitBoard} (hwf : b.WF)
    (heu : b.EdgeUnique)
    (hst : b.hasStartPos = true → b.Contains b.startPos.X b.startPos.Y = true)
    {x y : Int} {c : Chip} (hcall : b.callOnBoard (x, y, c) = true) :
    ∃ b1, b.SetChipAt x y c = some b1 ∧ b1.width = b.width ∧ b1.height = b.height ∧
      b1.WF ∧ b1.EdgeUnique ∧
      (b1.hasStartPos = true → b1.Contains b1.startPos.X b1.startPos.Y = true) := by
  unfold CircuitBoard.callOnBoard at hcall
  simp only [Bool.and_eq_true, Bool.or_eq_true, Bool.not_eq_true'] at hcall
  obtain ⟨⟨hxy, hyes⟩, hno⟩ := hcall
  -- the target cell
  obtain ⟨hi0, hi1⟩ := CircuitBoard.index_valid hwf hxy
  obtain ⟨pc, hpc⟩ := sliceGet_of_lt hi0 hi1
  -- Start bookkeeping
  obtain ⟨b1, hb1, hw1, hh1, hs1, hst1⟩ := CircuitBoard.startStep_ok hwf hst hxy c pc
  have hwf1 : b1.WF := by
    unfold CircuitBoard.WF at hwf ⊢
    rw [hs1.1, hw1, hh1, hwf]
  -- Yes arrow
  have hyes1 : c.ArrowYes.2 = true →
      b1.Contains (neighbour x y c.ArrowYes.1).X (neighbour x y c.ArrowYes.1).Y = true := by
    intro h
    rw [CircuitBoard.Contains_congr hw1 hh1]
    rcases hyes with h1 | h1
    · rw [h] at h1; exact absurd h1 (by simp)
    · exact h1
  obtain ⟨b2, hb2, hw2, hh2, hsp2, hhs2, hs2, hy2⟩ := CircuitBoard.arrowStep_ok hwf1 hyes1
  have hwf2 : b2.WF := by
    unfold CircuitBoard.WF at hwf1 ⊢
    rw [hs2.1, hw2, hh2, hwf1]
  -- No arrow
  have hno2 : c.ArrowNo.2 = true →
      b2.Contains (neighbour x y c.ArrowNo.1).X (neighbour x y c.ArrowNo.1).Y = true := by
    intro h
    rw [CircuitBoard.Contains_congr hw2 hh2, CircuitBoard.Contains_congr hw1 hh1]
    rcases hno with h1 | h1
    · rw [h] at h1; exact absurd h1 (by simp)
    · exact h1
  obtain ⟨b3, hb3, hw3, hh3, hsp3, hhs3, hs3, hn3⟩ := CircuitBoard.arrowStep_ok hwf2 hno2
  have hw : b3.width = b.width := by rw [hw3, hw2, hw1]
  have hh : b3.height = b.height := by rw [hh3, hh2, hh1]
  have hlen : b3.chips.length = b.chips.length := by rw [hs3.1, hs2.1, hs1.1]
  have hshrink : ArrowsShrink b.chips b3.chips := (hs1.shrink_trans hs2).shrink_trans hs3
  -- the final write
  have hidx3 : b3.chipIndex x y = b.chipIndex x y := CircuitBoard.chipIndex_congr hw x y
  obtain ⟨p3, hp3⟩ : ∃ a, sliceGet b3.chips (b.chipIndex x y) = some a :=
    sliceGet_of_lt hi0 (by rw [hlen]; exact hi1)
  have hset := sliceSet_of_get c hp3
  refine ⟨{ b3 with chips := b3.chips.set (b.chipIndex x y).toNat c }, ?_, hw, hh, ?_, ?_, ?_⟩
  · rw [CircuitBoard.SetChipAt_eq]
    simp [hpc, hb1, hb2, hb3, hidx3, hset]
  · unfold CircuitBoard.WF
    show (b3.chips.set _ c).length = (b3.width * b3.height).toNat
    rw [List.length_set, hlen, hw, hh]
    exact hwf
  · -- every arrow of the new chip has its way back cleared
    have hclear : ∀ o, c.hasArrow o = true → ∀ q,
        b3.ChipAt (neighbour x y o).X (neighbour x y o).Y = some q →
        q.hasArrow o.Reverse = false := by
      intro o ho q hq
      unfold Chip.hasArrow at ho
      simp only [Bool.or_eq_true, Bool.and_eq_true, beq_iff_eq] at ho
      rcases ho with ⟨hok, ho⟩ | ⟨hok, ho⟩
      · subst ho
        obtain ⟨ch2, hch2, hch2no⟩ := hy2 hok
        unfold CircuitBoard.ChipAt at hch2 hq
        rw [CircuitBoard.chipIndex_congr hw3] at hq
        exact hs3.noArrow hch2 hch2no hq
      · subst ho
        obtain ⟨ch3, hch3, hch3no⟩ := hn3 hok
        rw [hch3] at hq
        cases hq
        exact hch3no
    -- chips of the result, cell by cell
    have hother : ∀ x1 y1, b.Contains x1 y1 = true → ¬ (x1 = x ∧ y1 = y) →
        CircuitBoard.ChipAt { b3 with chips := b3.chips.set (b.chipIndex x y).toNat c } x1 y1
          = b3.ChipAt x1 y1 := by
      intro x1 y1 hc1 hne
      unfold CircuitBoard.ChipAt
      have hi : CircuitBoard.chipIndex
          { b3 with chips := b3.chips.set (b.chipIndex x y).toNat c } x1 y1
          = b.chipIndex x1 y1 := CircuitBoard.chipIndex_congr hw x1 y1
      rw [hi, CircuitBoard.chipIndex_congr hw x1 y1]
      show sliceGet (b3.chips.set (b.chipIndex x y).toNat c) _ = _
      apply sliceGet_set_ne _ hi0 (CircuitBoard.index_valid hwf hc1).1
      intro heq
      obtain ⟨e1, e2⟩ := CircuitBoard.index_inj hxy hc1 heq
      exact hne ⟨e1.symm, e2.symm⟩
    have hsame : CircuitBoard.ChipAt
        { b3 with chips := b3.chips.set (b.chipIndex x y).toNat c } x y = some c := by
      unfold CircuitBoard.ChipAt
      have hi : CircuitBoard.chipIndex
          { b3 with chips := b3.chips.set (b.chipIndex x y).toNat c } x y
          = b.chipIndex x y := CircuitBoard.chipIndex_congr hw x y
      rw [hi]
      exact sliceGet_set_same c hp3
    have hold : ∀ x1 y1 q3, b3.ChipAt x1 y1 = some q3 →
        ∃ q0, b.ChipAt x1 y1 = some q0 ∧ ∀ o, q3.hasArrow o = true → q0.hasArrow o = true := by
      intro x1 y1 q3 hq3
      unfold CircuitBoard.ChipAt at hq3 ⊢
      rw [CircuitBoard.chipIndex_congr hw] at hq3
      obtain ⟨h0, hget⟩ := sliceGet_some hq3
      obtain ⟨q0, hq0, ha⟩ := hshrink.2 _ q3 hget
      refine ⟨q0, ?_, ha⟩
      unfold sliceGet
      simp only [not_lt.2 h0, if_false]
      exact hq0
    intro x1 y1 o p q hc1 hc2 hp hq hboth
    have hc1b : b.Contains x1 y1 = true := by
      rw [← CircuitBoard.Contains_congr hw hh]; exact hc1
    have hc2b : b.Contains (neighbour x1 y1 o).X (neighbour x1 y1 o).Y = true := by
      rw [← CircuitBoard.Contains_congr hw hh]; exact hc2
    by_cases h1 : x1 = x ∧ y1 = y
    · obtain ⟨rfl, rfl⟩ := h1
      rw [hsame] at hp
      cases hp
      rw [hother _ _ hc2b (neighbour_ne x1 y1 o)] at hq
      have := hclear o hboth.1 q hq
      rw [hboth.2] at this
      exact absurd this (by simp)
    · rw [hother _ _ hc1b h1] at hp
      by_cases h2 : (neighbour x1 y1 o).X = x ∧ (neighbour x1 y1 o).Y = y
      · rw [h2.1, h2.2, hsame] at hq
        cases hq
        have hback := neighbour_back x1 y1 o
        rw [h2.1, h2.2] at hback
        have hp2 : b3.ChipAt (neighbour x y o.Reverse).X (neighbour x y o.Reverse).Y = some p := by
          rw [hback]; exact hp
        have := hclear o.Reverse hboth.2 p hp2
        rw [Orientation.Reverse_Reverse, hboth.1] at this
        exact absurd this (by simp)
      · rw [hother _ _ hc2b h2] at hq
        obtain ⟨p0, hp0, hpa⟩ := hold _ _ _ hp
        obtain ⟨q0, hq0, hqa⟩ := hold _ _ _ hq
        exact heu x1 y1 o p0 q0 hc1b hc2b hp0 hq0 ⟨hpa _ hboth.1, hqa _ hboth.2⟩
  · intro hs
    show CircuitBoard.Contains _ b3.startPos.X b3.startPos.Y = true
    have e : CircuitBoard.Contains { b3 with chips := b3.chips.set (b.chipIndex x y).toNat c }
        b3.startPos.X b3.startPos.Y = b.Contains b3.startPos.X b3.startPos.Y :=
      CircuitBoard.Contains_congr hw hh _ _
    rw [e, hsp3, hsp2]
    apply hst1
    rw [← hhs2, ← hhs3]
    exact hs

theorem CircuitBoard.callOnBoard_congr {b b1 : CircuitBoard} (hw : b1.width = b.width)
    (hh : b1.height = b.height) (call : Int × Int × Chip) :
    b1.callOnBoard call = b.callOnBoard call := by
  unfold CircuitBoard.callOnBoard
  simp only [CircuitBoard.Contains_congr hw hh]

theorem CircuitBoard.setAll_edgeUnique_from (calls : List (Int × Int × Chip)) :
    ∀ b : CircuitBoard, b.WF → b.EdgeUnique →
      (b.hasStartPos = true → b.Contains b.startPos.X b.startPos.Y = true) →
      (∀ call ∈ calls, b.callOnBoard call = true) →
      ∃ b1, b.setAll calls = some b1 ∧ b1.EdgeUnique := by
  induction calls with
  | nil => intro b _ heu _ _; exact ⟨b, rfl, heu⟩
  | cons call rest ih =>
    intro b hwf heu hst hon
    obtain ⟨x, y, c⟩ := call
    obtain ⟨b1, hb1, hw, hh, hwf1, heu1, hst1⟩ :=
      CircuitBoard.SetChipAt_edgeUnique hwf heu hst (hon (x, y, c) (List.mem_cons_self _ _))
    have hon1 : ∀ call ∈ rest, b1.callOnBoard call = true := by
      intro call hmem
      rw [CircuitBoard.callOnBoard_congr hw hh]
      exact hon call (List.mem_cons_of_mem _ hmem)
    obtain ⟨b2, hb2, heu2⟩ := ih b1 hwf1 heu1 hst1 hon1
    exact ⟨b2, by simp [CircuitBoard.setAll, hb1, hb2], heu2⟩

theorem NewCircuitBoard_some {w h : Int} {b0 : CircuitBoard}
    (hnew : NewCircuitBoard w h = some b0) :
    b0.width = w ∧ b0.height = h ∧ b0.chips = List.replicate (w * h).toNat Chip.zero ∧
      b0.hasStartPos = false := by
  unfold NewCircuitBoard goMake at hnew
  split at hnew
  · simp at hnew
  · simp only [Option.bind_eq_bind, Option.some_bind, Option.pure_def, Option.some.injEq] at hnew
    subst hnew
    exact ⟨rfl, rfl, rfl, rfl⟩

theorem NewCircuitBoard_chip {w h : Int} {b0 : CircuitBoard}
    (hnew : NewCircuitBoard w h = some b0) {x y : Int} {p : Chip}
    (hp : b0.ChipAt x y = some p) : p = Chip.zero := by
  obtain ⟨-, -, hchips, -⟩ := NewCircuitBoard_some hnew
  unfold CircuitBoard.ChipAt at hp
  obtain ⟨-, hget⟩ := sliceGet_some hp
  rw [hchips] at hget
  have hmem : p ∈ List.replicate (w * h).toNat Chip.zero := List.getElem?_mem hget
  exact (List.mem_replicate.1 hmem).2

/-- C6: starting from an empty board, every sequence of `SetChipAt` calls whose
target cells and arrow targets lie on the board succeeds and leaves no pair of
adjacent cells holding arrows (Yes or No) that point at each other. -/
theorem setAll_edge_unique (w h : Int) (b0 : CircuitBoard) (calls : List (Int × Int × Chip))
    (hnew : NewCircuitBoard w h = some b0)
    (hon : ∀ call ∈ calls, b0.callOnBoard call = true) :
    ∃ b, b0.setAll calls = some b ∧ b.EdgeUnique := by
  obtain ⟨hw, hh, hchips, hs⟩ := NewCircuitBoard_some hnew
  refine CircuitBoard.setAll_edgeUnique_from calls b0 ?_ ?_ ?_ hon
  · unfold CircuitBoard.WF
    rw [hchips, hw, hh, List.length_replicate]
  · intro x y o p q _ _ hp _ hboth
    have := NewCircuitBoard_chip hnew hp
    subst this
    cases o <;> simp [Chip.hasArrow, Chip.ArrowYes, Chip.ArrowNo, Chip.zero] at hboth
  · intro h
    rw [hs] at h
    exact absurd h (by simp)

/-- Witness for C6: on a 2x2 board, a chip at (0,0) pointing East, then a chip
at (1,0) pointing back West and down South, then a chip at (1,1) pointing
North. -/
theorem setAll_edge_unique_witness :
    ∃ b, CircuitBoard.setAll
        { width := 2, height := 2, chips := List.replicate 4 Chip.zero,
          startPos := { X := 0, Y := 0 }, hasStartPos := false }
        [(0, 0, (Chip.zero.WithType .StartChip).WithArrowYes .East),
         (1, 0, ((Chip.zero.WithType .IsWallAheadChip).WithArrowYes .West).WithArrowNo .South),
         (1, 1, (Chip.zero.WithType .ForwardChip).WithArrowYes .North)] = some b ∧
      b.EdgeUnique :=
  setAll_edge_unique 2 2
    { width := 2, height := 2, chips := List.replicate 4 Chip.zero,
      startPos := { X := 0, Y := 0 }, hasStartPos := false }
    [(0, 0, (Chip.zero.WithType .StartChip).WithArrowYes .East),
     (1, 0, ((Chip.zero.WithType .IsWallAheadChip).WithArrowYes .West).WithArrowNo .South),
     (1, 1, (Chip.zero.WithType .ForwardChip).WithArrowYes .North)]
    (by decide) (by decide)

/-! ## C7: Start uniqueness -/

theorem TypesSame.types_refl (l : List Chip) : TypesSame l l :=
  ⟨rfl, fun _ ch1 h => ⟨ch1, h, rfl⟩⟩

theorem TypesSame.types_trans {l l1 l2 : List Chip} (h1 : TypesSame l l1) (h2 : TypesSame l1 l2) :
    TypesSame l l2 := by
  refine ⟨h2.1.trans h1.1, fun j ch2 hj => ?_⟩
  obtain ⟨ch1, hj1, ha1⟩ := h2.2 j ch2 hj
  obtain ⟨ch, hj0, ha0⟩ := h1.2 j ch1 hj1
  exact ⟨ch, hj0, ha1.trans ha0⟩

theorem TypesSame.types_set {l : List Chip} {k : Nat} {ch v : Chip} (hk : l[k]? = some ch)
    (hv : v.Type = ch.Type) : TypesSame l (l.set k v) := by
  refine ⟨by simp, fun j ch1 hj => ?_⟩
  by_cases hkj : k = j
  · subst hkj
    have hlt : k < l.length := (List.getElem?_eq_some.1 hk).1
    rw [List.getElem?_set_self hlt] at hj
    cases hj
    exact ⟨ch, hk, hv⟩
  · rw [List.getElem?_set_ne hkj] at hj
    exact ⟨ch1, hj, rfl⟩

theorem OnlyStartAt.of_typesSame {l l1 : List Chip} {s : Option Nat} (h : OnlyStartAt l s)
    (ht : TypesSame l l1) : OnlyStartAt l1 s := by
  intro i ci hi hci
  obtain ⟨ch, hch, hty⟩ := ht.2 i ci hi
  exact h i ch hch (hty ▸ hci)

/-- Demoting the only Start chip leaves no Start chip. -/
theorem OnlyStartAt.demote {l : List Chip} {k : Nat} {cs : Chip} (h : OnlyStartAt l (some k)) :
    OnlyStartAt (l.set k (cs.WithType .NoChip)) none := by
  intro i ci hi hci
  by_cases hki : k = i
  · subst hki
    by_cases hlt : k < l.length
    · rw [List.getElem?_set_self hlt] at hi
      cases hi
      simp [Chip.WithType, Chip.Type] at hci
    · rw [List.getElem?_eq_none (by simpa using hlt)] at hi
      cases hi
  · rw [List.getElem?_set_ne hki] at hi
    have := h i ci hi hci
    simp only [Option.some.injEq] at this
    exact absurd this hki

/-- Writing a chip at index `k` of a slice without Start chips leaves at most
the chip at `k` of type Start. -/
theorem OnlyStartAt.write {l : List Chip} {k : Nat} (c : Chip) (h : OnlyStartAt l none) :
    OnlyStartAt (l.set k c) (some k) := by
  intro i ci hi hci
  by_cases hki : k = i
  · rw [hki]
  · rw [List.getElem?_set_ne hki] at hi
    exact absurd (h i ci hi hci) (by simp)

/-- Writing a non-Start chip keeps the Start chips where they are, and removes
the Start chip when written over it. -/
theorem OnlyStartAt.write_other {l : List Chip} {k : Nat} {s : Option Nat} {c : Chip}
    (h : OnlyStartAt l s) (hc : c.Type ≠ .StartChip) :
    OnlyStartAt (l.set k c) (if s = some k then none else s) := by
  intro i ci hi hci
  by_cases hki : k = i
  · subst hki
    by_cases hlt : k < l.length
    · rw [List.getElem?_set_self hlt] at hi
      cases hi
      exact absurd hci hc
    · rw [List.getElem?_eq_none (by simpa using hlt)] at hi
      cases hi
  · rw [List.getElem?_set_ne hki] at hi
    have := h i ci hi hci
    subst this
    have hne : ¬ (some i = some k) := by
      intro e
      exact hki (Option.some.inj e).symm
    simp [hne]

theorem CircuitBoard.deleteArrow_types {b b1 : CircuitBoard} {p : Position} {o : Orientation}
    (h : b.deleteArrow p o = some b1) :
    b1.width = b.width ∧ b1.height = b.height ∧ b1.startPos = b.startPos ∧
      b1.hasStartPos = b.hasStartPos ∧ TypesSame b.chips b1.chips := by
  unfold CircuitBoard.deleteArrow CircuitBoard.ChipAt at h
  simp only [Option.bind_eq_bind, Option.bind_eq_some, Option.pure_def, Option.some.injEq] at h
  obtain ⟨ch, hch, chips, hset, rfl⟩ := h
  rw [sliceSet_of_get _ hch] at hset
  cases hset
  exact ⟨rfl, rfl, rfl, rfl, TypesSame.types_set (sliceGet_some hch).2 rfl⟩

theorem CircuitBoard.arrowStep_types {b b1 : CircuitBoard} {x y : Int} {a : Orientation × Bool}
    (h : b.arrowStep x y a = some b1) :
    b1.width = b.width ∧ b1.height = b.height ∧ b1.startPos = b.startPos ∧
      b1.hasStartPos = b.hasStartPos ∧ TypesSame b.chips b1.chips := by
  unfold CircuitBoard.arrowStep at h
  split at h
  · exact CircuitBoard.deleteArrow_types h
  · simp only [Option.pure_def, Option.some.injEq] at h
    subst h
    exact ⟨rfl, rfl, rfl, rfl, TypesSame.types_refl _⟩

/-- What a successful Start bookkeeping step does. -/
theorem CircuitBoard.startStep_some {b b1 : CircuitBoard} {x y : Int} {c pc : Chip}
    (h : b.startStep x y c pc = some b1) :
    b1.width = b.width ∧ b1.height = b.height ∧ b1.chips.length = b.chips.length ∧
      (c.Type = .StartChip →
        b1.startPos = { X := x, Y := y } ∧ b1.hasStartPos = true ∧
        (b.hasStartPos = true → ∃ cs,
          sliceGet b.chips (b.chipIndex b.startPos.X b.startPos.Y) = some cs ∧
          b1.chips = b.chips.set (b.chipIndex b.startPos.X b.startPos.Y).toNat
            (cs.WithType .NoChip)) ∧
        (b.hasStartPos = false → b1.chips = b.chips)) ∧
      (c.Type ≠ .StartChip →
        b1.chips = b.chips ∧
        (pc.Type = .StartChip → b1.hasStartPos = false ∧ b1.startPos = { X := 0, Y := 0 }) ∧
        (pc.Type ≠ .StartChip → b1.hasStartPos = b.hasStartPos ∧ b1.startPos = b.startPos)) := by
  unfold CircuitBoard.startStep at h
  by_cases h3 : c.Type = .StartChip
  · by_cases h5 : b.hasStartPos = true
    · simp only [h3, h5, if_true, Option.bind_eq_bind, Option.bind_eq_some, Option.pure_def,
        Option.some.injEq, CircuitBoard.ChipAt] at h
      obtain ⟨cs, hcs, chips, hset, b0, rfl, rfl⟩ := h
      rw [sliceSet_of_get _ hcs] at hset
      cases hset
      refine ⟨rfl, rfl, by simp, fun _ => ⟨rfl, rfl, fun _ => ⟨cs, hcs, rfl⟩, fun hf => ?_⟩,
        fun hne => absurd h3 hne⟩
      rw [h5] at hf
      exact absurd hf (by simp)
    · simp only [h3, h5, if_true, Bool.false_eq_true, if_false, Option.bind_eq_bind,
        Option.pure_def, Option.some_bind, Option.some.injEq] at h
      subst h
      refine ⟨rfl, rfl, rfl, fun _ => ⟨rfl, rfl, fun ht => absurd ht h5, fun _ => rfl⟩,
        fun hne => absurd h3 hne⟩
  · by_cases h4 : pc.Type = .StartChip
    · simp only [h3, h4, if_true, if_false, Option.pure_def, Option.some.injEq] at h
      subst h
      exact ⟨rfl, rfl, rfl, fun ht => absurd ht h3,
        fun _ => ⟨rfl, fun _ => ⟨rfl, rfl⟩, fun hne => absurd h4 hne⟩⟩
    · simp only [h3, h4, if_false, Option.pure_def, Option.some.injEq] at h
      subst h
      exact ⟨rfl, rfl, rfl, fun ht => absurd ht h3,
        fun _ => ⟨rfl, fun ht => absurd ht h4, fun _ => ⟨rfl, rfl⟩⟩⟩

theorem TypesSame.forward {l l1 : List Chip} (h : TypesSame l l1) {i : Int} {ch : Chip}
    (hg : sliceGet l i = some ch) : ∃ ch1, sliceGet l1 i = some ch1 ∧ ch1.Type = ch.Type := by
  obtain ⟨h0, hget⟩ := sliceGet_some hg
  have hlt : i.toNat < l1.length := by
    rw [h.1]
    exact (List.getElem?_eq_some.1 hget).1
  obtain ⟨ch1, hch1⟩ := sliceGet_of_lt h0 hlt
  obtain ⟨ch0, hch0, hty⟩ := h.2 _ ch1 (sliceGet_some hch1).2
  rw [hget] at hch0
  cases hch0
  exact ⟨ch1, hch1, hty⟩

/-- One `SetChipAt` call on an on-board cell keeps the Start invariant, demotes
the previous Start cell when a Start chip is installed elsewhere, and drops
the recorded Start position when the Start cell is overwritten. -/
theorem CircuitBoard.SetChipAt_start {b b1 : CircuitBoard} {x y : Int} {c : Chip}
    (hinv : b.StartInv) (hxy : b.Contains x y = true) (h : b.SetChipAt x y c = some b1) :
    b1.StartInv ∧ b1.width = b.width ∧ b1.height = b.height ∧
      (c.Type = .StartChip →
        b1.startPos = { X := x, Y := y } ∧ b1.hasStartPos = true ∧
        (b.hasStartPos = true → ¬ (b.startPos.X = x ∧ b.startPos.Y = y) →
          ∃ ch, b1.ChipAt b.startPos.X b.startPos.Y = some ch ∧ ch.Type = .NoChip)) ∧
      (c.Type ≠ .StartChip → b.hasStartPos = true → b.startPos = { X := x, Y := y } →
        b1.hasStartPos = false) := by
  rw [CircuitBoard.SetChipAt_eq] at h
  simp only [Option.bind_eq_some, Option.some.injEq] at h
  obtain ⟨pc, hpc, s1, hs1, s2, hs2, s3, hs3, chips, hset, rfl⟩ := h
  obtain ⟨hw1, hh1, hl1, hstart, hother⟩ := CircuitBoard.startStep_some hs1
  obtain ⟨hw2, hh2, hsp2, hhs2, ht2⟩ := CircuitBoard.arrowStep_types hs2
  obtain ⟨hw3, hh3, hsp3, hhs3, ht3⟩ := CircuitBoard.arrowStep_types hs3
  have hw : s3.width = b.width := by rw [hw3, hw2, hw1]
  have hh : s3.height = b.height := by rw [hh3, hh2, hh1]
  have ht : TypesSame s1.chips s3.chips := ht2.types_trans ht3
  have hidx : s3.chipIndex x y = b.chipIndex x y := CircuitBoard.chipIndex_congr hw x y
  rw [hidx] at hset
  obtain ⟨hi0, hi1, rfl⟩ := sliceSet_some hset
  obtain ⟨p3, hp3⟩ := sliceGet_of_lt hi0 hi1
  have hsame : sliceGet (s3.chips.set (b.chipIndex x y).toNat c) (b.chipIndex x y) = some c :=
    sliceGet_set_same c hp3
  have hpcget : b.chips[(b.chipIndex x y).toNat]? = some pc := (sliceGet_some hpc).2
  -- the chip at an on-board cell other than the target is the one of `s3`
  have hkeep : ∀ x1 y1, b.Contains x1 y1 = true → 0 ≤ b.chipIndex x1 y1 →
      ¬ (x1 = x ∧ y1 = y) →
      sliceGet (s3.chips.set (b.chipIndex x y).toNat c) (b.chipIndex x1 y1)
        = sliceGet s3.chips (b.chipIndex x1 y1) := by
    intro x1 y1 hc1 h0 hne
    apply sliceGet_set_ne _ hi0 h0
    intro heq
    obtain ⟨e1, e2⟩ := CircuitBoard.index_inj hxy hc1 heq
    exact hne ⟨e1.symm, e2.symm⟩
  by_cases h3 : c.Type = .StartChip
  · obtain ⟨hsp1, hhs1, hdem, hnodem⟩ := hstart h3
    have hnone1 : OnlyStartAt s1.chips none := by
      by_cases h5 : b.hasStartPos = true
      · obtain ⟨cs, -, hchips⟩ := hdem h5
        rw [hchips]
        have := hinv.1
        rw [h5] at this
        exact OnlyStartAt.demote this
      · have h5f : b.hasStartPos = false := by simpa using h5
        rw [hnodem h5f]
        have := hinv.1
        rw [h5f] at this
        exact this
    have hnone3 : OnlyStartAt s3.chips none := hnone1.of_typesSame ht
    refine ⟨⟨?_, fun _ => ⟨?_, c, ?_, h3⟩⟩, hw, hh, fun _ => ⟨?_, ?_, ?_⟩,
      fun hne => absurd h3 hne⟩
    · show OnlyStartAt (s3.chips.set _ c) (if s3.hasStartPos = true then _ else _)
      rw [hhs3, hhs2, hhs1, hsp3, hsp2, hsp1]
      simp only [if_true]
      have e : CircuitBoard.chipIndex { s3 with chips := s3.chips.set (b.chipIndex x y).toNat c }
          x y = b.chipIndex x y := CircuitBoard.chipIndex_congr hw x y
      show OnlyStartAt (s3.chips.set _ c) (some (CircuitBoard.chipIndex
        { s3 with chips := s3.chips.set (b.chipIndex x y).toNat c } x y).toNat)
      rw [e]
      exact OnlyStartAt.write c hnone3
    · show CircuitBoard.Contains _ s3.startPos.X s3.startPos.Y = true
      rw [hsp3, hsp2, hsp1]
      have e : CircuitBoard.Contains { s3 with chips := s3.chips.set (b.chipIndex x y).toNat c }
          x y = b.Contains x y := CircuitBoard.Contains_congr hw hh x y
      exact e.trans hxy
    · show sliceGet (s3.chips.set _ c) (CircuitBoard.chipIndex _ s3.startPos.X s3.startPos.Y)
        = some c
      rw [hsp3, hsp2, hsp1]
      have e : CircuitBoard.chipIndex { s3 with chips := s3.chips.set (b.chipIndex x y).toNat c }
          x y = b.chipIndex x y := CircuitBoard.chipIndex_congr hw x y
      show sliceGet (s3.chips.set _ c) (CircuitBoard.chipIndex
        { s3 with chips := s3.chips.set (b.chipIndex x y).toNat c } x y) = some c
      rw [e]
      exact hsame
    · show s3.startPos = _
      rw [hsp3, hsp2, hsp1]
    · show s3.hasStartPos = true
      rw [hhs3, hhs2, hhs1]
    · intro h5 hne
      obtain ⟨cs, hcs, hchips⟩ := hdem h5
      have hget1 : sliceGet s1.chips (b.chipIndex b.startPos.X b.startPos.Y)
          = some (cs.WithType .NoChip) := by
        rw [hchips]
        exact sliceGet_set_same _ hcs
      obtain ⟨ch3, hch3, hty3⟩ := ht.forward hget1
      refine ⟨ch3, ?_, hty3⟩
      unfold CircuitBoard.ChipAt
      have e : CircuitBoard.chipIndex { s3 with chips := s3.chips.set (b.chipIndex x y).toNat c }
          b.startPos.X b.startPos.Y = b.chipIndex b.startPos.X b.startPos.Y :=
        CircuitBoard.chipIndex_congr hw _ _
      rw [e]
      show sliceGet (s3.chips.set _ c) _ = _
      rw [hkeep _ _ (hinv.2 h5).1 (sliceGet_some hcs).1 hne]
      exact hch3
  · obtain ⟨hchips1, hpcstart, hpcother⟩ := hother h3
    have ht03 : TypesSame b.chips s3.chips := by
      rw [← hchips1]
      exact ht
    by_cases h4 : pc.Type = .StartChip
    · obtain ⟨hhs1, hsp1⟩ := hpcstart h4
      have hs := hinv.1 _ pc hpcget h4
      have h5 : b.hasStartPos = true := by
        by_contra hcon
        simp [hcon] at hs
      rw [h5] at hs
      simp only [if_true, Option.some.injEq] at hs
      have hfalse : s3.hasStartPos = false := by rw [hhs3, hhs2, hhs1]
      refine ⟨⟨?_, fun ht => ?_⟩, hw, hh, fun ht => absurd ht h3, fun _ _ _ => hfalse⟩
      · show OnlyStartAt (s3.chips.set _ c) (if s3.hasStartPos = true then _ else _)
        rw [hfalse]
        simp only [Bool.false_eq_true, if_false]
        have h1 := hinv.1
        rw [h5] at h1
        simp only [if_true] at h1
        have h2 := (h1.of_typesSame ht03).write_other (k := (b.chipIndex x y).toNat) h3
        rw [hs] at h2
        simpa using h2
      · have : s3.hasStartPos = true := ht
        rw [hfalse] at this
        exact absurd this (by simp)
    · obtain ⟨hhs1, hsp1⟩ := hpcother h4
      have hhs : s3.hasStartPos = b.hasStartPos := by rw [hhs3, hhs2, hhs1]
      have hsp : s3.startPos = b.startPos := by rw [hsp3, hsp2, hsp1]
      -- the Start cell, when recorded, is not the target
      have hne : b.hasStartPos = true → ¬ (b.startPos.X = x ∧ b.startPos.Y = y) := by
        intro h5 heq
        obtain ⟨-, ch, hch, hty⟩ := hinv.2 h5
        unfold CircuitBoard.ChipAt at hch
        rw [heq.1, heq.2, hpc] at hch
        cases hch
        exact h4 hty
      refine ⟨⟨?_, fun ht5 => ?_⟩, hw, hh, fun ht => absurd ht h3, fun _ h5 heq => ?_⟩
      · show OnlyStartAt (s3.chips.set _ c) (if s3.hasStartPos = true then _ else _)
        rw [hhs, hsp]
        have e : ∀ x1 y1, CircuitBoard.chipIndex
            { s3 with chips := s3.chips.set (b.chipIndex x y).toNat c } x1 y1
            = b.chipIndex x1 y1 := CircuitBoard.chipIndex_congr hw
        show OnlyStartAt (s3.chips.set _ c) (if b.hasStartPos = true then
          some (CircuitBoard.chipIndex
            { s3 with chips := s3.chips.set (b.chipIndex x y).toNat c }
            b.startPos.X b.startPos.Y).toNat else none)
        rw [e]
        have h2 := (hinv.1.of_typesSame ht03).write_other (k := (b.chipIndex x y).toNat) h3
        have hcond : ¬ ((if b.hasStartPos = true then
            some (b.chipIndex b.startPos.X b.startPos.Y).toNat else none)
            = some (b.chipIndex x y).toNat) := by
          intro hc
          by_cases h5 : b.hasStartPos = true
          · simp only [h5, if_true, Option.some.injEq] at hc
            obtain ⟨hcont, ch, hch, hty⟩ := hinv.2 h5
            have hget := (sliceGet_some hch).2
            rw [hc, hpcget] at hget
            cases hget
            exact h4 hty
          · simp [h5] at hc
        rw [if_neg hcond] at h2
        exact h2
      · have h5 : b.hasStartPos = true := by rw [← hhs]; exact ht5
        obtain ⟨hcont, ch, hch, hty⟩ := hinv.2 h5
        obtain ⟨ch3, hch3, hty3⟩ := ht03.forward hch
        refine ⟨?_, ch3, ?_, hty3.trans hty⟩
        · show CircuitBoard.Contains _ s3.startPos.X s3.startPos.Y = true
          rw [hsp]
          have e : CircuitBoard.Contains
              { s3 with chips := s3.chips.set (b.chipIndex x y).toNat c }
              b.startPos.X b.startPos.Y = b.Contains b.startPos.X b.startPos.Y :=
            CircuitBoard.Contains_congr hw hh _ _
          exact e.trans hcont
        · show sliceGet (s3.chips.set _ c) (CircuitBoard.chipIndex _ s3.startPos.X s3.startPos.Y)
            = some ch3
          rw [hsp]
          have e : CircuitBoard.chipIndex
              { s3 with chips := s3.chips.set (b.chipIndex x y).toNat c }
              b.startPos.X b.startPos.Y = b.chipIndex b.startPos.X b.startPos.Y :=
            CircuitBoard.chipIndex_congr hw _ _
          show sliceGet (s3.chips.set _ c) (CircuitBoard.chipIndex
            { s3 with chips := s3.chips.set (b.chipIndex x y).toNat c }
            b.startPos.X b.startPos.Y) = some ch3
          rw [e, hkeep _ _ hcont (sliceGet_some hch).1 (hne h5)]
          exact hch3
      · exact absurd (by rw [heq]; exact ⟨rfl, rfl⟩) (hne h5)

theorem CircuitBoard.StartInv.unique {b : CircuitBoard} (hinv : b.StartInv) : b.StartUnique := by
  refine ⟨?_, ⟨fun hs => ?_, fun hc => ?_⟩, fun hs => hinv.2 hs⟩
  · intro i j ci cj hi hj hci hcj
    have e1 := hinv.1 i ci hi hci
    have e2 := hinv.1 j cj hj hcj
    rw [e1] at e2
    exact Option.some.inj e2
  · obtain ⟨-, ch, hch, hty⟩ := hinv.2 hs
    unfold CircuitBoard.ChipAt at hch
    exact ⟨ch, List.getElem?_mem (sliceGet_some hch).2, hty⟩
  · obtain ⟨ch, hmem, hty⟩ := hc
    obtain ⟨i, hi⟩ := List.mem_iff_getElem?.1 hmem
    have e := hinv.1 i ch hi hty
    show b.hasStartPos = true
    by_contra hcon
    simp [hcon] at e

theorem NewCircuitBoard_startInv {w h : Int} {b0 : CircuitBoard}
    (hnew : NewCircuitBoard w h = some b0) : b0.StartInv := by
  obtain ⟨-, -, hchips, hs⟩ := NewCircuitBoard_some hnew
  refine ⟨?_, fun ht => ?_⟩
  · intro i ci hi hci
    rw [hchips] at hi
    have := (List.mem_replicate.1 (List.getElem?_mem hi)).2
    subst this
    simp [Chip.zero, Chip.Type] at hci
  · rw [hs] at ht
    exact absurd ht (by simp)

theorem CircuitBoard.setAll_startInv (calls : List (Int × Int × Chip)) :
    ∀ b b1 : CircuitBoard, b.StartInv → (∀ call ∈ calls, b.targetOnBoard call = true) →
      b.setAll calls = some b1 →
      b1.StartInv ∧ b1.width = b.width ∧ b1.height = b.height := by
  induction calls with
  | nil =>
    intro b b1 hinv _ h
    simp only [CircuitBoard.setAll, Option.some.injEq] at h
    subst h
    exact ⟨hinv, rfl, rfl⟩
  | cons call rest ih =>
    intro b b1 hinv hon h
    obtain ⟨x, y, c⟩ := call
    simp only [CircuitBoard.setAll, Option.bind_eq_some] at h
    obtain ⟨b2, hstep, hrest⟩ := h
    have hxy : b.Contains x y = true := hon (x, y, c) (List.mem_cons_self _ _)
    obtain ⟨hinv2, hw2, hh2, -, -⟩ := CircuitBoard.SetChipAt_start hinv hxy hstep
    have hon2 : ∀ call ∈ rest, b2.targetOnBoard call = true := by
      intro call hmem
      have := hon call (List.mem_cons_of_mem _ hmem)
      unfold CircuitBoard.targetOnBoard at this ⊢
      rw [CircuitBoard.Contains_congr hw2 hh2]
      exact this
    obtain ⟨hinv1, hw1, hh1⟩ := ih b2 b1 hinv2 hon2 hrest
    exact ⟨hinv1, hw1.trans hw2, hh1.trans hh2⟩

/-- C7: starting from an empty board, after any sequence of on-board
`SetChipAt` calls (state `b`) and after one more on-board call
`SetChipAt(x, y, c)` (state `b1`): at most one cell has type Start, `StartPos()`
reports ok = true exactly when a Start cell exists and then returns its
position; installing a Start chip records (x, y) and demotes the previous
Start cell, when it is another cell, to type None; overwriting the Start cell
with a non-Start chip leaves no Start cell. -/
theorem setAll_start_unique (w h : Int) (b0 b b1 : CircuitBoard)
    (calls : List (Int × Int × Chip)) (x y : Int) (c : Chip)
    (hnew : NewCircuitBoard w h = some b0)
    (hon : ∀ call ∈ calls, b0.targetOnBoard call = true)
    (hrun : b0.setAll calls = some b)
    (hxy : b0.Contains x y = true)
    (hstep : b.SetChipAt x y c = some b1) :
    b.StartUnique ∧ b1.StartUnique ∧
      (c.Type = .StartChip →
        b1.StartPos = ({ X := x, Y := y }, true) ∧
        (b.StartPos.2 = true → ¬ (b.StartPos.1.X = x ∧ b.StartPos.1.Y = y) →
          ∃ ch, b1.ChipAt b.StartPos.1.X b.StartPos.1.Y = some ch ∧ ch.Type = .NoChip)) ∧
      (c.Type ≠ .StartChip → b.StartPos = ({ X := x, Y := y }, true) →
        b1.StartPos.2 = false ∧ ¬ b1.HasStartCell) := by
  obtain ⟨hinv, hw, hh⟩ :=
    CircuitBoard.setAll_startInv calls b0 b (NewCircuitBoard_startInv hnew) hon hrun
  have hxyb : b.Contains x y = true := by
    rw [CircuitBoard.Contains_congr hw hh]; exact hxy
  obtain ⟨hinv1, -, -, hstart, hover⟩ := CircuitBoard.SetChipAt_start hinv hxyb hstep
  refine ⟨hinv.unique, hinv1.unique, fun h3 => ?_, fun h3 hsp => ?_⟩
  · obtain ⟨e1, e2, e3⟩ := hstart h3
    refine ⟨?_, e3⟩
    unfold CircuitBoard.StartPos
    rw [e1, e2]
  · unfold CircuitBoard.StartPos at hsp
    simp only [Prod.mk.injEq] at hsp
    have hfalse := hover h3 hsp.2 hsp.1
    refine ⟨hfalse, fun hc => ?_⟩
    have := (hinv1.unique.2.1).2 hc
    unfold CircuitBoard.StartPos at this
    simp only at this
    rw [hfalse] at this
    exact absurd this (by simp)

/-- Witness for C7: on a 2x1 board a Start chip is set at (0,0), then another
Start chip at (1,0): the result has its only Start cell at (1,0) and the cell
(0,0) is demoted to type None. -/
theorem setAll_start_unique_witness :
    CircuitBoard.StartUnique
        { width := 2, height := 1, chips := [Chip.zero, Chip.zero.WithType .StartChip],
          startPos := { X := 1, Y := 0 }, hasStartPos := true } ∧
      ∃ ch, CircuitBoard.ChipAt
          { width := 2, height := 1, chips := [Chip.zero, Chip.zero.WithType .StartChip],
            startPos := { X := 1, Y := 0 }, hasStartPos := true } 0 0 = some ch ∧
        ch.Type = .NoChip :=
  have key := setAll_start_unique 2 1
    { width := 2, height := 1, chips := [Chip.zero, Chip.zero],
      startPos := { X := 0, Y := 0 }, hasStartPos := false }
    { width := 2, height := 1, chips := [Chip.zero.WithType .StartChip, Chip.zero],
      startPos := { X := 0, Y := 0 }, hasStartPos := true }
    { width := 2, height := 1, chips := [Chip.zero, Chip.zero.WithType .StartChip],
      startPos := { X := 1, Y := 0 }, hasStartPos := true }
    [(0, 0, Chip.zero.WithType .StartChip)] 1 0 (Chip.zero.WithType .StartChip)
    (by decide) (by decide) (by decide) (by decide) (by decide)
  ⟨key.2.1, (key.2.2.1 rfl).2 rfl (by decide)⟩

/-! ## The traversal loop of `NextCommand` -/

theorem SameProgram.program_refl (l : List Chip) : SameProgram l l :=
  ⟨rfl, fun _ ch1 h => ⟨ch1, h, rfl, rfl, rfl⟩⟩

theorem SameProgram.program_trans {l l1 l2 : List Chip} (h1 : SameProgram l l1)
    (h2 : SameProgram l1 l2) : SameProgram l l2 := by
  refine ⟨h2.1.trans h1.1, fun j ch2 hj => ?_⟩
  obtain ⟨ch1, hj1, a1, a2, a3⟩ := h2.2 j ch2 hj
  obtain ⟨ch, hj0, b1, b2, b3⟩ := h1.2 j ch1 hj1
  exact ⟨ch, hj0, a1.trans b1, a2.trans b2, a3.trans b3⟩

theorem SameProgram.program_set {l : List Chip} {k : Nat} {ch v : Chip} (hk : l[k]? = some ch)
    (h1 : v.chipType = ch.chipType) (h2 : v.arrowYes = ch.arrowYes)
    (h3 : v.arrowNo = ch.arrowNo) : SameProgram l (l.set k v) := by
  refine ⟨by simp, fun j ch1 hj => ?_⟩
  by_cases hkj : k = j
  · subst hkj
    have hlt : k < l.length := (List.getElem?_eq_some.1 hk).1
    rw [List.getElem?_set_self hlt] at hj
    cases hj
    exact ⟨ch, hk, h1, h2, h3⟩
  · rw [List.getElem?_set_ne hkj] at hj
    exact ⟨ch1, hj, rfl, rfl, rfl⟩

theorem SameProgram.clearActive (l : List Chip) : SameProgram l (l.map Chip.ClearActive) := by
  refine ⟨by simp, fun j ch1 hj => ?_⟩
  rw [List.getElem?_map] at hj
  cases hl : l[j]? with
  | none => simp [hl] at hj
  | some ch =>
    simp only [hl, Option.map_some', Option.some.injEq] at hj
    subst hj
    exact ⟨ch, rfl, rfl, rfl, rfl⟩

/-- Chips with the same type and arrows answer `Command` and `Arrow` alike. -/
theorem Chip.sameProgram_eval {ch ch1 : Chip} (h1 : ch1.chipType = ch.chipType)
    (h2 : ch1.arrowYes = ch.arrowYes) (h3 : ch1.arrowNo = ch.arrowNo)
    (fc : Color) (wa : Bool) :
    ch1.Command fc wa = ch.Command fc wa ∧ ∀ a, ch1.Arrow a = ch.Arrow a := by
  refine ⟨by unfold Chip.Command; rw [h1], fun a => ?_⟩
  cases a <;> simp [Chip.Arrow, Chip.ArrowYes, Chip.ArrowNo, h2, h3]

theorem SameProgram.at {l l1 : List Chip} (h : SameProgram l l1) {i : Int} {ch1 : Chip}
    (hg : sliceGet l1 i = some ch1) (fc : Color) (wa : Bool) :
    ∃ ch, sliceGet l i = some ch ∧ ch1.Command fc wa = ch.Command fc wa ∧
      ∀ a, ch1.Arrow a = ch.Arrow a := by
  obtain ⟨h0, hget⟩ := sliceGet_some hg
  obtain ⟨ch, hch, e1, e2, e3⟩ := h.2 _ ch1 hget
  refine ⟨ch, ?_, Chip.sameProgram_eval e1 e2 e3 fc wa⟩
  unfold sliceGet
  simp only [not_lt.2 h0, if_false]
  exact hch

/-- The body of the loop, once the chip under the cursor is known. -/
theorem BoardController.loopBody_eq {c : BoardController} {chip : Chip} (fc : Color) (wa : Bool)
    (hchip : c.board.ChipAt c.boardPos.X c.boardPos.Y = some chip) :
    c.loopBody fc wa =
      if chip.hasNext fc wa = true then
        if chip.com fc wa = .NoCommand then
          (CircuitBoard.ChipAt (c.activated chip (chip.nextDir fc wa))
            (c.boardPos.Move (chip.nextDir fc wa).VelocityForward).X
            (c.boardPos.Move (chip.nextDir fc wa).VelocityForward).Y).map
            (fun next =>
              ({ c with
                 board := c.activated chip (chip.nextDir fc wa),
                 boardPos := c.boardPos.Move (chip.nextDir fc wa).VelocityForward,
                 deadEnd := next.IsActive }, chip.com fc wa))
        else
          some ({ c with
                  board := c.activated chip (chip.nextDir fc wa),
                  boardPos := c.boardPos.Move (chip.nextDir fc wa).VelocityForward,
                  deadEnd := false }, chip.com fc wa)
      else
        some ({ c with board := c.activated chip (chip.nextDir fc wa), deadEnd := true },
          chip.com fc wa) := by
  have hget : sliceGet c.board.chips (c.board.chipIndex c.boardPos.X c.boardPos.Y) = some chip :=
    hchip
  have hset := sliceSet_of_get (chip.Activate (chip.Arrow (chip.Command fc wa).2).1) hget
  unfold BoardController.loopBody CircuitBoard.ActivateChip
  unfold Chip.hasNext Chip.com Chip.nextDir BoardController.activated
  simp only [hchip, hget, hset, Option.bind_eq_bind, Option.some_bind, Option.pure_def]
  split
  · split
    · cases CircuitBoard.ChipAt _ _ _ <;> rfl
    · rfl
  · rfl

theorem BoardController.loop_succ (fc : Color) (wa : Bool) (fuel : Nat) (c : BoardController) :
    BoardController.loop fc wa (fuel + 1) c =
      match c.loopBody fc wa with
      | none => .panicked
      | some (c1, com) =>
        if com ≠ .NoCommand || c1.deadEnd then .returned (c1, com)
        else BoardController.loop fc wa fuel c1 := rfl

theorem countInactive_pos {l : List Chip} {i : Nat} {ch : Chip} (h : l[i]? = some ch)
    (hin : ch.IsActive = false) : 0 < countInactive l := by
  unfold countInactive
  rw [List.countP_pos_iff]
  exact ⟨ch, List.getElem?_mem h, by simp [hin]⟩

theorem countInactive_activate {l : List Chip} {i : Nat} {ch : Chip} (o : Orientation)
    (h : l[i]? = some ch) (hin : ch.IsActive = false) :
    countInactive (l.set i (ch.Activate o)) + 1 = countInactive l := by
  have key := countP_set_of_get (fun ch => !ch.IsActive) l i ch (ch.Activate o) h
  have h1 : (ch.Activate o).IsActive = true := rfl
  simp only [hin, h1, Bool.not_false, Bool.not_true, if_true, Bool.false_eq_true, if_false]
    at key
  unfold countInactive
  omega

/-- The traversal loop returns within as many iterations as there are inactive
chips, when it starts on an inactive chip and the cells it can reach (the set
`S`, closed under the arrows followed for the sensor values) are on the board.
The command returned is the one of a chip of `S`, and the loop only stops on a
command other than `NoCommand` or with a dead end recorded. -/
theorem BoardController.loop_returns (orig : CircuitBoard) (S : Int → Int → Prop)
    (fc : Color) (wa : Bool) (hwf : orig.WF)
    (hS : ∀ x y, S x y → orig.Contains x y = true)
    (hclosed : ∀ x y ch, S x y → orig.ChipAt x y = some ch → ch.hasNext fc wa = true →
      S (neighbour x y (ch.nextDir fc wa)).X (neighbour x y (ch.nextDir fc wa)).Y) :
    ∀ (fuel : Nat) (c : BoardController),
      c.board.width = orig.width → SameProgram orig.chips c.board.chips →
      S c.boardPos.X c.boardPos.Y →
      (∀ ch, c.board.ChipAt c.boardPos.X c.boardPos.Y = some ch → ch.IsActive = false) →
      countInactive c.board.chips ≤ fuel →
      ∃ c1 com, BoardController.loop fc wa fuel c = .returned (c1, com) ∧
        (com ≠ .NoCommand ∨ c1.deadEnd = true) ∧
        (∃ x y ch, S x y ∧ orig.ChipAt x y = some ch ∧ ch.com fc wa = com) ∧
        c1.maze = c.maze := by
  intro fuel
  induction fuel with
  | zero =>
    intro c hw hsame hcur hinact hfuel
    exfalso
    obtain ⟨hi0, hi1⟩ := CircuitBoard.index_valid hwf (hS _ _ hcur)
    rw [← hsame.1, ← CircuitBoard.chipIndex_congr hw] at hi1
    rw [← CircuitBoard.chipIndex_congr hw] at hi0
    obtain ⟨chip, hchip⟩ := sliceGet_of_lt hi0 hi1
    have := countInactive_pos (sliceGet_some hchip).2 (hinact chip hchip)
    omega
  | succ fuel ih =>
    intro c hw hsame hcur hinact hfuel
    obtain ⟨hi0, hi1⟩ := CircuitBoard.index_valid hwf (hS _ _ hcur)
    rw [← hsame.1, ← CircuitBoard.chipIndex_congr hw] at hi1
    rw [← CircuitBoard.chipIndex_congr hw] at hi0
    obtain ⟨chip, hchip⟩ := sliceGet_of_lt hi0 hi1
    have hchipAt : c.board.ChipAt c.boardPos.X c.boardPos.Y = some chip := hchip
    have hin : chip.IsActive = false := hinact chip hchip
    obtain ⟨och, hoch, hcmd, harr⟩ := hsame.at hchip fc wa
    rw [CircuitBoard.chipIndex_congr hw] at hoch
    have hochAt : orig.ChipAt c.boardPos.X c.boardPos.Y = some och := hoch
    have ecom : chip.com fc wa = och.com fc wa := by unfold Chip.com; rw [hcmd]
    have enext : chip.hasNext fc wa = och.hasNext fc wa := by
      unfold Chip.hasNext; rw [hcmd, harr]
    have edir : chip.nextDir fc wa = och.nextDir fc wa := by
      unfold Chip.nextDir; rw [hcmd, harr]
    have hsame1 : SameProgram orig.chips (c.activated chip (chip.nextDir fc wa)).chips :=
      hsame.program_trans (SameProgram.program_set (sliceGet_some hchip).2 rfl rfl rfl)
    rw [BoardController.loop_succ, BoardController.loopBody_eq fc wa hchipAt]
    by_cases hnext : chip.hasNext fc wa = true
    · have hS1 := hclosed _ _ och hcur hochAt (enext ▸ hnext)
      rw [← edir] at hS1
      have hpos : c.boardPos.Move (chip.nextDir fc wa).VelocityForward
          = neighbour c.boardPos.X c.boardPos.Y (chip.nextDir fc wa) := rfl
      by_cases hcom : chip.com fc wa = .NoCommand
      · obtain ⟨hj0, hj1⟩ := CircuitBoard.index_valid hwf (hS _ _ hS1)
        have hw1 : (c.activated chip (chip.nextDir fc wa)).width = orig.width := hw
        rw [← hsame1.1, ← CircuitBoard.chipIndex_congr hw1] at hj1
        rw [← CircuitBoard.chipIndex_congr hw1] at hj0
        obtain ⟨next, hnextchip⟩ := sliceGet_of_lt hj0 hj1
        have hnextAt : CircuitBoard.ChipAt (c.activated chip (chip.nextDir fc wa))
            (c.boardPos.Move (chip.nextDir fc wa).VelocityForward).X
            (c.boardPos.Move (chip.nextDir fc wa).VelocityForward).Y = some next := by
          rw [hpos]; exact hnextchip
        simp only [hnext, hcom, if_true, hnextAt, Option.map_some']
        by_cases hact : next.IsActive = true
        · refine ⟨{ c with
                      board := c.activated chip (chip.nextDir fc wa),
                      boardPos := c.boardPos.Move (chip.nextDir fc wa).VelocityForward,
                      deadEnd := next.IsActive },
              .NoCommand, ?_, Or.inr hact, ⟨_, _, och, hcur, hochAt, ?_⟩, rfl⟩
          · simp [hact]
          · rw [← ecom, hcom]
        · have hact' : next.IsActive = false := by simpa using hact
          simp only [hact', ne_eq, not_true_eq_false, decide_False, Bool.or_self,
            Bool.false_eq_true, if_false]
          have hcount := countInactive_activate (chip.nextDir fc wa) (sliceGet_some hchip).2 hin
          obtain ⟨c1, com, hloop, hstop, hwit, hmaze⟩ :=
            ih { c with
                 board := c.activated chip (chip.nextDir fc wa),
                 boardPos := c.boardPos.Move (chip.nextDir fc wa).VelocityForward,
                 deadEnd := false }
              hw1 hsame1 (by rw [hpos]; exact hS1)
              (by
                intro ch hch
                have : some next = some ch := hnextAt.symm.trans hch
                cases this
                exact hact')
              (by
                show countInactive (c.activated chip (chip.nextDir fc wa)).chips ≤ fuel
                have h2 : countInactive (c.activated chip (chip.nextDir fc wa)).chips + 1
                    = countInactive c.board.chips := hcount
                omega)
          exact ⟨c1, com, hloop, hstop, hwit, hmaze⟩
      · refine ⟨{ c with
                    board := c.activated chip (chip.nextDir fc wa),
                    boardPos := c.boardPos.Move (chip.nextDir fc wa).VelocityForward,
                    deadEnd := false },
            chip.com fc wa, ?_, Or.inl hcom, ⟨_, _, och, hcur, hochAt, ecom.symm⟩, rfl⟩
        simp [hnext, hcom]
    · refine ⟨{ c with board := c.activated chip (chip.nextDir fc wa), deadEnd := true },
          chip.com fc wa, ?_, Or.inr rfl, ⟨_, _, och, hcur, hochAt, ecom.symm⟩, rfl⟩
      simp [hnext]

/-! ## C8, C9: `NextCommand` returns -/

theorem BoardController.NextCommand_of_sensors {c : BoardController} {wa : Bool} {fc : Color}
    (fuel : Nat) (hdead : c.deadEnd = false) (hsens : c.sensors = some (wa, fc)) :
    BoardController.NextCommand fuel c
      = BoardController.loop fc wa fuel { c with board := c.board.ClearActiveChips } := by
  have hs : BoardController.sensors { c with board := c.board.ClearActiveChips }
      = some (wa, fc) := hsens
  unfold BoardController.NextCommand
  rw [if_neg (by simp [hdead])]
  simp only [hs]

theorem BoardController.NextCommand_of_no_sensors {c : BoardController}
    (fuel : Nat) (hdead : c.deadEnd = false) (hsens : c.sensors = none) :
    BoardController.NextCommand fuel c = .panicked := by
  have hs : BoardController.sensors { c with board := c.board.ClearActiveChips } = none := hsens
  unfold BoardController.NextCommand
  rw [if_neg (by simp [hdead])]
  simp only [hs]

/-- With no dead end recorded `NextCommand` returns within `width*height`
iterations when the cells the traversal can reach (the set `S`) are on the
board; the command is the one of a chip of `S`, and `NoCommand` is only
returned with a dead end recorded. -/
theorem BoardController.NextCommand_returns (c : BoardController) (S : Int → Int → Prop)
    (fuel : Nat) (wa : Bool) (fc : Color) (hdead : c.deadEnd = false) (hwf : c.board.WF)
    (hS : ∀ x y, S x y → c.board.Contains x y = true)
    (hcur : S c.boardPos.X c.boardPos.Y)
    (hsens : c.sensors = some (wa, fc))
    (hclosed : ∀ x y ch, S x y → c.board.ChipAt x y = some ch → ch.hasNext fc wa = true →
      S (neighbour x y (ch.nextDir fc wa)).X (neighbour x y (ch.nextDir fc wa)).Y)
    (hfuel : (c.board.width * c.board.height).toNat ≤ fuel) :
    ∃ c1 com, BoardController.NextCommand fuel c = .returned (c1, com) ∧
      (com ≠ .NoCommand ∨ c1.deadEnd = true) ∧
      (∃ x y ch, S x y ∧ c.board.ChipAt x y = some ch ∧ ch.com fc wa = com) ∧
      c1.maze = c.maze := by
  have hloop := BoardController.loop_returns c.board S fc wa hwf hS hclosed fuel
    { c with board := c.board.ClearActiveChips } rfl (SameProgram.clearActive _) hcur
    (by
      intro ch hch
      have hget := (sliceGet_some hch).2
      have hmem : ch ∈ c.board.chips.map Chip.ClearActive := List.getElem?_mem hget
      obtain ⟨ch0, -, rfl⟩ := List.mem_map.1 hmem
      rfl)
    (by
      have h1 : countInactive (c.board.chips.map Chip.ClearActive)
          ≤ (c.board.chips.map Chip.ClearActive).length := List.countP_le_length _
      rw [List.length_map, hwf] at h1
      exact h1.trans hfuel)
  obtain ⟨c1, com, hl, hstop, hwit, hmaze⟩ := hloop
  refine ⟨c1, com, ?_, hstop, hwit, hmaze⟩
  rw [BoardController.NextCommand_of_sensors fuel hdead hsens]
  exact hl

/-- C8: `NextCommand` terminates. With a dead end recorded it returns at once.
Otherwise, when the cursor is on the board and every arrow the traversal
follows for the current sensor values leads to a cell on the board (the cells
it can reach form a set `S` of on-board cells closed under those arrows), the
loop never needs more than `width*height` iterations: the call does not run
out of them, and it returns a command whenever the sensor values can be read
from the maze. -/
theorem NextCommand_terminates (c : BoardController) (S : Int → Int → Prop) (fuel : Nat)
    (hwf : c.board.WF)
    (hS : ∀ x y, S x y → c.board.Contains x y = true)
    (hcur : S c.boardPos.X c.boardPos.Y)
    (hclosed : ∀ wa fc x y ch, c.sensors = some (wa, fc) → S x y →
      c.board.ChipAt x y = some ch → ch.hasNext fc wa = true →
      S (neighbour x y (ch.nextDir fc wa)).X (neighbour x y (ch.nextDir fc wa)).Y)
    (hfuel : (c.board.width * c.board.height).toNat ≤ fuel) :
    BoardController.NextCommand fuel c ≠ .unfinished ∧
      (c.sensors ≠ none → ∃ c1 com, BoardController.NextCommand fuel c = .returned (c1, com)) := by
  by_cases hdead : c.deadEnd = true
  · have : BoardController.NextCommand fuel c = .returned (c, .NoCommand) := by
      unfold BoardController.NextCommand
      simp [hdead]
    exact ⟨by rw [this]; simp, fun _ => ⟨c, .NoCommand, this⟩⟩
  · have hdead' : c.deadEnd = false := by simpa using hdead
    cases hsens : c.sensors with
    | none =>
      refine ⟨?_, fun h => absurd rfl h⟩
      rw [BoardController.NextCommand_of_no_sensors fuel hdead' hsens]
      simp
    | some s =>
      obtain ⟨wa, fc⟩ := s
      obtain ⟨c1, com, hret, -, -, -⟩ :=
        BoardController.NextCommand_returns c S fuel wa fc hdead' hwf hS hcur hsens
          (hclosed wa fc · · · hsens) hfuel
      exact ⟨by rw [hret]; simp, fun _ => ⟨c1, com, hret⟩⟩

/-- C9: with no dead end recorded, if the traversal from the cursor only meets
chips that yield `NoCommand` for the current sensor values, along on-board
arrows (the cells it can reach form a set `S` of on-board cells closed under
the arrows followed, whose chips all yield `NoCommand`) - a cycle of such
chips included - then `NextCommand` returns `NoCommand` and records a dead
end. -/
theorem NextCommand_dead_end (c : BoardController) (S : Int → Int → Prop) (fuel : Nat)
    (wa : Bool) (fc : Color) (hdead : c.deadEnd = false) (hwf : c.board.WF)
    (hS : ∀ x y, S x y → c.board.Contains x y = true)
    (hcur : S c.boardPos.X c.boardPos.Y)
    (hsens : c.sensors = some (wa, fc))
    (hclosed : ∀ x y ch, S x y → c.board.ChipAt x y = some ch → ch.hasNext fc wa = true →
      S (neighbour x y (ch.nextDir fc wa)).X (neighbour x y (ch.nextDir fc wa)).Y)
    (hno : ∀ x y ch, S x y → c.board.ChipAt x y = some ch → (ch.Command fc wa).1 = .NoCommand)
    (hfuel : (c.board.width * c.board.height).toNat ≤ fuel) :
    ∃ c1, BoardController.NextCommand fuel c = .returned (c1, .NoCommand) ∧
      c1.deadEnd = true := by
  obtain ⟨c1, com, hret, hstop, ⟨x, y, ch, hxy, hch, hcom⟩, -⟩ :=
    BoardController.NextCommand_returns c S fuel wa fc hdead hwf hS hcur hsens hclosed hfuel
  have hcom0 : com = .NoCommand := by
    rw [← hcom]
    exact hno x y ch hxy hch
  subst hcom0
  rcases hstop with h | h
  · exact absurd rfl h
  · exact ⟨c1, hret, h⟩

theorem lineBoard_cells {x y : Int} (h : lineBoard.Contains x y = true) :
    (x = 0 ∧ y = 0) ∨ (x = 1 ∧ y = 0) := by
  rw [CircuitBoard.Contains_iff] at h
  have hw : lineBoard.width = 2 := rfl
  have hh : lineBoard.height = 1 := rfl
  omega

theorem cycleBoard_cells {x y : Int} (h : cycleBoard.Contains x y = true) :
    (x = 0 ∧ y = 0) ∨ (x = 1 ∧ y = 0) ∨ (x = 0 ∧ y = 1) ∨ (x = 1 ∧ y = 1) := by
  rw [CircuitBoard.Contains_iff] at h
  have hw : cycleBoard.width = 2 := rfl
  have hh : cycleBoard.height = 2 := rfl
  omega

/-- Witness for C8: the controller of the board `ST -> MF`. -/
theorem NextCommand_terminates_witness :
    BoardController.NextCommand 2 lineController ≠ .unfinished ∧
      (lineController.sensors ≠ none →
        ∃ c1 com, BoardController.NextCommand 2 lineController = .returned (c1, com)) :=
  NextCommand_terminates lineController (fun x y => lineBoard.Contains x y = true) 2
    (by decide) (fun _ _ h => h) (by decide)
    (by
      intro wa fc x y ch hsens hxy hch hnext
      have hs : lineController.sensors = some (false, 0) := by decide
      rw [hs] at hsens
      cases hsens
      rcases lineBoard_cells hxy with ⟨rfl, rfl⟩ | ⟨rfl, rfl⟩
      · have : lineController.board.ChipAt 0 0
            = some ((Chip.zero.WithType .StartChip).WithArrowYes .East) := by decide
        rw [this] at hch
        cases hch
        decide
      · have : lineController.board.ChipAt 1 0 = some (Chip.zero.WithType .ForwardChip) := by
          decide
        rw [this] at hch
        cases hch
        exact absurd hnext (by decide))
    (by decide)

/-- Witness for C9: the controller of the cyclic 2x2 board, whose four chips
all yield `NoCommand` on the open maze. -/
theorem NextCommand_dead_end_witness :
    ∃ c1, BoardController.NextCommand 4 cycleController = .returned (c1, .NoCommand) ∧
      c1.deadEnd = true :=
  NextCommand_dead_end cycleController (fun x y => cycleBoard.Contains x y = true) 4
    false 0 (by decide) (by decide) (fun _ _ h => h) (by decide) (by decide)
    (by
      intro x y ch hxy hch hnext
      rcases cycleBoard_cells hxy with ⟨rfl, rfl⟩ | ⟨rfl, rfl⟩ | ⟨rfl, rfl⟩ | ⟨rfl, rfl⟩
      · have : cycleController.board.ChipAt 0 0
            = some ((Chip.zero.WithType .StartChip).WithArrowYes .East) := by decide
        rw [this] at hch
        cases hch
        decide
      · have : cycleController.board.ChipAt 1 0
            = some ((Chip.zero.WithType .IsFloorRedChip).WithArrowNo .South) := by decide
        rw [this] at hch
        cases hch
        decide
      · have : cycleController.board.ChipAt 0 1
            = some ((Chip.zero.WithType .IsWallAheadChip).WithArrowNo .North) := by decide
        rw [this] at hch
        cases hch
        decide
      · have : cycleController.board.ChipAt 1 1 = some (Chip.zero.WithArrowYes .West) := by
          decide
        rw [this] at hch
        cases hch
        decide)
    (by
      intro x y ch hxy hch
      rcases cycleBoard_cells hxy with ⟨rfl, rfl⟩ | ⟨rfl, rfl⟩ | ⟨rfl, rfl⟩ | ⟨rfl, rfl⟩
      · have : cycleController.board.ChipAt 0 0
            = some ((Chip.zero.WithType .StartChip).WithArrowYes .East) := by decide
        rw [this] at hch
        cases hch
        decide
      · have : cycleController.board.ChipAt 1 0
            = some ((Chip.zero.WithType .IsFloorRedChip).WithArrowNo .South) := by decide
        rw [this] at hch
        cases hch
        decide
      · have : cycleController.board.ChipAt 0 1
            = some ((Chip.zero.WithType .IsWallAheadChip).WithArrowNo .North) := by decide
        rw [this] at hch
        cases hch
        decide
      · have : cycleController.board.ChipAt 1 1 = some (Chip.zero.WithArrowYes .West) := by
          decide
        rw [this] at hch
        cases hch
        decide)
    (by decide)

/-! ## C10: a chip without an arrow for its resolved label -/

theorem BoardController.loop_reaches (fc : Color) (wa : Bool) :
    ∀ (k : Nat) (c c1 : BoardController), BoardController.reaches fc wa k c c1 →
      ∀ fuel, BoardController.loop fc wa (fuel + k) c = BoardController.loop fc wa fuel c1 := by
  intro k
  induction k with
  | zero =>
    intro c c1 h fuel
    cases h
    rfl
  | succ k ih =>
    intro c c1 h fuel
    obtain ⟨c2, hbody, hdead, hrest⟩ := h
    show BoardController.loop fc wa ((fuel + k) + 1) c = _
    rw [BoardController.loop_succ, hbody]
    simp only [hdead, ne_eq, not_true_eq_false, decide_False, Bool.or_self, Bool.false_eq_true,
      if_false]
    exact ih c2 c1 hrest fuel

/-- C10 (as stated, fails): on the board `ST -> MF` the traversal reaches the
MoveForward chip, which has no outgoing arrow; `NextCommand` halts there,
records a dead end, and returns `MoveForward`, not `NoCommand`. -/
theorem NextCommand_returns_action_without_arrow :
    ∃ c1, BoardController.NextCommand 2 lineController = .returned (c1, .MoveForward) ∧
      c1.boardPos = { X := 1, Y := 0 } ∧ c1.deadEnd = true ∧
      (lineController.board.ChipAt 1 0).map (fun ch => (ch.ArrowYes.2, ch.ArrowNo.2))
        = some (false, false) :=
  ⟨_, rfl, rfl, rfl, rfl⟩

/-- C10 (amended): with no dead end recorded, when the traversal in
`NextCommand` reaches a chip that has no outgoing arrow for its resolved label
(whatever the chip's type), the traversal halts there with the cursor on that
chip, marks it active, records a dead end, and `NextCommand` returns that
chip's command: `NoCommand` for a Start, empty or test chip, the action for an
action chip. -/
theorem NextCommand_halts_without_arrow (c c1 : BoardController) (chip : Chip)
    (wa : Bool) (fc : Color) (k fuel : Nat)
    (hdead : c.deadEnd = false) (hsens : c.sensors = some (wa, fc))
    (hreach : BoardController.reaches fc wa k { c with board := c.board.ClearActiveChips } c1)
    (hchip : c1.board.ChipAt c1.boardPos.X c1.boardPos.Y = some chip)
    (hno : (chip.Arrow (chip.Command fc wa).2).2 = false)
    (hfuel : k < fuel) :
    BoardController.NextCommand fuel c =
      .returned ({ c1 with board := c1.activated chip (chip.nextDir fc wa), deadEnd := true },
        (chip.Command fc wa).1) := by
  obtain ⟨f, rfl⟩ : ∃ f, fuel = (f + 1) + k := ⟨fuel - k - 1, by omega⟩
  rw [BoardController.NextCommand_of_sensors _ hdead hsens,
    BoardController.loop_reaches fc wa k _ c1 hreach (f + 1),
    BoardController.loop_succ, BoardController.loopBody_eq fc wa hchip]
  have hno' : chip.hasNext fc wa = false := hno
  simp [hno', Chip.com]

/-- Witness for C10 (amended): on the board `ST -> MF`, one iteration takes the
cursor from the Start chip to the MoveForward chip, which has no arrow. -/
theorem NextCommand_halts_without_arrow_witness :
    BoardController.NextCommand 2 lineController =
      .returned
        ({ board :=
             { width := 2, height := 1,
               chips := [((Chip.zero.WithType .StartChip).WithArrowYes .East).Activate .East,
                         (Chip.zero.WithType .ForwardChip).Activate .North],
               startPos := { X := 0, Y := 0 }, hasStartPos := true },
           maze := openMaze, boardPos := { X := 1, Y := 0 }, deadEnd := true },
         .MoveForward) :=
  NextCommand_halts_without_arrow lineController
    { board :=
        { width := 2, height := 1,
          chips := [((Chip.zero.WithType .StartChip).WithArrowYes .East).Activate .East,
                    Chip.zero.WithType .ForwardChip],
          startPos := { X := 0, Y := 0 }, hasStartPos := true },
      maze := openMaze, boardPos := { X := 1, Y := 0 }, deadEnd := false }
    (Chip.zero.WithType .ForwardChip) false 0 1 2 rfl (by decide)
    ⟨_, rfl, rfl, rfl⟩ (by decide) (by decide) (by decide)

/-! ## C11: sticky dead end -/

/-- C11: once a dead end is recorded, a `NextCommand` call returns `NoCommand`
without walking the graph (no loop iteration is needed: the result is the same
for every bound, zero included) and returns the controller as it was: cursor,
chips (active markers included), maze and the dead-end flag are unchanged, so
the same holds for every later call. -/
theorem NextCommand_sticky_dead_end (fuel : Nat) (c : BoardController)
    (hdead : c.deadEnd = true) :
    BoardController.NextCommand fuel c = .returned (c, .NoCommand) := by
  unfold BoardController.NextCommand
  simp [hdead]

/-- Witness for C11: the controller of `ST -> MF` after the call that recorded
the dead end on the MoveForward chip. -/
theorem NextCommand_sticky_dead_end_witness :
    BoardController.NextCommand 0
        { board := lineBoard, maze := openMaze, boardPos := { X := 1, Y := 0 }, deadEnd := true }
      = .returned
        ({ board := lineBoard, maze := openMaze, boardPos := { X := 1, Y := 0 },
           deadEnd := true }, .NoCommand) :=
  NextCommand_sticky_dead_end 0
    { board := lineBoard, maze := openMaze, boardPos := { X := 1, Y := 0 }, deadEnd := true }
    rfl

/-! ## C13: the winning tick -/

theorem Maze.AdvanceRobot_robot {m m1 : Maze} (h : m.AdvanceRobot = some m1) :
    ∃ r, m.robot = some r ∧ m1.robot = some r.Advance := by
  unfold Maze.AdvanceRobot at h
  cases hr : m.robot with
  | none => simp [hr] at h
  | some r =>
    refine ⟨r, rfl, ?_⟩
    simp only [hr, Option.bind_eq_bind, Option.some_bind, Option.pure_def] at h
    cases hc : m.CellAt r.Advance.X r.Advance.Y with
    | none => simp [hc] at h
    | some cell =>
      simp only [hc, Option.some_bind] at h
      have key : ∀ (o : Option Maze), (o.bind fun y =>
            if r.Advance.ColorPainting ≠ NoColor then
              (y.UpdateCellAt r.Advance.X r.Advance.Y r.Advance.ColorPainting.ToCell).bind
                fun y => some { y with robot := some r.Advance }
            else (some y).bind fun y => some { y with robot := some r.Advance }) = some m1 →
          m1.robot = some r.Advance := by
        intro o ho
        cases o with
        | none => simp at ho
        | some y =>
          simp only [Option.some_bind] at ho
          split at ho
          · cases hu : y.UpdateCellAt r.Advance.X r.Advance.Y r.Advance.ColorPainting.ToCell with
            | none => simp [hu] at ho
            | some z =>
              simp only [hu, Option.some_bind, Option.some.injEq] at ho
              subst ho
              rfl
          · simp only [Option.some.injEq] at ho
            subst ho
            rfl
      split at h
      · exact key (m.UpdateCellAt r.Advance.X r.Advance.Y KF) h
      · exact key (some m) h

/-- C13: if `FlagsRemaining()` is 0 after the robot-advance step, `Advance()`
returns with every chip's active marker cleared and the robot stopped, and
computes no new command (the result does not depend on the loop bound): the
cursor, the dead-end flag and the types and arrows of all chips are as before
the call, and the maze is the advanced one with only the robot stopped. -/
theorem Advance_when_won (fuel : Nat) (c : BoardController) (m1 : Maze)
    (hadv : c.maze.AdvanceRobot = some m1) (hzero : m1.FlagsRemaining = 0) :
    ∃ c1 r, m1.robot = some r ∧ c.Advance fuel = .returned c1 ∧
      c1.board = c.board.ClearActiveChips ∧
      (∀ ch ∈ c1.board.chips, ch.IsActive = false) ∧
      SameProgram c.board.chips c1.board.chips ∧
      c1.boardPos = c.boardPos ∧ c1.deadEnd = c.deadEnd ∧
      c1.maze = { m1 with robot := some r.Stop } := by
  have hrob : ∃ r, m1.robot = some r := by
    obtain ⟨r0, -, h1⟩ := Maze.AdvanceRobot_robot hadv
    exact ⟨_, h1⟩
  obtain ⟨r, hr⟩ := hrob
  have hflags : m1.flags = 0 := hzero
  refine ⟨{ c with board := c.board.ClearActiveChips, maze := { m1 with robot := some r.Stop } },
    r, hr, ?_, rfl, ?_, SameProgram.clearActive _, rfl, rfl, rfl⟩
  · unfold BoardController.Advance
    simp [hadv, BoardController.GameWon, Maze.FlagsRemaining, hflags, Maze.StopRobot, hr]
  · intro ch hch
    obtain ⟨ch0, -, rfl⟩ := List.mem_map.1 hch
    rfl

/-- Witness for C13: the 1x1 maze whose only flag the robot, facing East,
captures (the advance wraps around onto the same tile), under the board
`ST -> MF`: no command is computed although the cursor is on the Start chip. -/
theorem Advance_when_won_witness :
    ∃ c1 r, Maze.robot
        { width := 1, height := 1, cells := [72],
          robot := some (Robot.mk { X := 1, Y := 0 } .East false NoColor),
          flags := 0, captured := 1 } = some r ∧
      BoardController.Advance 0
        { board := lineBoard,
          maze := { width := 1, height := 1, cells := [FF],
                    robot := some (Robot.mk { X := 0, Y := 0 } .East false NoColor),
                    flags := 1, captured := 0 },
          boardPos := { X := 0, Y := 0 }, deadEnd := false } = .returned c1 ∧
      c1.board = lineBoard.ClearActiveChips ∧
      (∀ ch ∈ c1.board.chips, ch.IsActive = false) ∧
      SameProgram lineBoard.chips c1.board.chips ∧
      c1.boardPos = { X := 0, Y := 0 } ∧ c1.deadEnd = false ∧
      c1.maze = { width := 1, height := 1, cells := [72], robot := some r.Stop,
                  flags := 0, captured := 1 } :=
  Advance_when_won 0
    { board := lineBoard,
      maze := { width := 1, height := 1, cells := [FF],
                robot := some (Robot.mk { X := 0, Y := 0 } .East false NoColor),
                flags := 1, captured := 0 },
      boardPos := { X := 0, Y := 0 }, deadEnd := false }
    { width := 1, height := 1, cells := [72],
      robot := some (Robot.mk { X := 1, Y := 0 } .East false NoColor),
      flags := 0, captured := 1 }
    (by decide) rfl

/-! ## C14: `CommandRobot` -/

/-- C14: with `next = robot.ApplyCommand(com)`: if `next` has forward-motion
intent and `HasWallAt` at its position in its orientation is true,
`CommandRobot(com)` returns false and the robot is
`robot.ApplyCommand(NoCommand)`; if `next` has no forward-motion intent, or
`HasWallAt` is false, it returns true and the robot is `next`. Either way the
returned maze differs from the old one in its robot only. -/
theorem CommandRobot_downgrades_on_wall (m : Maze) (r : Robot) (com : Command)
    (hr : m.robot = some r) :
    ((r.ApplyCommand com).IsMovingForward = true →
      m.HasWallAt (r.ApplyCommand com).X (r.ApplyCommand com).Y
        (r.ApplyCommand com).Orientation = some true →
      m.CommandRobot com
        = some ({ m with robot := some (r.ApplyCommand .NoCommand) }, false)) ∧
    ((r.ApplyCommand com).IsMovingForward = false ∨
      m.HasWallAt (r.ApplyCommand com).X (r.ApplyCommand com).Y
        (r.ApplyCommand com).Orientation = some false →
      m.CommandRobot com = some ({ m with robot := some (r.ApplyCommand com) }, true)) := by
  constructor
  · intro hmov hwall
    unfold Maze.CommandRobot
    simp [hr, hmov, hwall]
  · intro h
    unfold Maze.CommandRobot
    cases hmov : (r.ApplyCommand com).IsMovingForward
    · simp [hr, hmov]
    · rcases h with h | h
      · rw [hmov] at h
        exact absurd h (by simp)
      · simp [hr, hmov, h]

/-- Witness for C14: on a 1x1 maze walled to the North, the robot facing North
is told to move forward; the command is downgraded. -/
theorem CommandRobot_downgrades_on_wall_witness :
    Maze.CommandRobot
        { width := 1, height := 1, cells := [TF],
          robot := some (Robot.mk { X := 0, Y := 0 } .North false NoColor),
          flags := 0, captured := 0 } .MoveForward
      = some ({ width := 1, height := 1, cells := [TF],
                robot := some (Robot.mk { X := 0, Y := 0 } .North false NoColor),
                flags := 0, captured := 0 }, false) :=
  (CommandRobot_downgrades_on_wall
    { width := 1, height := 1, cells := [TF],
      robot := some (Robot.mk { X := 0, Y := 0 } .North false NoColor),
      flags := 0, captured := 0 }
    (Robot.mk { X := 0, Y := 0 } .North false NoColor) .MoveForward rfl).1
    (by decide) (by decide)

/-! ## C16: wall symmetry -/

/-- C16: for every maze and all integers x, y, `HasWallAt(x, y, East)` is
`HasWallAt(x+1, y, West)` and `HasWallAt(x, y, South)` is
`HasWallAt(x, y+1, North)`: both sides read the same cell, so they agree also
when the read fails. -/
theorem HasWallAt_symmetry (m : Maze) (x y : Int) :
    m.HasWallAt x y .East = m.HasWallAt (x + 1) y .West ∧
      m.HasWallAt x y .South = m.HasWallAt x (y + 1) .North :=
  ⟨rfl, rfl⟩

/-! ## C12: a test chip followed by action chips -/

/-- The loop on a chip that yields a command other than `NoCommand` returns
that command in one iteration. -/
theorem BoardController.loop_action (fc : Color) (wa : Bool) (fuel : Nat)
    {c : BoardController} {chip : Chip}
    (hchip : c.board.ChipAt c.boardPos.X c.boardPos.Y = some chip)
    (hcom : chip.com fc wa ≠ .NoCommand) :
    ∃ c1, BoardController.loop fc wa (fuel + 1) c = .returned (c1, chip.com fc wa) := by
  rw [BoardController.loop_succ, BoardController.loopBody_eq fc wa hchip]
  by_cases hnext : chip.hasNext fc wa = true
  · refine ⟨{ c with
                board := c.activated chip (chip.nextDir fc wa),
                boardPos := c.boardPos.Move (chip.nextDir fc wa).VelocityForward,
                deadEnd := false }, ?_⟩
    simp [hnext, hcom]
  · refine ⟨{ c with board := c.activated chip (chip.nextDir fc wa), deadEnd := true }, ?_⟩
    simp [hnext]

/-- The loop on a chip that yields `NoCommand` and has an arrow to an inactive
chip goes on from that chip. -/
theorem BoardController.loop_follow (fc : Color) (wa : Bool) (fuel : Nat)
    {c : BoardController} {chip next : Chip}
    (hchip : c.board.ChipAt c.boardPos.X c.boardPos.Y = some chip)
    (hcom : chip.com fc wa = .NoCommand) (hnext : chip.hasNext fc wa = true)
    (hn : CircuitBoard.ChipAt (c.activated chip (chip.nextDir fc wa))
      (c.boardPos.Move (chip.nextDir fc wa).VelocityForward).X
      (c.boardPos.Move (chip.nextDir fc wa).VelocityForward).Y = some next)
    (hin : next.IsActive = false) :
    BoardController.loop fc wa (fuel + 1) c =
      BoardController.loop fc wa fuel
        { c with
          board := c.activated chip (chip.nextDir fc wa),
          boardPos := c.boardPos.Move (chip.nextDir fc wa).VelocityForward,
          deadEnd := false } := by
  rw [BoardController.loop_succ, BoardController.loopBody_eq fc wa hchip]
  simp [hnext, hcom, hn, hin]

theorem sliceGet_map {α β : Type} (f : α → β) (xs : List α) (i : Int) :
    sliceGet (xs.map f) i = (sliceGet xs i).map f := by
  unfold sliceGet
  split
  · rfl
  · simp [List.getElem?_map]

/-- With no dead end recorded, a cursor on a chip that yields `NoCommand` and
whose resolved arrow leads to a chip of another type that yields the command
`com`, makes `NextCommand` return `com`. -/
theorem BoardController.NextCommand_two_chips (c : BoardController) (fuel : Nat) (wa : Bool)
    (fc : Color) (w t : Chip) (com : Command)
    (hdead : c.deadEnd = false) (hsens : c.sensors = some (wa, fc))
    (hw : c.board.ChipAt c.boardPos.X c.boardPos.Y = some w)
    (hwcom : w.com fc wa = .NoCommand) (hwnext : w.hasNext fc wa = true)
    (ht : c.board.ChipAt (neighbour c.boardPos.X c.boardPos.Y (w.nextDir fc wa)).X
      (neighbour c.boardPos.X c.boardPos.Y (w.nextDir fc wa)).Y = some t)
    (htype : t.chipType ≠ w.chipType)
    (htcom : t.com fc wa = com) (hcom : com ≠ .NoCommand) :
    ∃ c1, BoardController.NextCommand (fuel + 2) c = .returned (c1, com) := by
  rw [BoardController.NextCommand_of_sensors _ hdead hsens]
  -- the cleared board
  have hw0 : CircuitBoard.ChipAt c.board.ClearActiveChips c.boardPos.X c.boardPos.Y
      = some w.ClearActive := by
    have := sliceGet_map Chip.ClearActive c.board.chips (c.board.chipIndex c.boardPos.X c.boardPos.Y)
    unfold CircuitBoard.ChipAt at hw
    rw [hw] at this
    exact this
  have ht0 : CircuitBoard.ChipAt c.board.ClearActiveChips
      (neighbour c.boardPos.X c.boardPos.Y (w.nextDir fc wa)).X
      (neighbour c.boardPos.X c.boardPos.Y (w.nextDir fc wa)).Y = some t.ClearActive := by
    have := sliceGet_map Chip.ClearActive c.board.chips
      (c.board.chipIndex (neighbour c.boardPos.X c.boardPos.Y (w.nextDir fc wa)).X
        (neighbour c.boardPos.X c.boardPos.Y (w.nextDir fc wa)).Y)
    unfold CircuitBoard.ChipAt at ht
    rw [ht] at this
    exact this
  have ecom : w.ClearActive.com fc wa = w.com fc wa := rfl
  have enext : w.ClearActive.hasNext fc wa = w.hasNext fc wa := rfl
  have edir : w.ClearActive.nextDir fc wa = w.nextDir fc wa := rfl
  -- the two cells have different indices
  have hne : c.board.chipIndex c.boardPos.X c.boardPos.Y
      ≠ c.board.chipIndex (neighbour c.boardPos.X c.boardPos.Y (w.nextDir fc wa)).X
        (neighbour c.boardPos.X c.boardPos.Y (w.nextDir fc wa)).Y := by
    intro heq
    unfold CircuitBoard.ChipAt at hw ht
    rw [← heq, hw] at ht
    cases ht
    exact htype rfl
  have hi0 := (sliceGet_some (show sliceGet c.board.chips _ = some w from hw)).1
  have hj0 := (sliceGet_some (show sliceGet c.board.chips _ = some t from ht)).1
  have hn : CircuitBoard.ChipAt
      (BoardController.activated { c with board := c.board.ClearActiveChips } w.ClearActive
        (w.ClearActive.nextDir fc wa))
      (c.boardPos.Move (w.ClearActive.nextDir fc wa).VelocityForward).X
      (c.boardPos.Move (w.ClearActive.nextDir fc wa).VelocityForward).Y
      = some t.ClearActive := by
    rw [edir]
    have : sliceGet ((c.board.chips.map Chip.ClearActive).set
        (c.board.chipIndex c.boardPos.X c.boardPos.Y).toNat
        (w.ClearActive.Activate (w.nextDir fc wa)))
        (c.board.chipIndex (neighbour c.boardPos.X c.boardPos.Y (w.nextDir fc wa)).X
          (neighbour c.boardPos.X c.boardPos.Y (w.nextDir fc wa)).Y)
        = sliceGet (c.board.chips.map Chip.ClearActive)
          (c.board.chipIndex (neighbour c.boardPos.X c.boardPos.Y (w.nextDir fc wa)).X
            (neighbour c.boardPos.X c.boardPos.Y (w.nextDir fc wa)).Y) :=
      sliceGet_set_ne _ hi0 hj0 hne
    exact this.trans ht0
  rw [BoardController.loop_follow fc wa (fuel + 1) hw0 (ecom.trans hwcom) (enext.trans hwnext)
    hn rfl]
  have hfin := @BoardController.loop_action fc wa fuel
    { c with
      board := BoardController.activated { c with board := c.board.ClearActiveChips }
        w.ClearActive (w.ClearActive.nextDir fc wa),
      boardPos := c.boardPos.Move (w.ClearActive.nextDir fc wa).VelocityForward,
      deadEnd := false }
    t.ClearActive hn (by
      show t.com fc wa ≠ .NoCommand
      rw [htcom]; exact hcom)
  obtain ⟨c1, hc1⟩ := hfin
  refine ⟨c1, ?_⟩
  rw [hc1]
  show LoopResult.returned (c1, t.com fc wa) = _
  rw [htcom]

/-- C12: for a controller with no dead end recorded whose cursor is on a
wall-ahead test chip whose Yes arrow leads to an adjacent TurnLeft chip and
whose No arrow leads to an adjacent MoveForward chip, `NextCommand` returns
`TurnLeft` when `HasWallAt(robot position, robot orientation)` is true and
`MoveForward` when it is false, whatever the floor cell (hence for every floor
color). -/
theorem NextCommand_wall_test (c : BoardController) (fuel : Nat) (r : Robot) (wa : Bool)
    (cell : Cell) (w tl mf : Chip) (dy dn : Orientation)
    (hdead : c.deadEnd = false) (hr : c.maze.robot = some r)
    (hwall : c.maze.HasWallAt r.X r.Y r.Orientation = some wa)
    (hcell : c.maze.CellAt r.X r.Y = some cell)
    (hw : c.board.ChipAt c.boardPos.X c.boardPos.Y = some w)
    (hwt : w.Type = .IsWallAheadChip)
    (hyes : w.ArrowYes = (dy, true)) (hno : w.ArrowNo = (dn, true))
    (htl : c.board.ChipAt (neighbour c.boardPos.X c.boardPos.Y dy).X
      (neighbour c.boardPos.X c.boardPos.Y dy).Y = some tl)
    (htlt : tl.Type = .TurnLeftChip)
    (hmf : c.board.ChipAt (neighbour c.boardPos.X c.boardPos.Y dn).X
      (neighbour c.boardPos.X c.boardPos.Y dn).Y = some mf)
    (hmft : mf.Type = .ForwardChip) :
    ∃ c1, BoardController.NextCommand (fuel + 2) c
      = .returned (c1, if wa = true then .TurnLeft else .MoveForward) := by
  have hsens : c.sensors = some (wa, Cell.Color cell) := by
    unfold BoardController.sensors
    simp [hr, hwall, hcell]
  have hwt' : w.chipType = .IsWallAheadChip := hwt
  have htl' : tl.chipType = .TurnLeftChip := htlt
  have hmf' : mf.chipType = .ForwardChip := hmft
  have hwcom : w.com (Cell.Color cell) wa = .NoCommand := by
    simp [Chip.com, Chip.Command, hwt']
  cases wa with
  | true =>
    have hnext : w.hasNext (Cell.Color cell) true = true := by
      simp [Chip.hasNext, Chip.Command, hwt', Chip.Arrow, hyes]
    have hdir : w.nextDir (Cell.Color cell) true = dy := by
      simp [Chip.nextDir, Chip.Command, hwt', Chip.Arrow, hyes]
    exact BoardController.NextCommand_two_chips c fuel true (Cell.Color cell) w tl .TurnLeft
      hdead hsens hw hwcom hnext (by rw [hdir]; exact htl) (by rw [htl', hwt']; decide)
      (by simp [Chip.com, Chip.Command, htl']) (by decide)
  | false =>
    have hnext : w.hasNext (Cell.Color cell) false = true := by
      simp [Chip.hasNext, Chip.Command, hwt', Chip.Arrow, hno]
    have hdir : w.nextDir (Cell.Color cell) false = dn := by
      simp [Chip.nextDir, Chip.Command, hwt', Chip.Arrow, hno]
    exact BoardController.NextCommand_two_chips c fuel false (Cell.Color cell) w mf .MoveForward
      hdead hsens hw hwcom hnext (by rw [hdir]; exact hmf) (by rw [hmf', hwt']; decide)
      (by simp [Chip.com, Chip.Command, hmf']) (by decide)

theorem NextCommand_wall_test_witness :
    ∃ c1, BoardController.NextCommand 2 wallTestController = .returned (c1, .MoveForward) :=
  NextCommand_wall_test wallTestController 0
    (Robot.mk { X := 0, Y := 0 } .North false NoColor) false 8
    (((Chip.zero.WithType .IsWallAheadChip).WithArrowYes .West).WithArrowNo .East)
    (Chip.zero.WithType .TurnLeftChip) (Chip.zero.WithType .ForwardChip) .West .East
    rfl rfl (by decide) (by decide) (by decide) rfl rfl rfl (by decide) rfl (by decide) rfl

/-! ## C15: `UpdateCellAt` merges -/

theorem Cell.NorthWall_eq_testBit (c : Cell) : Cell.NorthWall c = c.testBit 0 := by
  have h := Nat.and_two_pow c 0
  unfold Cell.NorthWall TF
  cases hb : c.testBit 0 <;> simp [hb] at h <;> simp [h]

theorem Cell.WestWall_eq_testBit (c : Cell) : Cell.WestWall c = c.testBit 1 := by
  have h := Nat.and_two_pow c 1
  unfold Cell.WestWall LF
  cases hb : c.testBit 1 <;> simp [hb] at h <;> simp [h]

theorem Cell.CornerWall_eq_testBit (c : Cell) : Cell.CornerWall c = c.testBit 2 := by
  have h := Nat.and_two_pow c 2
  unfold Cell.CornerWall CF
  cases hb : c.testBit 2 <;> simp [hb] at h <;> simp [h]

/-- The color of a cell is its bits 4 and 5. -/
theorem Cell.Color_bits (x : Cell) :
    Cell.Color x = (x.testBit 4).toNat + 2 * (x.testBit 5).toNat := by
  have h4 := Nat.and_two_pow x 4
  have h5 := Nat.and_two_pow x 5
  have e : x &&& (16 ||| 32) = (x &&& 2 ^ 4) ||| (x &&& 2 ^ 5) := by
    apply Nat.eq_of_testBit_eq
    intro i
    simp only [Nat.testBit_and, Nat.testBit_or]
    show (x.testBit i && (Nat.testBit 16 i || Nat.testBit 32 i)) = _
    cases x.testBit i <;> simp
  show (x &&& (16 ||| 32)) >>> 4 = _
  rw [e, h4, h5]
  cases x.testBit 4 <;> cases x.testBit 5 <;> decide

/-- A wall, corner, flag or captured bit (any bit below 8 other than the two
color bits) of the merged cell is the OR of the bits of the old cell and the
mask. -/
theorem testBit_merge (p c : Cell) (i : Nat) (h255 : Nat.testBit 255 i = true)
    (h1 : Nat.testBit C1 i = false) (h2 : Nat.testBit C2 i = false) :
    Nat.testBit ((if Cell.Color c ≠ NoColor then p &&& byteNot (C1 ||| C2) else p) ||| c) i
      = (p.testBit i || c.testBit i) := by
  split <;>
    simp [byteNot, Nat.testBit_or, Nat.testBit_and, Nat.testBit_xor, h255, h1, h2]

/-- The color of the merged cell: the mask's color when it has one, the old
color otherwise. -/
theorem Cell.Color_merge (p c : Cell) :
    Cell.Color ((if Cell.Color c ≠ NoColor then p &&& byteNot (C1 ||| C2) else p) ||| c)
      = if Cell.Color c ≠ NoColor then Cell.Color c else Cell.Color p := by
  have a4 : Nat.testBit 255 4 = true := by decide
  have a5 : Nat.testBit 255 5 = true := by decide
  have b4 : Nat.testBit C1 4 = true := by decide
  have b5 : Nat.testBit C1 5 = false := by decide
  have c4 : Nat.testBit C2 4 = false := by decide
  have c5 : Nat.testBit C2 5 = true := by decide
  have hc := Cell.Color_bits c
  by_cases hcol : Cell.Color c ≠ NoColor
  · rw [if_pos hcol, if_pos hcol, Cell.Color_bits, Cell.Color_bits c]
    simp [byteNot, Nat.testBit_or, Nat.testBit_and, Nat.testBit_xor, a4, a5, b4, b5, c4, c5]
  · rw [if_neg hcol, if_neg hcol]
    have hzero : Cell.Color c = 0 := by
      simpa [NoColor] using hcol
    rw [hzero] at hc
    have hc' : (c.testBit 4).toNat + 2 * (c.testBit 5).toNat = (0 : Nat) := hc.symm
    have h4 : c.testBit 4 = false := by
      cases h : c.testBit 4
      · rfl
      · rw [h, Bool.toNat_true] at hc'
        omega
    have h5 : c.testBit 5 = false := by
      cases h : c.testBit 5
      · rfl
      · rw [h, Bool.toNat_true] at hc'
        omega
    rw [Cell.Color_bits, Cell.Color_bits p]
    simp [Nat.testBit_or, h4, h5]

/-- C15: for every maze, position and mask `c`, when the addressed cell can be
read `UpdateCellAt(x, y, c)` returns and afterwards the addressed cell's wall,
corner, flag and captured bits are the OR of the old cell's bits and `c`'s
bits, and its color is `c`'s color when that is not `NoColor` (replacing the
old color) and the old cell's color otherwise. -/
theorem UpdateCellAt_merges (m : Maze) (x y : Int) (c p : Cell)
    (hp : m.CellAt x y = some p) :
    ∃ m1 v, m.UpdateCellAt x y c = some m1 ∧ m1.CellAt x y = some v ∧
      Cell.NorthWall v = (Cell.NorthWall p || Cell.NorthWall c) ∧
      Cell.WestWall v = (Cell.WestWall p || Cell.WestWall c) ∧
      Cell.CornerWall v = (Cell.CornerWall p || Cell.CornerWall c) ∧
      Cell.Flag v = (Cell.Flag p || Cell.Flag c) ∧
      Cell.Captured v = (Cell.Captured p || Cell.Captured c) ∧
      Cell.Color v = (if Cell.Color c ≠ NoColor then Cell.Color c else Cell.Color p) := by
  obtain ⟨m1, h1⟩ := Maze.UpdateCellAt_of_CellAt c hp
  obtain ⟨i, p1, hi, hget, hcells, -, -, hw, hh, -⟩ := Maze.UpdateCellAt_some h1
  have hp1 : p1 = p := by
    unfold Maze.CellAt at hp
    simp only [Option.bind_eq_bind, Option.bind_eq_some] at hp
    obtain ⟨j, hj, hjp⟩ := hp
    rw [hi] at hj
    cases hj
    rw [hget] at hjp
    exact Option.some.inj hjp
  subst hp1
  refine ⟨m1, _, h1, ?_, ?_, ?_, ?_, Cell.Flag_merge p1 c, Cell.Captured_merge p1 c,
    Cell.Color_merge p1 c⟩
  · unfold Maze.CellAt
    rw [Maze.cellIndex_congr hw hh, hi]
    simp only [Option.bind_eq_bind, Option.some_bind]
    rw [hcells]
    exact sliceGet_set_same _ hget
  · simp only [Cell.NorthWall_eq_testBit]
    exact testBit_merge p1 c 0 (by decide) (by decide) (by decide)
  · simp only [Cell.WestWall_eq_testBit]
    exact testBit_merge p1 c 1 (by decide) (by decide) (by decide)
  · simp only [Cell.CornerWall_eq_testBit]
    exact testBit_merge p1 c 2 (by decide) (by decide) (by decide)

/-- Witness for C15: a red cell with a north wall is given a flag and the
color blue. -/
theorem UpdateCellAt_merges_witness :
    ∃ m1 v, Maze.UpdateCellAt
        { width := 1, height := 1, cells := [17], robot := none, flags := 0, captured := 0 }
        0 0 (FF ||| Color.ToCell Blue) = some m1 ∧ m1.CellAt 0 0 = some v ∧
      Cell.NorthWall v = (Cell.NorthWall 17 || Cell.NorthWall (FF ||| Color.ToCell Blue)) ∧
      Cell.WestWall v = (Cell.WestWall 17 || Cell.WestWall (FF ||| Color.ToCell Blue)) ∧
      Cell.CornerWall v = (Cell.CornerWall 17 || Cell.CornerWall (FF ||| Color.ToCell Blue)) ∧
      Cell.Flag v = (Cell.Flag 17 || Cell.Flag (FF ||| Color.ToCell Blue)) ∧
      Cell.Captured v = (Cell.Captured 17 || Cell.Captured (FF ||| Color.ToCell Blue)) ∧
      Cell.Color v = (if Cell.Color (FF ||| Color.ToCell Blue) ≠ NoColor
        then Cell.Color (FF ||| Color.ToCell Blue) else Cell.Color 17) :=
  UpdateCellAt_merges
    { width := 1, height := 1, cells := [17], robot := none, flags := 0, captured := 0 }
    0 0 (FF ||| Color.ToCell Blue) 17 (by decide)

/-! ## The maze parser -/

theorem Maze.CellAt_inrange {w h : Int} {m : Maze} (hs : m.Shaped w h) {x y : Int}
    (hx0 : 0 ≤ x) (hxw : x < w) (hy0 : 0 ≤ y) (hyh : y < h) :
    ∃ p, m.CellAt x y = some p := by
  obtain ⟨hw, hh, hlen⟩ := hs
  have hidx := Maze.cellIndex_eq m x y (by omega) (by omega)
  have ex : wrapCoord x m.width = x := by
    unfold wrapCoord
    rw [if_neg (by omega), hw]
    exact Int.emod_eq_of_lt hx0 hxw
  have ey : wrapCoord y m.height = y := by
    unfold wrapCoord
    rw [if_neg (by omega), hh]
    exact Int.emod_eq_of_lt hy0 hyh
  rw [ex, ey, hw] at hidx
  have h1 : 0 ≤ y * w := Int.mul_nonneg hy0 (by omega)
  have h2 : y * w ≤ (h - 1) * w := Int.mul_le_mul_of_nonneg_right (by omega) (by omega)
  have h3 : (h - 1) * w = w * h - w := by ring
  obtain ⟨p, hp⟩ := @sliceGet_of_lt _ m.cells (x + y * w) (by omega)
    (by rw [hlen]; omega)
  exact ⟨p, by unfold Maze.CellAt; rw [hidx]; exact hp⟩

/-- An in-range `UpdateCellAt` on a shaped maze succeeds, keeps the shape and
the robot. -/
theorem Maze.UpdateCellAt_inrange {w h : Int} {m : Maze} (hs : m.Shaped w h) {x y : Int}
    (hx0 : 0 ≤ x) (hxw : x < w) (hy0 : 0 ≤ y) (hyh : y < h) (c : Cell) :
    ∃ m1, m.UpdateCellAt x y c = some m1 ∧ m1.Shaped w h ∧ m1.robot = m.robot := by
  obtain ⟨p, hp⟩ := Maze.CellAt_inrange hs hx0 hxw hy0 hyh
  obtain ⟨m1, h1⟩ := Maze.UpdateCellAt_of_CellAt c hp
  obtain ⟨i, p1, -, -, hcells, -, -, hw1, hh1, hr1⟩ := Maze.UpdateCellAt_some h1
  refine ⟨m1, h1, ⟨hw1.trans hs.1, hh1.trans hs.2.1, ?_⟩, hr1⟩
  rw [hcells, List.length_set]
  exact hs.2.2

theorem ParseResult.sat_ok {α : Type} {P : α → Prop} {a : α} (h : P a) :
    (ParseResult.ok a).Sat P :=
  ⟨fun e => ParseResult.noConfusion e, fun _ e => by cases e; exact h⟩

theorem ParseResult.sat_error {α : Type} (P : α → Prop) (e : ParseError) :
    (ParseResult.error e : ParseResult α).Sat P :=
  ⟨fun e => ParseResult.noConfusion e, fun _ e => ParseResult.noConfusion e⟩

theorem ParseResult.sat_ofOption {α : Type} {P : α → Prop} {o : Option α}
    (h : ∃ a, o = some a ∧ P a) : (ParseResult.ofOption o).Sat P := by
  obtain ⟨a, rfl, ha⟩ := h
  exact ParseResult.sat_ok ha

/-- A character of a horizontal wall row: no panic, and an accepted character
keeps the shape and the robot. -/
theorem wallRowChar_spec {w h : Int} {m : Maze} (hs : m.Shaped w h) (i j : Nat) {y : Int}
    (c : Char) (hy0 : 0 ≤ y) (hyh : y < h) (hj : (j : Int) ≤ 3 * w) :
    (wallRowChar w i y m j c).Sat (fun m1 => m1.Shaped w h ∧ m1.robot = m.robot) := by
  unfold wallRowChar
  by_cases hx : ((j / 3 : Nat) : Int) = w
  · simp only [hx, if_true]
    split
    · exact ParseResult.sat_error _ _
    · exact ParseResult.sat_ok ⟨hs, rfl⟩
  · have hx0 : (0 : Int) ≤ ((j / 3 : Nat) : Int) := by omega
    have hxw : ((j / 3 : Nat) : Int) < w := by omega
    obtain ⟨p, hp⟩ := Maze.CellAt_inrange hs hx0 hxw hy0 hyh
    have hu := fun c => Maze.UpdateCellAt_inrange hs hx0 hxw hy0 hyh c
    simp only [hx, if_false, hp]
    split_ifs <;>
      first
      | exact ParseResult.sat_error _ _
      | exact ParseResult.sat_ok ⟨hs, rfl⟩
      | exact ParseResult.sat_ofOption (hu _)

/-- A character of a floor row: no panic, and an accepted character keeps the
shape and adds one robot exactly when it is a robot glyph in a flag/robot
position. -/
theorem floorRowChar_spec {w h : Int} {m : Maze} (hs : m.Shaped w h) (i j : Nat) {y : Int}
    (c : Char) (hy0 : 0 ≤ y) (hyh : y < h) (hj : (j : Int) ≤ 3 * w) :
    (floorRowChar w i y m j c).Sat (fun m1 => m1.Shaped w h ∧
      m1.robotCount = m.robotCount + (if j % 3 = 2 ∧ isRobotGlyph c = true then 1 else 0)) := by
  unfold floorRowChar
  by_cases hx : ((j / 3 : Nat) : Int) = w
  · have hδ : (if j % 3 = 2 ∧ isRobotGlyph c = true then 1 else 0) = 0 :=
      if_neg (fun hc => by omega)
    rw [hδ]
    simp only [hx, if_true, Nat.add_zero]
    split
    · exact ParseResult.sat_error _ _
    · exact ParseResult.sat_ok ⟨hs, rfl⟩
  · have hx0 : (0 : Int) ≤ ((j / 3 : Nat) : Int) := by omega
    have hxw : ((j / 3 : Nat) : Int) < w := by omega
    have hu : ∀ c0, ∃ m1, m.UpdateCellAt ((j / 3 : Nat) : Int) y c0 = some m1 ∧
        (m1.Shaped w h ∧ m1.robotCount = m.robotCount) := by
      intro c0
      obtain ⟨m1, h1, hs1, hr1⟩ := Maze.UpdateCellAt_inrange hs hx0 hxw hy0 hyh c0
      exact ⟨m1, h1, hs1, by unfold Maze.robotCount; rw [hr1]⟩
    simp only [hx, if_false]
    by_cases h0 : j % 3 = 0
    · have hδ : (if j % 3 = 2 ∧ isRobotGlyph c = true then 1 else 0) = 0 :=
        if_neg (fun hc => by omega)
      rw [hδ]
      simp only [h0, if_true, Nat.add_zero]
      split_ifs <;>
        first
        | exact ParseResult.sat_error _ _
        | exact ParseResult.sat_ok ⟨hs, rfl⟩
        | exact ParseResult.sat_ofOption (hu _)
    · by_cases h1 : j % 3 = 1
      · have hδ : (if j % 3 = 2 ∧ isRobotGlyph c = true then 1 else 0) = 0 :=
          if_neg (fun hc => by omega)
        rw [hδ]
        have h10 : ¬ ((1 : Nat) = 0) := by decide
        simp only [h1, h10, if_true, if_false, Nat.add_zero]
        split_ifs <;>
          first
          | exact ParseResult.sat_error _ _
          | exact ParseResult.sat_ok ⟨hs, rfl⟩
          | exact ParseResult.sat_ofOption (hu _)
      · have h2 : j % 3 = 2 := by omega
        have hδ : (if j % 3 = 2 ∧ isRobotGlyph c = true then 1 else 0)
            = (if isRobotGlyph c = true then 1 else 0) := by
          simp only [h2, true_and]
        rw [hδ]
        have h20 : ¬ ((2 : Nat) = 0) := by decide
        have h21 : ¬ ((2 : Nat) = 1) := by decide
        simp only [h2, h20, h21, if_true, if_false]
        by_cases hF : c = 'F'
        · subst hF
          have hg : isRobotGlyph 'F' = false := by decide
          simp only [if_true, hg, Bool.false_eq_true, if_false, Nat.add_zero]
          exact ParseResult.sat_ofOption (hu _)
        · by_cases hg : (c = '>' || c = '<' || c = '^' || c = 'v') = true
          · have hg2 : isRobotGlyph c = true := hg
            simp only [hF, if_false, hg, if_true, hg2]
            by_cases hr : m.robot = none
            · simp only [hr, ne_eq, not_true_eq_false, if_false]
              refine ParseResult.sat_ok ⟨hs, ?_⟩
              simp [Maze.robotCount, hr]
            · simp only [ne_eq, hr, not_false_eq_true, if_true]
              exact ParseResult.sat_error _ _
          · have hg2 : isRobotGlyph c = false := by
              unfold isRobotGlyph
              simpa using hg
            simp only [hF, if_false, hg, hg2, Bool.false_eq_true, Nat.add_zero]
            split_ifs <;>
              first
              | exact ParseResult.sat_error _ _
              | exact ParseResult.sat_ok ⟨hs, rfl⟩

theorem forRange_wall_spec {w h : Int} (i : Nat) {y : Int} (hy0 : 0 ≤ y) (hyh : y < h) :
    ∀ (cs : List Char) (j : Nat) (m : Maze), m.Shaped w h →
      ((j : Int) + cs.length ≤ 3 * w + 1) →
      (forRange (wallRowChar w i y) j cs m).Sat
        (fun m1 => m1.Shaped w h ∧ m1.robotCount = m.robotCount) := by
  intro cs
  induction cs with
  | nil => intro j m hs _; exact ParseResult.sat_ok ⟨hs, rfl⟩
  | cons c cs ih =>
    intro j m hs hlen
    simp only [List.length_cons, Nat.cast_add, Nat.cast_one] at hlen
    have hstep := wallRowChar_spec hs i j c hy0 hyh (by omega)
    unfold forRange
    cases hf : wallRowChar w i y m j c with
    | ok m1 =>
      obtain ⟨hs1, hr1⟩ := hstep.2 m1 hf
      have := ih (j + 1) m1 hs1 (by push_cast; omega)
      refine ⟨this.1, fun m2 h2 => ?_⟩
      obtain ⟨hs2, hr2⟩ := this.2 m2 h2
      exact ⟨hs2, by rw [hr2]; unfold Maze.robotCount; rw [hr1]⟩
    | error e => exact ParseResult.sat_error _ _
    | panicked => exact absurd hf hstep.1

theorem forRange_floor_spec {w h : Int} (i : Nat) {y : Int} (hy0 : 0 ≤ y) (hyh : y < h) :
    ∀ (cs : List Char) (j : Nat) (m : Maze), m.Shaped w h →
      ((j : Int) + cs.length ≤ 3 * w + 1) →
      (forRange (floorRowChar w i y) j cs m).Sat
        (fun m1 => m1.Shaped w h ∧ m1.robotCount = m.robotCount + robotCountFrom j cs) := by
  intro cs
  induction cs with
  | nil => intro j m hs _; exact ParseResult.sat_ok ⟨hs, rfl⟩
  | cons c cs ih =>
    intro j m hs hlen
    simp only [List.length_cons, Nat.cast_add, Nat.cast_one] at hlen
    have hstep := floorRowChar_spec hs i j c hy0 hyh (by omega)
    unfold forRange
    cases hf : floorRowChar w i y m j c with
    | ok m1 =>
      obtain ⟨hs1, hr1⟩ := hstep.2 m1 hf
      have := ih (j + 1) m1 hs1 (by push_cast; omega)
      refine ⟨this.1, fun m2 h2 => ?_⟩
      obtain ⟨hs2, hr2⟩ := this.2 m2 h2
      refine ⟨hs2, ?_⟩
      rw [hr2, hr1]
      simp only [robotCountFrom]
      omega
    | error e => exact ParseResult.sat_error _ _
    | panicked => exact absurd hf hstep.1

/-- The loop over the lines: no panic, and an accepted text leaves a maze of
the same shape whose robot count is the old one plus the number of robot
glyphs in the cell rows. -/
theorem parseMazeRows_spec {w h : Int} :
    ∀ (rows : List (List Char)) (i : Nat) (m : Maze), m.Shaped w h →
      (∀ row ∈ rows, ((row.length : Nat) : Int) = 3 * w + 1) →
      ((i : Int) + rows.length = 2 * h + 1) →
      (parseMazeRows w h i rows m).Sat
        (fun m1 => m1.Shaped w h ∧ m1.robotCount = m.robotCount + robotCountRows i rows) := by
  intro rows
  induction rows with
  | nil => intro i m hs _ _; exact ParseResult.sat_ok ⟨hs, rfl⟩
  | cons row rows ih =>
    intro i m hs hrows hlen
    simp only [List.length_cons, Nat.cast_add, Nat.cast_one] at hlen
    have hrow : ((row.length : Nat) : Int) = 3 * w + 1 := hrows row (List.mem_cons_self _ _)
    have hrest : ∀ r ∈ rows, ((r.length : Nat) : Int) = 3 * w + 1 :=
      fun r hr => hrows r (List.mem_cons_of_mem _ hr)
    unfold parseMazeRows
    by_cases hy : ((i / 2 : Nat) : Int) = h
    · have hi : i % 2 = 0 := by omega
      have := ih (i + 1) m hs hrest (by push_cast; omega)
      simp only [hy, if_true]
      refine ⟨this.1, fun m2 h2 => ?_⟩
      obtain ⟨hs2, hr2⟩ := this.2 m2 h2
      refine ⟨hs2, ?_⟩
      have hi1 : ¬ (i % 2 = 1) := by omega
      rw [hr2]
      simp only [robotCountRows, hi1, if_false]
      omega
    · have hy0 : (0 : Int) ≤ ((i / 2 : Nat) : Int) := by omega
      have hyh : ((i / 2 : Nat) : Int) < h := by omega
      simp only [hy, if_false]
      by_cases hi : i % 2 = 0
      · have hrow1 := forRange_wall_spec (w := w) i hy0 hyh row 0 m hs (by push_cast; omega)
        simp only [hi, if_true]
        cases hf : forRange (wallRowChar w i ((i / 2 : Nat) : Int)) 0 row m with
        | ok m1 =>
          obtain ⟨hs1, hr1⟩ := hrow1.2 m1 hf
          have := ih (i + 1) m1 hs1 hrest (by push_cast; omega)
          refine ⟨this.1, fun m2 h2 => ?_⟩
          obtain ⟨hs2, hr2⟩ := this.2 m2 h2
          refine ⟨hs2, ?_⟩
          have hi1 : ¬ (i % 2 = 1) := by omega
          rw [hr2, hr1]
          simp only [robotCountRows, hi1, if_false]
          omega
        | error e => exact ParseResult.sat_error _ _
        | panicked => exact absurd hf hrow1.1
      · have hrow1 := forRange_floor_spec (w := w) i hy0 hyh row 0 m hs (by push_cast; omega)
        simp only [hi, if_false]
        cases hf : forRange (floorRowChar w i ((i / 2 : Nat) : Int)) 0 row m with
        | ok m1 =>
          obtain ⟨hs1, hr1⟩ := hrow1.2 m1 hf
          have := ih (i + 1) m1 hs1 hrest (by push_cast; omega)
          refine ⟨this.1, fun m2 h2 => ?_⟩
          obtain ⟨hs2, hr2⟩ := this.2 m2 h2
          refine ⟨hs2, ?_⟩
          rw [hr2, hr1]
          have hi1 : i % 2 = 1 := by omega
          simp only [robotCountRows, hi1, if_true]
          omega
        | error e => exact ParseResult.sat_error _ _
        | panicked => exact absurd hf hrow1.1

theorem firstWrongLength_none (lr0 : Nat) :
    ∀ (rows : List (List Char)) (i : Nat), firstWrongLength lr0 i rows = none →
      ∀ row ∈ rows, row.length = lr0 := by
  intro rows
  induction rows with
  | nil => intro i _ row hrow; cases hrow
  | cons r rs ih =>
    intro i h row hrow
    unfold firstWrongLength at h
    by_cases hr : r.length ≠ lr0
    · simp [hr] at h
    · simp only [hr, if_false] at h
      rcases List.mem_cons.1 hrow with e | e
      · subst e
        exact not_not.1 hr
      · exact ih (i + 1) h row e

/-- The maze parser does not panic, and a text it accepts has an odd number of
lines, more than one, all of the length 3w+1 of the first, and at most one
robot glyph: the maze has a robot exactly when there is one. -/
theorem MazeFromRows_spec (rows : List (List Char)) :
    (MazeFromRows rows).Sat (fun m =>
      rows.length % 2 = 1 ∧ rows.length ≠ 1 ∧
      (∃ w : Nat, (rows.headD []).length = 3 * w + 1) ∧
      (∀ row ∈ rows, row.length = (rows.headD []).length) ∧
      m.robotCount = robotCountRows 0 rows) := by
  unfold MazeFromRows
  by_cases hodd : rows.length % 2 ≠ 1
  · rw [if_pos hodd]
    exact ParseResult.sat_error _ _
  · rw [if_neg hodd]
    have hodd1 : rows.length % 2 = 1 := not_not.1 hodd
    by_cases hh : (((rows.length - 1) / 2 : Nat) : Int) = 0
    · simp only [hh, if_true]
      exact ParseResult.sat_error _ _
    · simp only [hh, if_false]
      by_cases hw : Int.tdiv (((rows.headD []).length : Int) - 1) 3 * 3 + 1
          ≠ ((rows.headD []).length : Int)
      · rw [if_pos hw]
        exact ParseResult.sat_error _ _
      · rw [if_neg hw]
        have hw1 := not_not.1 hw
        generalize Int.tdiv (((rows.headD []).length : Int) - 1) 3 = width at hw1 ⊢
        have hw0 : 0 ≤ width := by omega
        cases hfw : firstWrongLength (rows.headD []).length 0 rows with
        | some i => exact ParseResult.sat_error _ _
        | none =>
          have hall := firstWrongLength_none _ rows 0 hfw
          have hlen : ((rows.length : Nat) : Int)
              = 2 * (((rows.length - 1) / 2 : Nat) : Int) + 1 := by omega
          generalize (((rows.length - 1) / 2 : Nat) : Int) = height at hh hlen ⊢
          have hprod : 0 ≤ width * height := Int.mul_nonneg hw0 (by omega)
          have hnew : NewMaze width height
              = some { width := width, height := height,
                       cells := List.replicate (width * height).toNat (0 : Cell),
                       robot := none, flags := 0, captured := 0 } := by
            unfold NewMaze goMake
            rw [if_neg (not_lt.2 hprod)]
            rfl
          simp only [hnew]
          have hshape : Maze.Shaped width height
              { width := width, height := height,
                cells := List.replicate (width * height).toNat (0 : Cell),
                robot := none, flags := 0, captured := 0 } :=
            ⟨rfl, rfl, List.length_replicate _ _⟩
          have hspec := parseMazeRows_spec (w := width) (h := height) rows 0 _ hshape
            (by
              intro row hrow
              rw [hall row hrow]
              omega)
            (by omega)
          refine ⟨hspec.1, fun m hm => ?_⟩
          obtain ⟨-, hcount⟩ := hspec.2 m hm
          refine ⟨hodd1, by omega, ⟨width.toNat, by omega⟩, hall, ?_⟩
          rw [hcount]
          simp [Maze.robotCount]

/-- C17: `MazeFromString` returns an error, and no maze, whenever the trimmed
text has an even number of lines, has only one line, has a first line whose
length is not 3*w+1 for any w, has a line whose length differs from the first
line's, or has more than one robot glyph in the flag/robot positions of its
cell rows. -/
theorem MazeFromString_rejects (s : String)
    (h : (Split (TrimSpace s.toList)).length % 2 = 0 ∨
      (Split (TrimSpace s.toList)).length = 1 ∨
      (∀ w : Nat, ((Split (TrimSpace s.toList)).headD []).length ≠ 3 * w + 1) ∨
      (∃ row ∈ Split (TrimSpace s.toList),
        row.length ≠ ((Split (TrimSpace s.toList)).headD []).length) ∨
      2 ≤ robotCountRows 0 (Split (TrimSpace s.toList))) :
    ∃ e, MazeFromString s = .error e := by
  have hspec := MazeFromRows_spec (Split (TrimSpace s.toList))
  unfold MazeFromString
  cases hres : MazeFromRows (Split (TrimSpace s.toList)) with
  | error e => exact ⟨e, rfl⟩
  | panicked => exact absurd hres hspec.1
  | ok m =>
    exfalso
    obtain ⟨h1, h2, ⟨w, h3⟩, h4, h5⟩ := hspec.2 m hres
    have hle : m.robotCount ≤ 1 := by
      unfold Maze.robotCount
      split <;> omega
    rcases h with h | h | h | ⟨row, hrow, hne⟩ | h
    · omega
    · exact h2 h
    · exact h w h3
    · exact hne (h4 row hrow)
    · omega

/-- Witness for C17: a 2x1 maze text with two robot glyphs. -/
theorem MazeFromString_rejects_witness :
    ∃ e, MazeFromString "+--+--+\n| >| <|\n+--+--+" = .error e :=
  MazeFromString_rejects "+--+--+\n| >| <|\n+--+--+"
    (Or.inr (Or.inr (Or.inr (Or.inr (by decide)))))

/-! ## C18, C19: what `MazeFromString` does not check -/

/-- C18: the text of a 1x1 maze without any robot glyph is accepted, and the
maze returned has no robot (a nil pointer). -/
theorem MazeFromString_accepts_no_robot :
    MazeFromString "+--+\n|  |\n+--+"
      = .ok { width := 1, height := 1, cells := [7], robot := none, flags := 0,
              captured := 0 } := by
  decide

/-- C19: the last line of the text is skipped without being validated: a text
whose last line is `XXXX` is accepted, and gives the same maze as the text
with the last line `+--+`. -/
theorem MazeFromString_ignores_last_row :
    MazeFromString "+--+\n| >|\nXXXX"
        = .ok { width := 1, height := 1, cells := [7],
                robot := some (Robot.mk { X := 0, Y := 0 } .East false NoColor),
                flags := 0, captured := 0 } ∧
      MazeFromString "+--+\n| >|\n+--+" = MazeFromString "+--+\n| >|\nXXXX" := by
  decide

/-! ## C20: the Start chip of a parsed board -/

/-- On a well-formed board whose arrows point at cells of the board,
`SetChipAt` with an on-board target and on-board arrow targets succeeds and
keeps these properties. -/
theorem CircuitBoard.SetChipAt_onBoard {b : CircuitBoard} (hwf : b.WF)
    (hst : b.hasStartPos = true → b.Contains b.startPos.X b.startPos.Y = true)
    (hao : b.ArrowsOnBoard)
    {x y : Int} {c : Chip} (hcall : b.callOnBoard (x, y, c) = true) :
    ∃ b1, b.SetChipAt x y c = some b1 ∧ b1.width = b.width ∧ b1.height = b.height ∧
      b1.WF ∧ b1.ArrowsOnBoard := by
  unfold CircuitBoard.callOnBoard at hcall
  simp only [Bool.and_eq_true, Bool.or_eq_true, Bool.not_eq_true'] at hcall
  obtain ⟨⟨hxy, hyes⟩, hno⟩ := hcall
  obtain ⟨hi0, hi1⟩ := CircuitBoard.index_valid hwf hxy
  obtain ⟨pc, hpc⟩ := sliceGet_of_lt hi0 hi1
  obtain ⟨b1, hb1, hw1, hh1, hs1, hst1⟩ := CircuitBoard.startStep_ok hwf hst hxy c pc
  have hwf1 : b1.WF := by
    unfold CircuitBoard.WF at hwf ⊢
    rw [hs1.1, hw1, hh1, hwf]
  have hyes0 : c.ArrowYes.2 = true →
      b.Contains (neighbour x y c.ArrowYes.1).X (neighbour x y c.ArrowYes.1).Y = true := by
    intro h
    rcases hyes with h1 | h1
    · rw [h] at h1; exact absurd h1 (by simp)
    · exact h1
  have hno0 : c.ArrowNo.2 = true →
      b.Contains (neighbour x y c.ArrowNo.1).X (neighbour x y c.ArrowNo.1).Y = true := by
    intro h
    rcases hno with h1 | h1
    · rw [h] at h1; exact absurd h1 (by simp)
    · exact h1
  have hyes1 : c.ArrowYes.2 = true →
      b1.Contains (neighbour x y c.ArrowYes.1).X (neighbour x y c.ArrowYes.1).Y = true := by
    intro h
    rw [CircuitBoard.Contains_congr hw1 hh1]
    exact hyes0 h
  obtain ⟨b2, hb2, hw2, hh2, hsp2, hhs2, hs2, hy2⟩ := CircuitBoard.arrowStep_ok hwf1 hyes1
  have hwf2 : b2.WF := by
    unfold CircuitBoard.WF at hwf1 ⊢
    rw [hs2.1, hw2, hh2, hwf1]
  have hno2 : c.ArrowNo.2 = true →
      b2.Contains (neighbour x y c.ArrowNo.1).X (neighbour x y c.ArrowNo.1).Y = true := by
    intro h
    rw [CircuitBoard.Contains_congr hw2 hh2, CircuitBoard.Contains_congr hw1 hh1]
    exact hno0 h
  obtain ⟨b3, hb3, hw3, hh3, hsp3, hhs3, hs3, hn3⟩ := CircuitBoard.arrowStep_ok hwf2 hno2
  have hw : b3.width = b.width := by rw [hw3, hw2, hw1]
  have hh : b3.height = b.height := by rw [hh3, hh2, hh1]
  have hlen : b3.chips.length = b.chips.length := by rw [hs3.1, hs2.1, hs1.1]
  have hshrink : ArrowsShrink b.chips b3.chips := (hs1.shrink_trans hs2).shrink_trans hs3
  have hidx3 : b3.chipIndex x y = b.chipIndex x y := CircuitBoard.chipIndex_congr hw x y
  obtain ⟨p3, hp3⟩ : ∃ a, sliceGet b3.chips (b.chipIndex x y) = some a :=
    sliceGet_of_lt hi0 (by rw [hlen]; exact hi1)
  have hset := sliceSet_of_get c hp3
  refine ⟨{ b3 with chips := b3.chips.set (b.chipIndex x y).toNat c }, ?_, hw, hh, ?_, ?_⟩
  · rw [CircuitBoard.SetChipAt_eq]
    simp [hpc, hb1, hb2, hb3, hidx3, hset]
  · unfold CircuitBoard.WF
    show (b3.chips.set _ c).length = (b3.width * b3.height).toNat
    rw [List.length_set, hlen, hw, hh]
    exact hwf
  · intro x1 y1 ch o hc1 hch ho
    have hcongr : ∀ u v, CircuitBoard.Contains
        { b3 with chips := b3.chips.set (b.chipIndex x y).toNat c } u v = b.Contains u v :=
      CircuitBoard.Contains_congr hw hh
    rw [hcongr] at hc1 ⊢
    unfold CircuitBoard.ChipAt at hch
    have hi : CircuitBoard.chipIndex
        { b3 with chips := b3.chips.set (b.chipIndex x y).toNat c } x1 y1
        = b.chipIndex x1 y1 := CircuitBoard.chipIndex_congr hw x1 y1
    rw [hi] at hch
    have hch1 : sliceGet (b3.chips.set (b.chipIndex x y).toNat c) (b.chipIndex x1 y1)
        = some ch := hch
    by_cases h1 : x1 = x ∧ y1 = y
    · obtain ⟨rfl, rfl⟩ := h1
      rw [sliceGet_set_same c hp3] at hch1
      cases hch1
      unfold Chip.hasArrow at ho
      simp only [Bool.or_eq_true, Bool.and_eq_true, beq_iff_eq] at ho
      rcases ho with ⟨hok, ho⟩ | ⟨hok, ho⟩
      · subst ho
        exact hyes0 hok
      · subst ho
        exact hno0 hok
    · have hne : b.chipIndex x y ≠ b.chipIndex x1 y1 := by
        intro heq
        obtain ⟨e1, e2⟩ := CircuitBoard.index_inj hxy hc1 heq
        exact h1 ⟨e1.symm, e2.symm⟩
      rw [sliceGet_set_ne _ hi0 (CircuitBoard.index_valid hwf hc1).1 hne] at hch1
      obtain ⟨h0, hget⟩ := sliceGet_some hch1
      obtain ⟨q0, hq0, ha⟩ := hshrink.2 _ ch hget
      apply hao x1 y1 q0 o hc1 _ (ha o ho)
      unfold CircuitBoard.ChipAt sliceGet
      simp only [not_lt.2 h0, if_false]
      exact hq0

/-- Writing a chip that is not a Start chip over a chip that is not a Start
chip keeps the recorded Start position. -/
theorem CircuitBoard.SetChipAt_keep {b b1 : CircuitBoard} {x y : Int} {c pc : Chip}
    (hpc : b.ChipAt x y = some pc) (hc : c.Type ≠ .StartChip) (hp : pc.Type ≠ .StartChip)
    (h : b.SetChipAt x y c = some b1) :
    b1.hasStartPos = b.hasStartPos ∧ b1.startPos = b.startPos := by
  rw [CircuitBoard.SetChipAt_eq] at h
  simp only [Option.bind_eq_some, Option.some.injEq] at h
  obtain ⟨pc1, hpc1, s1, hs1, s2, hs2, s3, hs3, chips, hset, rfl⟩ := h
  unfold CircuitBoard.ChipAt at hpc
  rw [hpc] at hpc1
  cases hpc1
  obtain ⟨-, -, -, -, hother⟩ := CircuitBoard.startStep_some hs1
  obtain ⟨-, -, hkeep⟩ := hother hc
  obtain ⟨hhs1, hsp1⟩ := hkeep hp
  obtain ⟨-, -, hsp2, hhs2, -⟩ := CircuitBoard.arrowStep_types hs2
  obtain ⟨-, -, hsp3, hhs3, -⟩ := CircuitBoard.arrowStep_types hs3
  exact ⟨by show s3.hasStartPos = _; rw [hhs3, hhs2, hhs1],
    by show s3.startPos = _; rw [hsp3, hsp2, hsp1]⟩

theorem OnlyStartAt.of_none {l : List Chip} (h : OnlyStartAt l none) (s : Option Nat) :
    OnlyStartAt l s :=
  fun i ci hi hci => absurd (h i ci hi hci) (by simp)

/-- The parser records the Start position before it writes the Start chip:
on a board without Start chips, that write establishes the Start invariant. -/
theorem CircuitBoard.SetChipAt_install {b b1 : CircuitBoard} {x y : Int} {c : Chip}
    (hnone : OnlyStartAt b.chips none) (hhas : b.hasStartPos = true)
    (hxy : b.Contains x y = true)
    (hc : c.Type = .StartChip) (h : b.SetChipAt x y c = some b1) :
    b1.StartInv ∧ b1.hasStartPos = true ∧ b1.startPos = { X := x, Y := y } := by
  rw [CircuitBoard.SetChipAt_eq] at h
  simp only [Option.bind_eq_some, Option.some.injEq] at h
  obtain ⟨pc, hpc, s1, hs1, s2, hs2, s3, hs3, chips, hset, rfl⟩ := h
  obtain ⟨hw1, hh1, hl1, hstart, -⟩ := CircuitBoard.startStep_some hs1
  obtain ⟨hw2, hh2, hsp2, hhs2, ht2⟩ := CircuitBoard.arrowStep_types hs2
  obtain ⟨hw3, hh3, hsp3, hhs3, ht3⟩ := CircuitBoard.arrowStep_types hs3
  have hw : s3.width = b.width := by rw [hw3, hw2, hw1]
  have hh : s3.height = b.height := by rw [hh3, hh2, hh1]
  have ht : TypesSame s1.chips s3.chips := ht2.types_trans ht3
  have hidx : s3.chipIndex x y = b.chipIndex x y := CircuitBoard.chipIndex_congr hw x y
  rw [hidx] at hset
  obtain ⟨hi0, hi1, rfl⟩ := sliceSet_some hset
  obtain ⟨p3, hp3⟩ := sliceGet_of_lt hi0 hi1
  obtain ⟨hsp1, hhs1, hdem, -⟩ := hstart hc
  obtain ⟨cs, -, hchips⟩ := hdem hhas
  have hnone1 : OnlyStartAt s1.chips none := by
    rw [hchips]
    exact OnlyStartAt.demote (hnone.of_none _)
  have hnone3 : OnlyStartAt s3.chips none := hnone1.of_typesSame ht
  have hsp : s3.startPos = { X := x, Y := y } := by rw [hsp3, hsp2, hsp1]
  have hhs : s3.hasStartPos = true := by rw [hhs3, hhs2, hhs1]
  have e : CircuitBoard.chipIndex { s3 with chips := s3.chips.set (b.chipIndex x y).toNat c }
      x y = b.chipIndex x y := CircuitBoard.chipIndex_congr hw x y
  refine ⟨⟨?_, fun _ => ⟨?_, c, ?_, hc⟩⟩, hhs, hsp⟩
  · show OnlyStartAt (s3.chips.set _ c) (if s3.hasStartPos = true then _ else _)
    rw [hhs, hsp]
    simp only [if_true]
    show OnlyStartAt (s3.chips.set _ c) (some (CircuitBoard.chipIndex
      { s3 with chips := s3.chips.set (b.chipIndex x y).toNat c } x y).toNat)
    rw [e]
    exact OnlyStartAt.write c hnone3
  · show CircuitBoard.Contains _ s3.startPos.X s3.startPos.Y = true
    rw [hsp]
    have e2 : CircuitBoard.Contains { s3 with chips := s3.chips.set (b.chipIndex x y).toNat c }
        x y = b.Contains x y := CircuitBoard.Contains_congr hw hh x y
    exact e2.trans hxy
  · show sliceGet (s3.chips.set _ c) (CircuitBoard.chipIndex _ s3.startPos.X s3.startPos.Y)
      = some c
    rw [hsp]
    show sliceGet (s3.chips.set _ c) (CircuitBoard.chipIndex
      { s3 with chips := s3.chips.set (b.chipIndex x y).toNat c } x y) = some c
    rw [e]
    exact sliceGet_set_same c hp3

theorem Chip.hasArrow_WithArrowYes {c : Chip} {o o1 : Orientation}
    (h : (c.WithArrowYes o).hasArrow o1 = true) : c.hasArrow o1 = true ∨ o = o1 := by
  unfold Chip.hasArrow at h ⊢
  have e1 : (c.WithArrowYes o).ArrowYes = (o, true) := rfl
  have e2 : (c.WithArrowYes o).ArrowNo = c.ArrowNo := rfl
  rw [e1, e2] at h
  simp only [Bool.or_eq_true, Bool.and_eq_true, beq_iff_eq, true_and] at h ⊢
  rcases h with h | h
  · exact Or.inr h
  · exact Or.inl (Or.inr h)

theorem Chip.hasArrow_WithArrowNo {c : Chip} {o o1 : Orientation}
    (h : (c.WithArrowNo o).hasArrow o1 = true) : c.hasArrow o1 = true ∨ o = o1 := by
  unfold Chip.hasArrow at h ⊢
  have e1 : (c.WithArrowNo o).ArrowNo = (o, true) := rfl
  have e2 : (c.WithArrowNo o).ArrowYes = c.ArrowYes := rfl
  rw [e1, e2] at h
  simp only [Bool.or_eq_true, Bool.and_eq_true, beq_iff_eq, true_and] at h ⊢
  rcases h with h | h
  · exact Or.inl (Or.inl h)
  · exact Or.inr h

theorem Chip.ArrowYes_hasArrow {c : Chip} (h : c.ArrowYes.2 = true) :
    c.hasArrow c.ArrowYes.1 = true := by
  unfold Chip.hasArrow
  simp [h]

theorem Chip.ArrowNo_hasArrow {c : Chip} (h : c.ArrowNo.2 = true) :
    c.hasArrow c.ArrowNo.1 = true := by
  unfold Chip.hasArrow
  simp [h]

/-- The statement `b.SetChipAt(x, y, f(b.ChipAt(x, y)))` succeeds on a
well-formed board when the cell and the targets of the arrows `f` adds are on
the board. -/
theorem CircuitBoard.modifyChipAt_ok {b : CircuitBoard} (hwf : b.WF)
    (hst : b.hasStartPos = true → b.Contains b.startPos.X b.startPos.Y = true)
    (hao : b.ArrowsOnBoard) {x y : Int} (hxy : b.Contains x y = true) (f : Chip → Chip)
    (harr : ∀ ch o, (f ch).hasArrow o = true → ch.hasArrow o = true ∨
      b.Contains (neighbour x y o).X (neighbour x y o).Y = true) :
    ∃ ch b1, b.ChipAt x y = some ch ∧ b.SetChipAt x y (f ch) = some b1 ∧
      b.modifyChipAt x y f = .ok b1 ∧ b1.width = b.width ∧ b1.height = b.height ∧
      b1.WF ∧ b1.ArrowsOnBoard := by
  obtain ⟨hi0, hi1⟩ := CircuitBoard.index_valid hwf hxy
  obtain ⟨ch, hch⟩ := sliceGet_of_lt hi0 hi1
  have hch1 : b.ChipAt x y = some ch := hch
  have htarget : ∀ o, (f ch).hasArrow o = true →
      b.Contains (neighbour x y o).X (neighbour x y o).Y = true := by
    intro o ho
    rcases harr ch o ho with h | h
    · exact hao x y ch o hxy hch1 h
    · exact h
  have hcall : b.callOnBoard (x, y, f ch) = true := by
    unfold CircuitBoard.callOnBoard
    simp only [Bool.and_eq_true, Bool.or_eq_true, Bool.not_eq_true']
    refine ⟨⟨hxy, ?_⟩, ?_⟩
    · cases h : (f ch).ArrowYes.2
      · exact Or.inl rfl
      · exact Or.inr (htarget _ (Chip.ArrowYes_hasArrow h))
    · cases h : (f ch).ArrowNo.2
      · exact Or.inl rfl
      · exact Or.inr (htarget _ (Chip.ArrowNo_hasArrow h))
  obtain ⟨b1, hb1, hw, hh, hwf1, hao1⟩ := CircuitBoard.SetChipAt_onBoard hwf hst hao hcall
  refine ⟨ch, b1, hch1, hb1, ?_, hw, hh, hwf1, hao1⟩
  unfold CircuitBoard.modifyChipAt
  rw [hch1]
  show ParseResult.ofOption (b.SetChipAt x y (f ch)) = _
  rw [hb1]
  rfl

/-- An on-board Start chip sits at the recorded Start position. -/
theorem CircuitBoard.StartInv.at_start {b : CircuitBoard} (hinv : b.StartInv) {x y : Int}
    {ch : Chip} (hxy : b.Contains x y = true) (hch : b.ChipAt x y = some ch)
    (hty : ch.Type = .StartChip) :
    b.hasStartPos = true ∧ b.startPos = { X := x, Y := y } := by
  unfold CircuitBoard.ChipAt at hch
  obtain ⟨h0, hget⟩ := sliceGet_some hch
  have hs := hinv.1 _ ch hget hty
  have h5 : b.hasStartPos = true := by
    by_contra hcon
    simp [hcon] at hs
  rw [h5] at hs
  simp only [if_true, Option.some.injEq] at hs
  obtain ⟨hcont, cs, hcs, -⟩ := hinv.2 h5
  unfold CircuitBoard.ChipAt at hcs
  obtain ⟨h1, -⟩ := sliceGet_some hcs
  have heq : b.chipIndex b.startPos.X b.startPos.Y = b.chipIndex x y := by omega
  obtain ⟨e1, e2⟩ := CircuitBoard.index_inj hcont hxy heq
  refine ⟨h5, ?_⟩
  cases hsp : b.startPos with
  | mk X Y =>
    rw [hsp] at e1 e2
    simp only at e1 e2
    rw [e1, e2]

/-- A type-preserving update of an on-board chip, as the parser does it for an
arrow, succeeds and keeps the invariant and the recorded Start position. -/
theorem CircuitBoard.modifyChipAt_sameType {W H : Int} {b : CircuitBoard}
    (hinv : b.ParseInv W H) {x y : Int} (hxy : b.Contains x y = true) (f : Chip → Chip)
    (hty : ∀ ch, (f ch).Type = ch.Type)
    (harr : ∀ ch o, (f ch).hasArrow o = true → ch.hasArrow o = true ∨
      b.Contains (neighbour x y o).X (neighbour x y o).Y = true) :
    ∃ b1, b.modifyChipAt x y f = .ok b1 ∧ b1.ParseInv W H ∧
      b1.hasStartPos = b.hasStartPos ∧ b1.startPos = b.startPos := by
  obtain ⟨hW, hH, hwf, hsi, hao⟩ := hinv
  obtain ⟨ch, b1, hch, hset, hmod, hw, hh, hwf1, hao1⟩ :=
    CircuitBoard.modifyChipAt_ok hwf (fun h => (hsi.2 h).1) hao hxy f harr
  obtain ⟨hsi1, -, -, hstart, -⟩ := CircuitBoard.SetChipAt_start hsi hxy hset
  refine ⟨b1, hmod, ⟨hw.trans hW, hh.trans hH, hwf1, hsi1, hao1⟩, ?_⟩
  by_cases h3 : ch.Type = .StartChip
  · obtain ⟨hsp1, hhs1, -⟩ := hstart ((hty ch).trans h3)
    obtain ⟨hhs, hsp⟩ := hsi.at_start hxy hch h3
    exact ⟨hhs1.trans hhs.symm, hsp1.trans hsp.symm⟩
  · exact CircuitBoard.SetChipAt_keep hch (by rw [hty]; exact h3) h3 hset

theorem ParseResult.satOr_ok {α : Type} {short : Prop} {P : α → Prop} {a : α} (h : P a) :
    ParseResult.SatOr short (.ok a) P :=
  ⟨fun e => ParseResult.noConfusion e, fun _ e => by cases e; exact h⟩

theorem ParseResult.satOr_error {α : Type} {short : Prop} {P : α → Prop} (e : ParseError) :
    ParseResult.SatOr short (.error e) P :=
  ⟨fun e => ParseResult.noConfusion e, fun _ e => ParseResult.noConfusion e⟩

theorem ParseResult.satOr_panicked {α : Type} {short : Prop} {P : α → Prop} (h : short) :
    ParseResult.SatOr short (.panicked : ParseResult α) P :=
  ⟨fun _ => h, fun _ e => ParseResult.noConfusion e⟩

theorem ParseResult.satOr_mono {α : Type} {short : Prop} {P Q : α → Prop} {r : ParseResult α}
    (h : ParseResult.SatOr short r P) (hPQ : ∀ a, P a → Q a) : ParseResult.SatOr short r Q :=
  ⟨h.1, fun a e => hPQ a (h.2 a e)⟩

theorem goSlice_none {row : List Char} {a b : Nat} (h : goSlice row a b = none) :
    row.length < b := by
  unfold goSlice at h
  split at h
  · cases h
  · omega

theorem ite_some_ne {c : Prop} [Decidable c] {a b : ChipType} {r : Option ChipType}
    (hab : a ≠ b) (h : (if c then some a else r) = some b) : r = some b := by
  by_cases hc : c
  · rw [if_pos hc] at h
    exact absurd (Option.some.inj h) hab
  · rw [if_neg hc] at h
    exact h

theorem chipTypeMap_start (code : List Char) :
    chipTypeMap code = some .StartChip ↔ code = ['S', 'T'] := by
  constructor
  · intro h
    by_contra hne
    unfold chipTypeMap at h
    rw [if_neg hne] at h
    have h := ite_some_ne (by decide) h
    have h := ite_some_ne (by decide) h
    have h := ite_some_ne (by decide) h
    have h := ite_some_ne (by decide) h
    have h := ite_some_ne (by decide) h
    have h := ite_some_ne (by decide) h
    have h := ite_some_ne (by decide) h
    have h := ite_some_ne (by decide) h
    have h := ite_some_ne (by decide) h
    have h := ite_some_ne (by decide) h
    have h := ite_some_ne (by decide) h
    have h := ite_some_ne (by decide) h
    cases h
  · intro h
    unfold chipTypeMap
    exact if_pos h

theorem CircuitBoard.ParseInv.contains {W H : Int} {b : CircuitBoard} (hinv : b.ParseInv W H)
    {x y : Int} (hx0 : 0 ≤ x) (hxW : x < W) (hy0 : 0 ≤ y) (hyH : y < H) :
    b.Contains x y = true := by
  rw [CircuitBoard.Contains_iff, hinv.1, hinv.2.1]
  exact ⟨hx0, hxW, hy0, hyH⟩

/-- The parser's arrow statements, on an on-board cell whose neighbour in the
direction of the arrow is on the board. -/
theorem CircuitBoard.modifyChipAt_arrow {W H : Int} {b : CircuitBoard}
    (hinv : b.ParseInv W H) {x y : Int} (hxy : b.Contains x y = true) (o : Orientation)
    (ht : b.Contains (neighbour x y o).X (neighbour x y o).Y = true) (short : Prop) :
    ParseResult.SatOr short (b.modifyChipAt x y (fun ch => ch.WithArrowYes o))
        (fun b1 => b1.ParseInv W H ∧ b1.hasStartPos = b.hasStartPos ∧
          b1.startPos = b.startPos) ∧
      ParseResult.SatOr short (b.modifyChipAt x y (fun ch => ch.WithArrowNo o))
        (fun b1 => b1.ParseInv W H ∧ b1.hasStartPos = b.hasStartPos ∧
          b1.startPos = b.startPos) := by
  constructor
  · obtain ⟨b1, hmod, h⟩ := CircuitBoard.modifyChipAt_sameType hinv hxy
      (fun ch => ch.WithArrowYes o) (fun _ => rfl) (fun ch o1 ho => by
        rcases Chip.hasArrow_WithArrowYes ho with h | h
        · exact Or.inl h
        · subst h; exact Or.inr ht)
    rw [hmod]
    exact ParseResult.satOr_ok h
  · obtain ⟨b1, hmod, h⟩ := CircuitBoard.modifyChipAt_sameType hinv hxy
      (fun ch => ch.WithArrowNo o) (fun _ => rfl) (fun ch o1 ho => by
        rcases Chip.hasArrow_WithArrowNo ho with h | h
        · exact Or.inl h
        · subst h; exact Or.inr ht)
    rw [hmod]
    exact ParseResult.satOr_ok h

theorem chipArrowStep_spec {W H : Int} {b : CircuitBoard} (hinv : b.ParseInv W H) (i : Nat)
    {y : Int} (hy0 : 0 ≤ y) (hyH : y < H) (row : List Char) (x : Nat) (hx : (x : Int) < W) :
    ParseResult.SatOr ((row.length : Int) < 6 * W - 4) (chipArrowStep W i y row b x)
      (fun b1 => b1.ParseInv W H ∧ b1.hasStartPos = b.hasStartPos ∧
        b1.startPos = b.startPos) := by
  unfold chipArrowStep
  by_cases hlast : (x : Int) = W - 1
  · rw [if_pos hlast]
    exact ParseResult.satOr_ok ⟨hinv, rfl, rfl⟩
  · rw [if_neg hlast]
    cases hgs : goSlice row (x * 6 + 3) (x * 6 + 5) with
    | none =>
      have := goSlice_none hgs
      exact ParseResult.satOr_panicked (by omega)
    | some arrCode =>
      have hx0 : (0 : Int) ≤ (x : Int) := Int.ofNat_nonneg x
      have hc0 : b.Contains x y = true := hinv.contains hx0 hx hy0 hyH
      have hc1 : b.Contains (x + 1) y = true := hinv.contains (by omega) (by omega) hy0 hyH
      have hE : b.Contains (neighbour x y .East).X (neighbour x y .East).Y = true := by
        simpa [neighbour, Position.Move, Orientation.VelocityForward] using hc1
      have hWest : b.Contains (neighbour (x + 1) y .West).X (neighbour (x + 1) y .West).Y
          = true := by
        simpa [neighbour, Position.Move, Orientation.VelocityForward] using hc0
      show ParseResult.SatOr _ (if arrCode = ['y', '>'] then _ else _) _
      split_ifs
      · exact (CircuitBoard.modifyChipAt_arrow hinv hc0 .East hE _).1
      · exact (CircuitBoard.modifyChipAt_arrow hinv hc0 .East hE _).2
      · exact (CircuitBoard.modifyChipAt_arrow hinv hc0 .East hE _).1
      · exact (CircuitBoard.modifyChipAt_arrow hinv hc1 .West hWest _).1
      · exact (CircuitBoard.modifyChipAt_arrow hinv hc1 .West hWest _).2
      · exact (CircuitBoard.modifyChipAt_arrow hinv hc1 .West hWest _).1
      · exact ParseResult.satOr_ok ⟨hinv, rfl, rfl⟩
      · exact ParseResult.satOr_error _

theorem arrowRowStep_spec {W H : Int} {b : CircuitBoard} (hinv : b.ParseInv W H) (i : Nat)
    {y : Int} (hy0 : 0 ≤ y) (hyH : y + 1 < H) (row : List Char) (x : Nat)
    (hx : (x : Int) < W) :
    ParseResult.SatOr ((row.length : Int) < 6 * W - 4) (arrowRowStep i y row b x)
      (fun b1 => b1.ParseInv W H ∧ b1.hasStartPos = b.hasStartPos ∧
        b1.startPos = b.startPos) := by
  unfold arrowRowStep
  cases hgs : goSlice row (x * 6) (x * 6 + 2) with
  | none =>
    have := goSlice_none hgs
    exact ParseResult.satOr_panicked (by omega)
  | some arrCode =>
    have hx0 : (0 : Int) ≤ (x : Int) := Int.ofNat_nonneg x
    have hc0 : b.Contains x y = true := hinv.contains hx0 hx hy0 (by omega)
    have hc1 : b.Contains x (y + 1) = true := hinv.contains hx0 hx (by omega) hyH
    have hS : b.Contains (neighbour x y .South).X (neighbour x y .South).Y = true := by
      simpa [neighbour, Position.Move, Orientation.VelocityForward] using hc1
    have hN : b.Contains (neighbour x (y + 1) .North).X (neighbour x (y + 1) .North).Y
        = true := by
      simpa [neighbour, Position.Move, Orientation.VelocityForward] using hc0
    show ParseResult.SatOr _ (if arrCode = ['y', 'v'] then _ else _) _
    split_ifs
    · exact (CircuitBoard.modifyChipAt_arrow hinv hc0 .South hS _).1
    · exact (CircuitBoard.modifyChipAt_arrow hinv hc0 .South hS _).2
    · exact (CircuitBoard.modifyChipAt_arrow hinv hc0 .South hS _).1
    · exact (CircuitBoard.modifyChipAt_arrow hinv hc1 .North hN _).1
    · exact (CircuitBoard.modifyChipAt_arrow hinv hc1 .North hN _).2
    · exact (CircuitBoard.modifyChipAt_arrow hinv hc1 .North hN _).1
    · exact ParseResult.satOr_ok ⟨hinv, rfl, rfl⟩
    · exact ParseResult.satOr_error _

/-- Setting the type of the chip of column `x`, for a type other than Start,
then the arrow to the next column: the recorded Start position is kept. -/
theorem chipSetStep_other {W H : Int} {b : CircuitBoard} (hinv : b.ParseInv W H) (i : Nat)
    {y : Int} (hy0 : 0 ≤ y) (hyH : y < H) (row : List Char) {t : ChipType}
    (ht : t ≠ .StartChip) (x : Nat) (hx : (x : Int) < W) (hbefore : b.startBefore x y) :
    ParseResult.SatOr ((row.length : Int) < 6 * W - 4) (chipSetStep W i y row t b x)
      (fun b1 => b1.ParseInv W H ∧ b1.hasStartPos = b.hasStartPos ∧
        b1.startPos = b.startPos) := by
  have hx0 : (0 : Int) ≤ (x : Int) := Int.ofNat_nonneg x
  have hxy : b.Contains x y = true := hinv.contains hx0 hx hy0 hyH
  obtain ⟨hW, hH, hwf, hsi, hao⟩ := hinv
  obtain ⟨ch, b2, hch, hset, hmod, hw, hh, hwf2, hao2⟩ :=
    CircuitBoard.modifyChipAt_ok hwf (fun h => (hsi.2 h).1) hao hxy
      (fun ch => ch.WithType t) (fun ch o ho => Or.inl ho)
  obtain ⟨hsi2, -, -, -, -⟩ := CircuitBoard.SetChipAt_start hsi hxy hset
  have hchne : ch.Type ≠ .StartChip := by
    intro hty
    obtain ⟨hhs, hsp⟩ := hsi.at_start hxy hch hty
    have := hbefore hhs
    rw [hsp] at this
    simp only at this
    omega
  obtain ⟨hhs2, hsp2⟩ := CircuitBoard.SetChipAt_keep hch (c := ch.WithType t) ht hchne hset
  have hinv2 : b2.ParseInv W H := ⟨hw.trans hW, hh.trans hH, hwf2, hsi2, hao2⟩
  unfold chipSetStep
  rw [hmod]
  refine ParseResult.satOr_mono (chipArrowStep_spec hinv2 i hy0 hyH row x hx) ?_
  intro b1 ⟨h1, h2, h3⟩
  exact ⟨h1, h2.trans hhs2, h3.trans hsp2⟩

/-- Recording the Start position, writing the Start chip of column `x`, then
the arrow to the next column, on a board without Start chip. -/
theorem chipSetStep_start {W H : Int} {b : CircuitBoard} (hinv : b.ParseInv W H) (i : Nat)
    {y : Int} (hy0 : 0 ≤ y) (hyH : y < H) (row : List Char) (x : Nat) (hx : (x : Int) < W)
    (hhas : b.hasStartPos = false) :
    ParseResult.SatOr ((row.length : Int) < 6 * W - 4)
      (chipSetStep W i y row .StartChip
        { b with startPos := { X := x, Y := y }, hasStartPos := true } x)
      (fun b1 => b1.ParseInv W H ∧ b1.hasStartPos = true ∧
        b1.startPos = { X := x, Y := y }) := by
  have hx0 : (0 : Int) ≤ (x : Int) := Int.ofNat_nonneg x
  have hxy : b.Contains x y = true := hinv.contains hx0 hx hy0 hyH
  obtain ⟨hW, hH, hwf, hsi, hao⟩ := hinv
  have hnone : OnlyStartAt b.chips none := by
    have := hsi.1
    rw [hhas] at this
    exact this
  obtain ⟨ch, b2, hch, hset, hmod, hw, hh, hwf2, hao2⟩ :=
    CircuitBoard.modifyChipAt_ok
      (b := { b with startPos := { X := x, Y := y }, hasStartPos := true })
      hwf (fun _ => hxy) hao hxy (fun ch => ch.WithType .StartChip) (fun ch o ho => Or.inl ho)
  obtain ⟨hsi2, hhs2, hsp2⟩ := CircuitBoard.SetChipAt_install
    (b := { b with startPos := { X := x, Y := y }, hasStartPos := true })
    (c := ch.WithType .StartChip) hnone rfl hxy rfl hset
  have hinv2 : b2.ParseInv W H := ⟨hw.trans hW, hh.trans hH, hwf2, hsi2, hao2⟩
  unfold chipSetStep
  rw [hmod]
  refine ParseResult.satOr_mono (chipArrowStep_spec hinv2 i hy0 hyH row x hx) ?_
  intro b1 ⟨h1, h2, h3⟩
  exact ⟨h1, h2.trans hhs2, h3.trans hsp2⟩

/-- One column of a row of chips: the invariant is kept, the recorded Start
position stays behind the cursor, and `hasStartPos` counts the `ST` codes. -/
theorem chipRowStep_spec {W H : Int} {b : CircuitBoard} (hinv : b.ParseInv W H) (i : Nat)
    {y : Int} (hy0 : 0 ≤ y) (hyH : y < H) (row : List Char) (x : Nat) (hx : (x : Int) < W)
    (hbefore : b.startBefore x y) :
    ParseResult.SatOr ((row.length : Int) < 6 * W - 4) (chipRowStep W i y row b x)
      (fun b1 => b1.ParseInv W H ∧ b1.startBefore ((x + 1 : Nat) : Int) y ∧
        b1.startCount = b.startCount +
          (if goSlice row (x * 6) (x * 6 + 2) = some ['S', 'T'] then 1 else 0)) := by
  unfold chipRowStep
  cases hgs : goSlice row (x * 6) (x * 6 + 2) with
  | none =>
    have := goSlice_none hgs
    exact ParseResult.satOr_panicked (by omega)
  | some code =>
    dsimp only
    cases hmap : chipTypeMap code with
    | none => exact ParseResult.satOr_error _
    | some t =>
      dsimp only
      show ParseResult.SatOr _ (if t = .StartChip then _ else _) _
      by_cases ht : t = .StartChip
      · rw [if_pos ht]
        subst ht
        have hcode : code = ['S', 'T'] := (chipTypeMap_start code).1 hmap
        by_cases hhas : b.hasStartPos = true
        · rw [if_pos hhas]
          exact ParseResult.satOr_error _
        · rw [if_neg hhas]
          have hhasf : b.hasStartPos = false := by simpa using hhas
          refine ParseResult.satOr_mono (chipSetStep_start hinv i hy0 hyH row x hx hhasf) ?_
          intro b1 ⟨h1, h2, h3⟩
          refine ⟨h1, fun _ => ?_, ?_⟩
          · rw [h3]
            right
            exact ⟨rfl, by push_cast; omega⟩
          · unfold CircuitBoard.startCount
            rw [h2, hhasf, hcode]
            simp
      · rw [if_neg ht]
        have hcode : ¬ (some code = some ['S', 'T']) := by
          intro h
          exact ht (Option.some.inj
            (hmap.symm.trans ((chipTypeMap_start code).2 (Option.some.inj h))))
        refine ParseResult.satOr_mono (chipSetStep_other hinv i hy0 hyH row ht x hx hbefore) ?_
        intro b1 ⟨h1, h2, h3⟩
        refine ⟨h1, fun h => ?_, ?_⟩
        · rw [h2] at h
          rw [h3]
          rcases hbefore h with h4 | h4
          · exact Or.inl h4
          · exact Or.inr ⟨h4.1, by push_cast; omega⟩
        · unfold CircuitBoard.startCount
          rw [h2, if_neg hcode]
          rfl

/-- A `for` loop whose body keeps an invariant indexed by the loop variable. -/
theorem forUpTo_spec {σ : Type} (f : σ → Nat → ParseResult σ) (short : Prop) (N : Nat)
    (I : Nat → σ → Prop)
    (hstep : ∀ x s, x < N → I x s → ParseResult.SatOr short (f s x) (I (x + 1))) :
    ∀ n x s, x + n = N → I x s → ParseResult.SatOr short (forUpTo f n x s) (I N) := by
  intro n
  induction n with
  | zero =>
    intro x s hxn hI
    have : x = N := by omega
    subst this
    exact ParseResult.satOr_ok hI
  | succ n ih =>
    intro x s hxn hI
    have hs := hstep x s (by omega) hI
    unfold forUpTo
    cases hf : f s x with
    | ok s1 =>
      rw [hf] at hs
      exact ih (x + 1) s1 (by omega) (hs.2 s1 rfl)
    | error e => exact ParseResult.satOr_error e
    | panicked =>
      rw [hf] at hs
      exact ParseResult.satOr_panicked (hs.1 rfl)

theorem stCountFrom_succ (row : List Char) (n x : Nat) :
    stCountFrom row (n + 1) x =
      (if goSlice row (x * 6) (x * 6 + 2) = some ['S', 'T'] then 1 else 0)
        + stCountFrom row n (x + 1) := rfl

/-- The loop over the columns of a row of chips. -/
theorem chipRow_spec {W H : Int} {b : CircuitBoard} (hinv : b.ParseInv W H) (i : Nat)
    {y : Int} (hy0 : 0 ≤ y) (hyH : y < H) (row : List Char) (hbefore : b.startBefore 0 y) :
    ParseResult.SatOr ((row.length : Int) < 6 * W - 4)
      (forUpTo (chipRowStep W i y row) W.toNat 0 b)
      (fun b1 => b1.ParseInv W H ∧ b1.startBefore 0 (y + 1) ∧
        b1.startCount = b.startCount + stCountFrom row W.toNat 0) := by
  have key := forUpTo_spec (chipRowStep W i y row) ((row.length : Int) < 6 * W - 4) W.toNat
    (fun x s => s.ParseInv W H ∧ s.startBefore (x : Int) y ∧
      s.startCount + stCountFrom row (W.toNat - x) x = b.startCount + stCountFrom row W.toNat 0)
    (by
      intro x s hx ⟨h1, h2, h3⟩
      refine ParseResult.satOr_mono (chipRowStep_spec h1 i hy0 hyH row x (by omega) h2) ?_
      intro s1 ⟨g1, g2, g3⟩
      refine ⟨g1, g2, ?_⟩
      have e : W.toNat - x = (W.toNat - (x + 1)) + 1 := by omega
      rw [e, stCountFrom_succ] at h3
      rw [g3]
      omega)
    W.toNat 0 b (by omega) ⟨hinv, hbefore, by simp⟩
  refine ParseResult.satOr_mono key ?_
  intro b1 ⟨h1, h2, h3⟩
  refine ⟨h1, fun h => ?_, ?_⟩
  · rcases h2 h with h4 | h4
    · exact Or.inl (by omega)
    · exact Or.inl (by omega)
  · simp only [Nat.sub_self, stCountFrom, Nat.add_zero] at h3
    exact h3

/-- The loop over the columns of a row of vertical arrows. -/
theorem arrowRow_spec {W H : Int} {b : CircuitBoard} (hinv : b.ParseInv W H) (i : Nat)
    {y : Int} (hy0 : 0 ≤ y) (hyH : y + 1 < H) (row : List Char) :
    ParseResult.SatOr ((row.length : Int) < 6 * W - 4)
      (forUpTo (arrowRowStep i y row) W.toNat 0 b)
      (fun b1 => b1.ParseInv W H ∧ b1.hasStartPos = b.hasStartPos ∧
        b1.startPos = b.startPos) := by
  have key := forUpTo_spec (arrowRowStep i y row) ((row.length : Int) < 6 * W - 4) W.toNat
    (fun _ s => s.ParseInv W H ∧ s.hasStartPos = b.hasStartPos ∧ s.startPos = b.startPos)
    (by
      intro x s hx ⟨h1, h2, h3⟩
      refine ParseResult.satOr_mono (arrowRowStep_spec h1 i hy0 hyH row x (by omega)) ?_
      intro s1 ⟨g1, g2, g3⟩
      exact ⟨g1, g2.trans h2, g3.trans h3⟩)
    W.toNat 0 b (by omega) ⟨hinv, rfl, rfl⟩
  exact key

/-- The loop over the lines: the invariant is kept and `hasStartPos` counts
the `ST` codes of the rows of chips. -/
theorem parseBoardRows_start {W H : Int} (short : Prop) :
    ∀ (rows : List (List Char)) (i : Nat) (b : CircuitBoard), b.ParseInv W H →
      b.startBefore 0 (((i + 1) / 2 : Nat) : Int) →
      ((i : Int) + rows.length = 2 * H - 1) →
      (∀ row ∈ rows, (row.length : Int) < 6 * W - 4 → short) →
      ParseResult.SatOr short (parseBoardRows W i rows b)
        (fun b1 => b1.ParseInv W H ∧
          b1.startCount = b.startCount + stCountRows W.toNat i rows) := by
  intro rows
  induction rows with
  | nil =>
    intro i b hinv _ _ _
    exact ParseResult.satOr_ok ⟨hinv, rfl⟩
  | cons row rest ih =>
    intro i b hinv hbefore hlen hshort
    have hlen1 : (i : Int) + (rest.length : Int) + 1 = 2 * H - 1 := by
      rw [List.length_cons] at hlen
      push_cast at hlen
      omega
    have hrow : (row.length : Int) < 6 * W - 4 → short := hshort row (List.mem_cons_self _ _)
    have hrest : ∀ r ∈ rest, (r.length : Int) < 6 * W - 4 → short :=
      fun r hr => hshort r (List.mem_cons_of_mem _ hr)
    unfold parseBoardRows stCountRows
    by_cases hi : i % 2 = 0
    · simp only [hi, if_true]
      have hy : (((i + 1) / 2 : Nat) : Int) = ((i / 2 : Nat) : Int) := by omega
      rw [hy] at hbefore
      have hs := chipRow_spec hinv i (y := ((i / 2 : Nat) : Int)) (by omega) (by omega) row
        hbefore
      cases hf : forUpTo (chipRowStep W i ((i / 2 : Nat) : Int) row) W.toNat 0 b with
      | ok b1 =>
        rw [hf] at hs
        obtain ⟨h1, h2, h3⟩ := hs.2 b1 rfl
        have hy2 : (((i + 1 + 1) / 2 : Nat) : Int) = ((i / 2 : Nat) : Int) + 1 := by omega
        have := ih (i + 1) b1 h1 (by rw [hy2]; exact h2) (by push_cast; omega) hrest
        refine ParseResult.satOr_mono this ?_
        intro b2 ⟨g1, g2⟩
        exact ⟨g1, by rw [g2, h3]; omega⟩
      | error e => exact ParseResult.satOr_error e
      | panicked =>
        rw [hf] at hs
        exact ParseResult.satOr_panicked (hrow (hs.1 rfl))
    · simp only [hi, if_false]
      have hs := arrowRow_spec hinv i (y := ((i / 2 : Nat) : Int)) (by omega) (by omega) row
      cases hf : forUpTo (arrowRowStep i ((i / 2 : Nat) : Int) row) W.toNat 0 b with
      | ok b1 =>
        rw [hf] at hs
        obtain ⟨h1, h2, h3⟩ := hs.2 b1 rfl
        have hy2 : (((i + 1 + 1) / 2 : Nat) : Int) = (((i + 1) / 2 : Nat) : Int) := by omega
        have hb1 : b1.startBefore 0 (((i + 1 + 1) / 2 : Nat) : Int) := by
          intro h
          rw [hy2, h3]
          exact hbefore (h2 ▸ h)
        have := ih (i + 1) b1 h1 hb1 (by push_cast; omega) hrest
        refine ParseResult.satOr_mono this ?_
        intro b2 ⟨g1, g2⟩
        refine ⟨g1, ?_⟩
        rw [g2]
        unfold CircuitBoard.startCount
        rw [h2]
        omega
      | error e => exact ParseResult.satOr_error e
      | panicked =>
        rw [hf] at hs
        exact ParseResult.satOr_panicked (hrow (hs.1 rfl))

theorem stripBars_ne_panicked : ∀ (lines : List (List Char)) (i : Nat),
    stripBars i lines ≠ .panicked := by
  intro lines
  induction lines with
  | nil => intro i h; cases h
  | cons row rest ih =>
    intro i h
    unfold stripBars at h
    split at h
    · cases h
    · have := ih (i + 1)
      cases hr : stripBars (i + 1) rest with
      | ok r => rw [hr] at h; cases h
      | error e => rw [hr] at h; cases h
      | panicked => exact this hr

/-- The board `NewCircuitBoard` allocates satisfies the invariant of the
parser's loops. -/
theorem NewCircuitBoard_parseInv {W H : Int} (hW : 0 ≤ W) (hH : 0 ≤ H) :
    ∃ b0, NewCircuitBoard W H = some b0 ∧
      ({ b0 with hasStartPos := false } : CircuitBoard) = b0 ∧ b0.ParseInv W H ∧
      b0.hasStartPos = false := by
  have hprod : 0 ≤ W * H := Int.mul_nonneg hW hH
  cases hnew : NewCircuitBoard W H with
  | none =>
    unfold NewCircuitBoard goMake at hnew
    rw [if_neg (not_lt.2 hprod)] at hnew
    cases hnew
  | some b0 =>
    obtain ⟨hw, hh, hchips, hs⟩ := NewCircuitBoard_some hnew
    refine ⟨b0, rfl, ?_, ⟨hw, hh, ?_, NewCircuitBoard_startInv hnew, ?_⟩, hs⟩
    · cases b0
      simp only at hs
      subst hs
      rfl
    · unfold CircuitBoard.WF
      rw [hchips, hw, hh, List.length_replicate]
    · intro x y ch o _ hch ho
      have := NewCircuitBoard_chip hnew hch
      subst this
      exact absurd ho (by cases o <;> decide)

theorem countP_eq_one {α : Type} (p : α → Bool) :
    ∀ (l : List α) (k : Nat) (c : α), l[k]? = some c → p c = true →
      (∀ i ci, l[i]? = some ci → p ci = true → i = k) → l.countP p = 1 := by
  intro l
  induction l with
  | nil => intro k c h; simp at h
  | cons a t ih =>
    intro k c hk hc huniq
    cases k with
    | zero =>
      simp only [List.getElem?_cons_zero, Option.some.injEq] at hk
      subst hk
      have ht : t.countP p = 0 := by
        rw [List.countP_eq_zero]
        intro a1 ha1 hp
        obtain ⟨j, hj⟩ := List.mem_iff_getElem?.1 ha1
        have := huniq (j + 1) a1 (by simpa using hj) hp
        omega
      rw [List.countP_cons_of_pos _ _ hc, ht]
    | succ k =>
      simp only [List.getElem?_cons_succ] at hk
      have ha : ¬ (p a = true) := by
        intro hp
        have := huniq 0 a (by simp) hp
        omega
      rw [List.countP_cons_of_neg _ _ ha]
      apply ih k c hk hc
      intro i ci hi hp
      have := huniq (i + 1) ci (by simpa using hi) hp
      omega

/-- A board that satisfies the Start invariant and records a Start position
has exactly one chip of type Start. -/
theorem CircuitBoard.StartInv.startChips {b : CircuitBoard} (hinv : b.StartInv)
    (hhas : b.hasStartPos = true) : b.startChips = 1 := by
  obtain ⟨-, ch, hch, hty⟩ := hinv.2 hhas
  unfold CircuitBoard.ChipAt at hch
  obtain ⟨-, hget⟩ := sliceGet_some hch
  unfold CircuitBoard.startChips
  apply countP_eq_one _ _ _ ch hget (by simpa using hty)
  intro i ci hi hp
  have := hinv.1 i ci hi (by simpa using hp)
  rw [hhas] at this
  simp only [if_true, Option.some.injEq] at this
  exact this.symm

/-- The parser from the lines on: it panics only on a line shorter than the
first, and a board it returns satisfies the Start invariant with a recorded
Start position, the rows of chips holding exactly one `ST` code. -/
theorem CircuitBoardFromRows_start (lines : List (List Char)) :
    ∃ rows, (stripBars 0 lines = .ok rows ∨
        (∃ e, stripBars 0 lines = .error e ∧ CircuitBoardFromRows lines = .error e)) ∧
      (stripBars 0 lines = .ok rows →
        ParseResult.SatOr (∃ row ∈ rows, row.length < (rows.headD []).length)
          (CircuitBoardFromRows lines)
          (fun b => b.StartInv ∧ b.hasStartPos = true ∧
            stCountRows (((rows.headD []).length + 4) / 6) 0 rows = 1)) := by
  cases hsb : stripBars 0 lines with
  | panicked => exact absurd hsb (stripBars_ne_panicked lines 0)
  | error e =>
    refine ⟨[], Or.inr ⟨e, rfl, ?_⟩, fun h => (by cases h)⟩
    unfold CircuitBoardFromRows
    rw [hsb]
  | ok rows =>
    have hmain : ParseResult.SatOr (∃ row ∈ rows, row.length < (rows.headD []).length)
        (CircuitBoardFromRows lines)
        (fun b => b.StartInv ∧ b.hasStartPos = true ∧
          stCountRows (((rows.headD []).length + 4) / 6) 0 rows = 1) := by
      unfold CircuitBoardFromRows
      rw [hsb]
      dsimp only
      by_cases hodd : rows.length % 2 ≠ 1
      · rw [if_pos hodd]
        exact ParseResult.satOr_error _
      · rw [if_neg hodd]
        have hodd1 : rows.length % 2 = 1 := by omega
        by_cases hh0 : (((rows.length + 1) / 2 : Nat) : Int) = 0
        · rw [if_pos hh0]
          exact ParseResult.satOr_error _
        · rw [if_neg hh0]
          by_cases hw : Int.tdiv (((rows.headD []).length : Int) + 4) 6 * 6 - 4
              ≠ ((rows.headD []).length : Int)
          · rw [if_pos hw]
            exact ParseResult.satOr_error _
          · rw [if_neg hw]
            have hw1 : Int.tdiv (((rows.headD []).length : Int) + 4) 6 * 6 - 4
                = ((rows.headD []).length : Int) := by
              by_contra hcon
              exact hw hcon
            generalize Int.tdiv (((rows.headD []).length : Int) + 4) 6 = W at hw1 ⊢
            generalize hH : (((rows.length + 1) / 2 : Nat) : Int) = H
            have hW0 : 0 ≤ W := by omega
            have hH0 : 0 ≤ H := by omega
            obtain ⟨b0, hnew, hb0, hinv0, hhas0⟩ := NewCircuitBoard_parseInv hW0 hH0
            rw [hnew]
            dsimp only
            rw [hb0]
            have hWn : W.toNat = ((rows.headD []).length + 4) / 6 := by omega
            have hbefore : b0.startBefore 0 (((0 + 1) / 2 : Nat) : Int) := by
              intro h
              rw [hhas0] at h
              cases h
            have hs := parseBoardRows_start (W := W) (H := H)
              (∃ row ∈ rows, row.length < (rows.headD []).length) rows 0 b0 hinv0 hbefore
              (by omega)
              (fun row hrow hlt => ⟨row, hrow, by omega⟩)
            cases hp : parseBoardRows W 0 rows b0 with
            | error e => exact ParseResult.satOr_error e
            | panicked =>
              rw [hp] at hs
              exact ParseResult.satOr_panicked (hs.1 rfl)
            | ok b =>
              rw [hp] at hs
              obtain ⟨⟨-, -, -, hsi, -⟩, hcount⟩ := hs.2 b rfl
              dsimp only
              cases hhas : b.hasStartPos with
              | false => exact ParseResult.satOr_error _
              | true =>
                refine ParseResult.satOr_ok ⟨hsi, hhas, ?_⟩
                unfold CircuitBoard.startCount at hcount
                rw [hhas, hhas0, hWn] at hcount
                simpa using hcount.symm
    exact ⟨rows, Or.inl rfl, fun _ => hmain⟩

/-- The Start chip of a parsed board, for every text:
`CircuitBoardFromString` never returns a board for a text whose rows
of chips hold no `ST` chip code or more than one, and it returns an error for
such a text when no line is shorter than the first; whenever it returns a
board, the text holds exactly one `ST` code, exactly one chip of the board
has type Start, and `StartPos()` returns ok = true with the position of an
on-board cell that holds a Start chip. -/
theorem CircuitBoardFromString_start_chip (s : String) :
    (stCodes s ≠ 1 →
      (∀ b, CircuitBoardFromString s ≠ .ok b) ∧
      (longLines s = true → ∃ e, CircuitBoardFromString s = .error e)) ∧
    (∀ b, CircuitBoardFromString s = .ok b →
      stCodes s = 1 ∧ b.startChips = 1 ∧ b.StartPos.2 = true ∧
      b.Contains b.StartPos.1.X b.StartPos.1.Y = true ∧
      ∃ ch, b.ChipAt b.StartPos.1.X b.StartPos.1.Y = some ch ∧ ch.Type = .StartChip) := by
  obtain ⟨rows, hrows, hsat⟩ := CircuitBoardFromRows_start (Split (TrimSpace s.toList))
  have hok : ∀ b, CircuitBoardFromString s = .ok b →
      stCodes s = 1 ∧ b.StartInv ∧ b.hasStartPos = true := by
    intro b hb
    rcases hrows with h | ⟨e, -, h2⟩
    · obtain ⟨h1, h2, h3⟩ := (hsat h).2 b hb
      refine ⟨?_, h1, h2⟩
      unfold stCodes
      rw [h]
      exact h3
    · unfold CircuitBoardFromString at hb
      rw [h2] at hb
      cases hb
  constructor
  · intro hne
    have hnot : ∀ b, CircuitBoardFromString s ≠ .ok b := fun b hb => hne (hok b hb).1
    refine ⟨hnot, fun hlong => ?_⟩
    cases hr : CircuitBoardFromString s with
    | ok b => exact absurd hr (hnot b)
    | error e => exact ⟨e, rfl⟩
    | panicked =>
      rcases hrows with h | ⟨e, -, h2⟩
      · obtain ⟨row, hrow, hlt⟩ := (hsat h).1 hr
        unfold longLines at hlong
        rw [h] at hlong
        simp only [List.all_eq_true, decide_eq_true_eq] at hlong
        have := hlong row hrow
        omega
      · unfold CircuitBoardFromString at hr
        rw [h2] at hr
        cases hr
  · intro b hb
    obtain ⟨h1, h2, h3⟩ := hok b hb
    exact ⟨h1, h2.startChips h3, h3, (h2.2 h3).1, (h2.2 h3).2⟩

theorem CircuitBoardFromString_start_chip_witness :
    (∃ e, CircuitBoardFromString "|MF .. MF|" = .error e) ∧
      (∃ e, CircuitBoardFromString "|ST .. ST|" = .error e) ∧
      lineBoard.startChips = 1 :=
  ⟨((CircuitBoardFromString_start_chip "|MF .. MF|").1 (by decide)).2 (by decide),
    ((CircuitBoardFromString_start_chip "|ST .. ST|").1 (by decide)).2 (by decide),
    ((CircuitBoardFromString_start_chip "|ST -> MF|").2 lineBoard (by decide)).2.1⟩

/-! ## C21: line lengths in the board parser -/

/-- C21: the board parser checks the length of the first line only. A shorter
line makes it slice the line out of range (an empty second line, or an arrow
line of 2 characters where 8 are read), and a longer line is accepted, its
extra characters being ignored. -/
theorem CircuitBoardFromString_line_length_unchecked :
    CircuitBoardFromString "|ST|\n||\n|MF|" = .panicked ∧
      CircuitBoardFromString "|ST -> MF|\n|  |\n|TL <- TR|" = .panicked ∧
      CircuitBoardFromString "|ST|\n|  ??????|\n|MF|"
        = .ok { width := 1, height := 2,
                chips := [Chip.zero.WithType .StartChip, Chip.zero.WithType .ForwardChip],
                startPos := { X := 0, Y := 0 }, hasStartPos := true } := by
  decide

/-! ## C23: the frame of `SetChipAt` -/

theorem sliceGet_set_map {α : Type} {xs : List α} {i : Int} {a : α} (f : α → α)
    (h : sliceGet xs i = some a) {k : Int} (hk : 0 ≤ k) :
    sliceGet (xs.set i.toNat (f a)) k
      = (sliceGet xs k).map (fun old => if k = i then f old else old) := by
  by_cases hki : k = i
  · subst hki
    rw [sliceGet_set_same _ h, h]
    simp
  · rw [sliceGet_set_ne _ (sliceGet_some h).1 hk (fun e => hki e.symm)]
    cases sliceGet xs k with
    | none => rfl
    | some v => simp [hki]

/-- What a successful arrow step does to the chips. -/
theorem CircuitBoard.arrowStep_some {b b1 : CircuitBoard} {x y : Int} {a : Orientation × Bool}
    (h : b.arrowStep x y a = some b1) :
    (a.2 = true → ∃ ch,
      sliceGet b.chips (b.chipIndex (neighbour x y a.1).X (neighbour x y a.1).Y) = some ch ∧
      b1.chips = b.chips.set (b.chipIndex (neighbour x y a.1).X (neighbour x y a.1).Y).toNat
        (ch.ClearArrow a.1.Reverse)) ∧
    (a.2 = false → b1.chips = b.chips) := by
  unfold CircuitBoard.arrowStep at h
  by_cases ha : a.2 = true
  · rw [if_pos ha] at h
    unfold CircuitBoard.deleteArrow CircuitBoard.ChipAt at h
    simp only [Option.bind_eq_bind, Option.bind_eq_some, Option.pure_def, Option.some.injEq] at h
    obtain ⟨ch, hch, chips, hset, rfl⟩ := h
    rw [sliceSet_of_get _ hch] at hset
    cases hset
    refine ⟨fun _ => ⟨ch, hch, rfl⟩, fun hf => ?_⟩
    rw [ha] at hf
    cases hf
  · rw [if_neg ha] at h
    simp only [Option.pure_def, Option.some.injEq] at h
    subst h
    exact ⟨fun ht => absurd ht ha, fun _ => rfl⟩

/-- The chips after an arrow step, index by index. -/
theorem CircuitBoard.arrowStep_get {b b1 : CircuitBoard} {x y : Int} {a : Orientation × Bool}
    (h : b.arrowStep x y a = some b1) {k : Int} (hk : 0 ≤ k) :
    sliceGet b1.chips k = (sliceGet b.chips k).map (fun old =>
      if a.2 = true ∧ k = b.chipIndex (neighbour x y a.1).X (neighbour x y a.1).Y then
        old.ClearArrow a.1.Reverse
      else old) := by
  obtain ⟨hyes, hno⟩ := CircuitBoard.arrowStep_some h
  by_cases ha : a.2 = true
  · obtain ⟨ch, hch, hchips⟩ := hyes ha
    rw [hchips, sliceGet_set_map (fun old => old.ClearArrow a.1.Reverse) hch hk]
    simp only [ha, true_and]
  · have haf : a.2 = false := by simpa using ha
    rw [hno haf]
    cases sliceGet b.chips k with
    | none => rfl
    | some v => simp [ha]

/-- The chips after the Start bookkeeping, index by index. -/
theorem CircuitBoard.startStep_get {b b1 : CircuitBoard} {x y : Int} {c pc : Chip}
    (h : b.startStep x y c pc = some b1) {k : Int} (hk : 0 ≤ k) :
    sliceGet b1.chips k = (sliceGet b.chips k).map (fun old =>
      if c.Type = .StartChip ∧ b.hasStartPos = true ∧
          k = b.chipIndex b.startPos.X b.startPos.Y then old.WithType .NoChip
      else old) := by
  obtain ⟨-, -, -, hstart, hother⟩ := CircuitBoard.startStep_some h
  by_cases h3 : c.Type = .StartChip
  · obtain ⟨-, -, hdem, hnodem⟩ := hstart h3
    by_cases h5 : b.hasStartPos = true
    · obtain ⟨cs, hcs, hchips⟩ := hdem h5
      rw [hchips, sliceGet_set_map (fun old => old.WithType .NoChip) hcs hk]
      simp only [h3, h5, true_and]
    · have h5f : b.hasStartPos = false := by simpa using h5
      rw [hnodem h5f]
      cases sliceGet b.chips k with
      | none => rfl
      | some v => simp [h5]
  · obtain ⟨hchips, -, -⟩ := hother h3
    rw [hchips]
    cases sliceGet b.chips k with
    | none => rfl
    | some v => simp [h3]

/-- On a well-formed board, `SetChipAt` with an on-board target and on-board
arrow targets succeeds, stores the chip, and turns every other chip into what
`afterSet` says. -/
theorem CircuitBoard.SetChipAt_chips {b : CircuitBoard} (hwf : b.WF)
    (hst : b.hasStartPos = true → b.Contains b.startPos.X b.startPos.Y = true)
    {x y : Int} {c : Chip} (hcall : b.callOnBoard (x, y, c) = true) :
    ∃ b1, b.SetChipAt x y c = some b1 ∧ b1.width = b.width ∧ b1.height = b.height ∧
      sliceGet b1.chips (b.chipIndex x y) = some c ∧
      ∀ k : Int, 0 ≤ k → k ≠ b.chipIndex x y →
        sliceGet b1.chips k = (sliceGet b.chips k).map (b.afterSet x y c k) := by
  unfold CircuitBoard.callOnBoard at hcall
  simp only [Bool.and_eq_true, Bool.or_eq_true, Bool.not_eq_true'] at hcall
  obtain ⟨⟨hxy, hyes⟩, hno⟩ := hcall
  obtain ⟨hi0, hi1⟩ := CircuitBoard.index_valid hwf hxy
  obtain ⟨pc, hpc⟩ := sliceGet_of_lt hi0 hi1
  obtain ⟨s1, hs1, hw1, hh1, hsh1, -⟩ := CircuitBoard.startStep_ok hwf hst hxy c pc
  have hwf1 : s1.WF := by
    unfold CircuitBoard.WF at hwf ⊢
    rw [hsh1.1, hw1, hh1, hwf]
  have hyes1 : c.ArrowYes.2 = true →
      s1.Contains (neighbour x y c.ArrowYes.1).X (neighbour x y c.ArrowYes.1).Y = true := by
    intro h
    rw [CircuitBoard.Contains_congr hw1 hh1]
    rcases hyes with h1 | h1
    · rw [h] at h1; exact absurd h1 (by simp)
    · exact h1
  obtain ⟨s2, hs2, hw2, hh2, -, -, hsh2, -⟩ := CircuitBoard.arrowStep_ok hwf1 hyes1
  have hwf2 : s2.WF := by
    unfold CircuitBoard.WF at hwf1 ⊢
    rw [hsh2.1, hw2, hh2, hwf1]
  have hno2 : c.ArrowNo.2 = true →
      s2.Contains (neighbour x y c.ArrowNo.1).X (neighbour x y c.ArrowNo.1).Y = true := by
    intro h
    rw [CircuitBoard.Contains_congr hw2 hh2, CircuitBoard.Contains_congr hw1 hh1]
    rcases hno with h1 | h1
    · rw [h] at h1; exact absurd h1 (by simp)
    · exact h1
  obtain ⟨s3, hs3, hw3, hh3, -, -, hsh3, -⟩ := CircuitBoard.arrowStep_ok hwf2 hno2
  have hw : s3.width = b.width := by rw [hw3, hw2, hw1]
  have hh : s3.height = b.height := by rw [hh3, hh2, hh1]
  have hlen : s3.chips.length = b.chips.length := by rw [hsh3.1, hsh2.1, hsh1.1]
  have hidx3 : s3.chipIndex x y = b.chipIndex x y := CircuitBoard.chipIndex_congr hw x y
  obtain ⟨p3, hp3⟩ : ∃ a, sliceGet s3.chips (b.chipIndex x y) = some a :=
    sliceGet_of_lt hi0 (by rw [hlen]; exact hi1)
  have hset := sliceSet_of_get c hp3
  refine ⟨{ s3 with chips := s3.chips.set (b.chipIndex x y).toNat c }, ?_, hw, hh, ?_, ?_⟩
  · rw [CircuitBoard.SetChipAt_eq]
    simp [hpc, hs1, hs2, hs3, hidx3, hset]
  · exact sliceGet_set_same c hp3
  · intro k hk hne
    show sliceGet (s3.chips.set (b.chipIndex x y).toNat c) k = _
    rw [sliceGet_set_ne _ hi0 hk (fun e => hne e.symm),
      CircuitBoard.arrowStep_get hs3 hk, CircuitBoard.arrowStep_get hs2 hk,
      CircuitBoard.startStep_get hs1 hk,
      CircuitBoard.chipIndex_congr (hw2.trans hw1), CircuitBoard.chipIndex_congr hw1]
    cases sliceGet b.chips k with
    | none => rfl
    | some v => rfl

/-- A conditional `ClearArrow`: types and active markers stay, and an arrow
changes only by being removed when it has the cleared orientation. -/
theorem Chip.clearIf (cond : Prop) [Decidable cond] (ch : Chip) (o : Orientation) :
    (if cond then ch.ClearArrow o else ch).chipType = ch.chipType ∧
      (if cond then ch.ClearArrow o else ch).active = ch.active ∧
      (if cond then ch.ClearArrow o else ch).activeArrow = ch.activeArrow ∧
      ((if cond then ch.ClearArrow o else ch).arrowYes = ch.arrowYes ∨
        (cond ∧ (if cond then ch.ClearArrow o else ch).arrowYes = none ∧
          ch.arrowYes = some o)) ∧
      ((if cond then ch.ClearArrow o else ch).arrowNo = ch.arrowNo ∨
        (cond ∧ (if cond then ch.ClearArrow o else ch).arrowNo = none ∧
          ch.arrowNo = some o)) := by
  by_cases hc : cond
  · rw [if_pos hc]
    refine ⟨rfl, rfl, rfl, ?_, ?_⟩
    · by_cases h : ch.arrowYes = some o
      · exact Or.inr ⟨hc, by simp [Chip.ClearArrow, h], h⟩
      · exact Or.inl (by simp [Chip.ClearArrow, h])
    · by_cases h : ch.arrowNo = some o
      · exact Or.inr ⟨hc, by simp [Chip.ClearArrow, h], h⟩
      · exact Or.inl (by simp [Chip.ClearArrow, h])
  · rw [if_neg hc]
    exact ⟨rfl, rfl, rfl, Or.inl rfl, Or.inl rfl⟩

theorem Position.eq_of_coords {p : Position} {x y : Int} (hx : p.X = x) (hy : p.Y = y) :
    p = { X := x, Y := y } := by
  cases p
  simp only at hx hy
  rw [hx, hy]

/-- The fields of a chip after a conditional demotion and two conditional
`ClearArrow` calls. -/
theorem Chip.frame_fields (D Y N : Prop) [Decidable D] [Decidable Y] [Decidable N]
    (old o1 o2 new : Chip) (oy oz : Orientation)
    (h1 : o1 = if D then old.WithType .NoChip else old)
    (h2 : o2 = if Y then o1.ClearArrow oy else o1)
    (h3 : new = if N then o2.ClearArrow oz else o2) :
    new.active = old.active ∧ new.activeArrow = old.activeArrow ∧
      (new.chipType = old.chipType ∨ (new.chipType = .NoChip ∧ D)) ∧
      (new.arrowYes = old.arrowYes ∨
        (new.arrowYes = none ∧
          ((Y ∧ old.arrowYes = some oy) ∨ (N ∧ old.arrowYes = some oz)))) ∧
      (new.arrowNo = old.arrowNo ∨
        (new.arrowNo = none ∧
          ((Y ∧ old.arrowNo = some oy) ∨ (N ∧ old.arrowNo = some oz)))) ∧
      (¬ D → ¬ Y → ¬ N → new = old) := by
  have a1 : o1.active = old.active ∧ o1.activeArrow = old.activeArrow ∧
      o1.arrowYes = old.arrowYes ∧ o1.arrowNo = old.arrowNo ∧
      (o1.chipType = old.chipType ∨ (o1.chipType = .NoChip ∧ D)) := by
    by_cases hD : D
    · rw [if_pos hD] at h1
      subst h1
      exact ⟨rfl, rfl, rfl, rfl, Or.inr ⟨rfl, hD⟩⟩
    · rw [if_neg hD] at h1
      subst h1
      exact ⟨rfl, rfl, rfl, rfl, Or.inl rfl⟩
  obtain ⟨a1a, a1b, a1y, a1n, a1t⟩ := a1
  obtain ⟨b2t, b2a, b2b, b2y, b2n⟩ := Chip.clearIf Y o1 oy
  rw [← h2] at b2t b2a b2b b2y b2n
  obtain ⟨c3t, c3a, c3b, c3y, c3n⟩ := Chip.clearIf N o2 oz
  rw [← h3] at c3t c3a c3b c3y c3n
  refine ⟨c3a.trans (b2a.trans a1a), c3b.trans (b2b.trans a1b), ?_, ?_, ?_, ?_⟩
  · rcases a1t with h | ⟨h, hD⟩
    · exact Or.inl (c3t.trans (b2t.trans h))
    · exact Or.inr ⟨c3t.trans (b2t.trans h), hD⟩
  · rcases c3y with h | ⟨hN, hn, ho⟩
    · rcases b2y with g | ⟨hY, gn, go⟩
      · exact Or.inl (h.trans (g.trans a1y))
      · exact Or.inr ⟨h.trans gn, Or.inl ⟨hY, a1y ▸ go⟩⟩
    · rcases b2y with g | ⟨hY, gn, go⟩
      · exact Or.inr ⟨hn, Or.inr ⟨hN, a1y ▸ (g ▸ ho)⟩⟩
      · rw [gn] at ho
        cases ho
  · rcases c3n with h | ⟨hN, hn, ho⟩
    · rcases b2n with g | ⟨hY, gn, go⟩
      · exact Or.inl (h.trans (g.trans a1n))
      · exact Or.inr ⟨h.trans gn, Or.inl ⟨hY, a1n ▸ go⟩⟩
    · rcases b2n with g | ⟨hY, gn, go⟩
      · exact Or.inr ⟨hn, Or.inr ⟨hN, a1n ▸ (g ▸ ho)⟩⟩
      · rw [gn] at ho
        cases ho
  · intro hD hY hN
    rw [h3, if_neg hN, h2, if_neg hY, h1, if_neg hD]

/-- C23 (amended): on a board whose chip array has width*height entries and
whose recorded Start position is on the board, `SetChipAt(x, y, c)` for an
on-board cell `(x, y)` and a chip `c` whose arrows point to cells of the board
returns and stores `c`; every other on-board chip keeps its active marker;
its type changes only at the previous Start position when `c` is a Start
chip (to NoChip); its Yes and its No arrow change only by being removed, at a
cell one of the arrows of `c` points to, when they point back at `(x, y)`; a
chip that is neither the previous Start chip nor at an arrow target of `c` is
unchanged. -/
theorem SetChipAt_frame (b : CircuitBoard) (x y : Int) (c : Chip) (hwf : b.WF)
    (hst : b.hasStartPos = true → b.Contains b.startPos.X b.startPos.Y = true)
    (hcall : b.callOnBoard (x, y, c) = true) :
    ∃ b1, b.SetChipAt x y c = some b1 ∧ b1.ChipAt x y = some c ∧
      ∀ x1 y1, b.Contains x1 y1 = true → ¬ (x1 = x ∧ y1 = y) →
        ∃ old new, b.ChipAt x1 y1 = some old ∧ b1.ChipAt x1 y1 = some new ∧
          new.active = old.active ∧ new.activeArrow = old.activeArrow ∧
          (new.chipType = old.chipType ∨
            (new.chipType = .NoChip ∧ c.Type = .StartChip ∧ b.hasStartPos = true ∧
              b.startPos = { X := x1, Y := y1 })) ∧
          (new.arrowYes = old.arrowYes ∨
            (new.arrowYes = none ∧ ∃ o, c.hasArrow o = true ∧
              neighbour x y o = { X := x1, Y := y1 } ∧ old.arrowYes = some o.Reverse)) ∧
          (new.arrowNo = old.arrowNo ∨
            (new.arrowNo = none ∧ ∃ o, c.hasArrow o = true ∧
              neighbour x y o = { X := x1, Y := y1 } ∧ old.arrowNo = some o.Reverse)) ∧
          (¬ (c.Type = .StartChip ∧ b.hasStartPos = true ∧
              b.startPos = { X := x1, Y := y1 }) →
            (∀ o, c.hasArrow o = true → neighbour x y o ≠ { X := x1, Y := y1 }) →
            new = old) := by
  obtain ⟨b1, hb1, hw, -, hsame, hrest⟩ := CircuitBoard.SetChipAt_chips hwf hst hcall
  unfold CircuitBoard.callOnBoard at hcall
  simp only [Bool.and_eq_true, Bool.or_eq_true, Bool.not_eq_true'] at hcall
  obtain ⟨⟨hxy, hyes⟩, hno⟩ := hcall
  refine ⟨b1, hb1, ?_, ?_⟩
  · unfold CircuitBoard.ChipAt
    rw [CircuitBoard.chipIndex_congr hw]
    exact hsame
  intro x1 y1 hc1 hne1
  obtain ⟨hk0, hk1⟩ := CircuitBoard.index_valid hwf hc1
  obtain ⟨old, hold⟩ := sliceGet_of_lt hk0 hk1
  have hkne : b.chipIndex x1 y1 ≠ b.chipIndex x y := by
    intro heq
    exact hne1 (CircuitBoard.index_inj hc1 hxy heq)
  have hnew := hrest (b.chipIndex x1 y1) hk0 hkne
  rw [hold] at hnew
  -- the three conditions of `afterSet`, in terms of positions
  have hd : (c.Type = .StartChip ∧ b.hasStartPos = true ∧
      b.chipIndex x1 y1 = b.chipIndex b.startPos.X b.startPos.Y) →
      c.Type = .StartChip ∧ b.hasStartPos = true ∧ b.startPos = { X := x1, Y := y1 } := by
    intro ⟨h1, h2, h3⟩
    obtain ⟨e1, e2⟩ := CircuitBoard.index_inj hc1 (hst h2) h3
    exact ⟨h1, h2, Position.eq_of_coords e1.symm e2.symm⟩
  have hcy : (c.ArrowYes.2 = true ∧ b.chipIndex x1 y1
      = b.chipIndex (neighbour x y c.ArrowYes.1).X (neighbour x y c.ArrowYes.1).Y) →
      c.hasArrow c.ArrowYes.1 = true ∧ neighbour x y c.ArrowYes.1 = { X := x1, Y := y1 } := by
    intro ⟨h1, h2⟩
    have hon : b.Contains (neighbour x y c.ArrowYes.1).X (neighbour x y c.ArrowYes.1).Y
        = true := by
      rcases hyes with h | h
      · rw [h1] at h; exact absurd h (by simp)
      · exact h
    obtain ⟨e1, e2⟩ := CircuitBoard.index_inj hc1 hon h2
    exact ⟨Chip.ArrowYes_hasArrow h1, Position.eq_of_coords e1.symm e2.symm⟩
  have hcn : (c.ArrowNo.2 = true ∧ b.chipIndex x1 y1
      = b.chipIndex (neighbour x y c.ArrowNo.1).X (neighbour x y c.ArrowNo.1).Y) →
      c.hasArrow c.ArrowNo.1 = true ∧ neighbour x y c.ArrowNo.1 = { X := x1, Y := y1 } := by
    intro ⟨h1, h2⟩
    have hon : b.Contains (neighbour x y c.ArrowNo.1).X (neighbour x y c.ArrowNo.1).Y
        = true := by
      rcases hno with h | h
      · rw [h1] at h; exact absurd h (by simp)
      · exact h
    obtain ⟨e1, e2⟩ := CircuitBoard.index_inj hc1 hon h2
    exact ⟨Chip.ArrowNo_hasArrow h1, Position.eq_of_coords e1.symm e2.symm⟩
  refine ⟨old, b.afterSet x y c (b.chipIndex x1 y1) old, hold, ?_, ?_⟩
  · unfold CircuitBoard.ChipAt
    rw [CircuitBoard.chipIndex_congr hw]
    exact hnew
  obtain ⟨f1, f2, f3, f4, f5, f6⟩ := Chip.frame_fields
    (c.Type = .StartChip ∧ b.hasStartPos = true ∧
      b.chipIndex x1 y1 = b.chipIndex b.startPos.X b.startPos.Y)
    (c.ArrowYes.2 = true ∧ b.chipIndex x1 y1
      = b.chipIndex (neighbour x y c.ArrowYes.1).X (neighbour x y c.ArrowYes.1).Y)
    (c.ArrowNo.2 = true ∧ b.chipIndex x1 y1
      = b.chipIndex (neighbour x y c.ArrowNo.1).X (neighbour x y c.ArrowNo.1).Y)
    old _ _ (b.afterSet x y c (b.chipIndex x1 y1) old)
    c.ArrowYes.1.Reverse c.ArrowNo.1.Reverse rfl rfl rfl
  refine ⟨f1, f2, ?_, ?_, ?_, ?_⟩
  · rcases f3 with h | ⟨h, hD⟩
    · exact Or.inl h
    · exact Or.inr ⟨h, hd hD⟩
  · rcases f4 with h | ⟨h, ⟨hY, ho⟩ | ⟨hN, ho⟩⟩
    · exact Or.inl h
    · exact Or.inr ⟨h, _, (hcy hY).1, (hcy hY).2, ho⟩
    · exact Or.inr ⟨h, _, (hcn hN).1, (hcn hN).2, ho⟩
  · rcases f5 with h | ⟨h, ⟨hY, ho⟩ | ⟨hN, ho⟩⟩
    · exact Or.inl h
    · exact Or.inr ⟨h, _, (hcy hY).1, (hcy hY).2, ho⟩
    · exact Or.inr ⟨h, _, (hcn hN).1, (hcn hN).2, ho⟩
  · intro hnd hnt
    exact f6 (fun hD => hnd (hd hD)) (fun hY => hnt _ (hcy hY).1 (hcy hY).2)
      (fun hN => hnt _ (hcn hN).1 (hcn hN).2)

/-- Witness for C23 (amended): on the 2x2 cycle board a Start chip with an
arrow North is set at (1,1). -/
theorem SetChipAt_frame_witness :
    ∃ b1, cycleBoard.SetChipAt 1 1 ((Chip.zero.WithType .StartChip).WithArrowYes .North)
        = some b1 ∧
      b1.ChipAt 1 1 = some ((Chip.zero.WithType .StartChip).WithArrowYes .North) :=
  (SetChipAt_frame cycleBoard 1 1 ((Chip.zero.WithType .StartChip).WithArrowYes .North)
    (by decide) (by decide) (by decide)).imp (fun _ h => ⟨h.1, h.2.1⟩)

/-- C23 (as stated, fails): on the empty 2x2 board, setting at the corner
(1,1) a chip whose arrow points East, off the board, indexes the chip array
out of range (index 4), and so does an arrow North at (0,0) (index -2). After
a chip with an arrow East was set on the edge cell (1,0), setting at the edge
cell (0,1) a chip whose arrow points West, off the board, removes the arrow
of the chip at (1,0), which is not a neighbour of (0,1). -/
theorem SetChipAt_off_board_arrow :
    (NewCircuitBoard 2 2).bind (fun b => b.SetChipAt 1 1 (Chip.zero.WithArrowYes .East))
        = none ∧
      (NewCircuitBoard 2 2).bind (fun b => b.SetChipAt 0 0 (Chip.zero.WithArrowYes .North))
        = none ∧
      ((NewCircuitBoard 2 2).bind (fun b =>
          b.setAll [(1, 0, Chip.zero.WithArrowYes .East)])).bind (fun b => b.ChipAt 1 0)
        = some (Chip.zero.WithArrowYes .East) ∧
      ((NewCircuitBoard 2 2).bind (fun b =>
          b.setAll [(1, 0, Chip.zero.WithArrowYes .East),
                    (0, 1, Chip.zero.WithArrowYes .West)])).bind (fun b => b.ChipAt 1 0)
        = some Chip.zero := by
  decide

/-! ## C22: the flags of a parsed maze -/

theorem ParseResult.ofOption_ok {α : Type} {o : Option α} {a : α}
    (h : ParseResult.ofOption o = .ok a) : o = some a := by
  cases o with
  | none => cases h
  | some v =>
    unfold ParseResult.ofOption at h
    cases h
    rfl

/-- A successful `UpdateCellAt` at an in-range position of a shaped maze, in
terms of the cell list. -/
theorem Maze.UpdateCellAt_at {W H : Nat} {m m1 : Maze} (hs : m.Shaped (W : Int) (H : Int))
    {x y : Nat} (hx : x < W) (hy : y < H) {c : Cell}
    (h : m.UpdateCellAt (x : Int) (y : Int) c = some m1) :
    ∃ p, m.cells[x + y * W]? = some p ∧
      m1.cells = m.cells.set (x + y * W)
        ((if Cell.Color c ≠ NoColor then p &&& byteNot (C1 ||| C2) else p) ||| c) ∧
      m1.flags = (if Cell.Flag p && !Cell.Flag c then m.flags - 1
        else if Cell.Flag c && !Cell.Flag p then m.flags + 1 else m.flags) ∧
      m1.captured = (if Cell.Captured p && !Cell.Captured c then m.captured - 1
        else if Cell.Captured c && !Cell.Captured p then m.captured + 1 else m.captured) ∧
      m1.Shaped (W : Int) (H : Int) := by
  obtain ⟨i, p, hi, hp, hcells, hflags, hcap, hw1, hh1, -⟩ := Maze.UpdateCellAt_some h
  obtain ⟨hw, hh, hlen⟩ := hs
  have hidx := Maze.cellIndex_eq m x y (by omega) (by omega)
  have ex : wrapCoord (x : Int) m.width = x := by
    unfold wrapCoord
    rw [if_neg (by omega), hw]
    exact Int.emod_eq_of_lt (by omega) (by omega)
  have ey : wrapCoord (y : Int) m.height = y := by
    unfold wrapCoord
    rw [if_neg (by omega), hh]
    exact Int.emod_eq_of_lt (by omega) (by omega)
  rw [ex, ey, hw, hi] at hidx
  have hi2 : i = ((x + y * W : Nat) : Int) := by
    rw [Option.some.inj hidx]
    push_cast
    rfl
  subst hi2
  rw [Int.toNat_natCast] at hcells
  refine ⟨p, ?_, hcells, hflags, hcap, hw1.trans hw, hh1.trans hh, ?_⟩
  · have := (sliceGet_some hp).2
    rw [Int.toNat_natCast] at this
    exact this
  · rw [hcells, List.length_set]
    exact hlen

/-- A mask without the Flag and Captured bits, written to a cell that holds
no flag yet, keeps the counters' invariant. -/
theorem Maze.UpdateCellAt_noflag {W H : Nat} {m m1 : Maze}
    (hs : m.Shaped (W : Int) (H : Int)) {x y : Nat} (hx : x < W) (hy : y < H) {c : Cell}
    (hcf : Cell.Flag c = false) (hck : Cell.Captured c = false) {K n : Nat}
    (hK : K ≤ x + y * W) (hinv : m.FlagInv K n)
    (h : m.UpdateCellAt (x : Int) (y : Int) c = some m1) : m1.FlagInv K n := by
  obtain ⟨p, hget, hcells, hflags, hcap, -⟩ := Maze.UpdateCellAt_at hs hx hy h
  obtain ⟨hfl, hcnt, hcp, hnocap, hahead⟩ := hinv
  have hpf : Cell.Flag p = false := hahead _ p hK hget
  have hpk : Cell.Captured p = false := hnocap p (List.getElem?_mem hget)
  refine ⟨?_, ?_, ?_, ?_, ?_⟩
  · rw [hflags, hpf, hcf]
    simpa using hfl
  · unfold Maze.countFlag at hcnt ⊢
    rw [hcells, countP_set_of_get Cell.Flag _ _ p _ hget, Cell.Flag_merge, hpf, hcf, hcnt]
    simp
  · rw [hcap, hpk, hck]
    simpa using hcp
  · intro cell hmem
    rw [hcells] at hmem
    rcases List.mem_or_eq_of_mem_set hmem with h1 | h1
    · exact hnocap cell h1
    · rw [h1, Cell.Captured_merge, hpk, hck]
      rfl
  · intro k cell hk hkget
    rw [hcells] at hkget
    by_cases hki : x + y * W = k
    · subst hki
      rw [List.getElem?_set_self (List.getElem?_eq_some.1 hget).1] at hkget
      cases hkget
      rw [Cell.Flag_merge, hpf, hcf]
      rfl
    · rw [List.getElem?_set_ne hki] at hkget
      exact hahead k cell hk hkget

/-- The mask `FF`, written to the first cell that holds no flag yet, counts
one flag more. -/
theorem Maze.UpdateCellAt_flag {W H : Nat} {m m1 : Maze}
    (hs : m.Shaped (W : Int) (H : Int)) {x y : Nat} (hx : x < W) (hy : y < H) {n : Nat}
    (hinv : m.FlagInv (x + y * W) n)
    (h : m.UpdateCellAt (x : Int) (y : Int) FF = some m1) :
    m1.FlagInv (x + y * W + 1) (n + 1) := by
  obtain ⟨p, hget, hcells, hflags, hcap, -⟩ := Maze.UpdateCellAt_at hs hx hy h
  obtain ⟨hfl, hcnt, hcp, hnocap, hahead⟩ := hinv
  have hpf : Cell.Flag p = false := hahead _ p (le_refl _) hget
  have hpk : Cell.Captured p = false := hnocap p (List.getElem?_mem hget)
  have hcf : Cell.Flag FF = true := by decide
  have hck : Cell.Captured FF = false := by decide
  refine ⟨?_, ?_, ?_, ?_, ?_⟩
  · rw [hflags, hpf, hcf, hfl]
    simp
  · unfold Maze.countFlag at hcnt ⊢
    rw [hcells, countP_set_of_get Cell.Flag _ _ p _ hget, Cell.Flag_merge, hpf, hcf, hcnt]
    simp
  · rw [hcap, hpk, hck]
    simpa using hcp
  · intro cell hmem
    rw [hcells] at hmem
    rcases List.mem_or_eq_of_mem_set hmem with h1 | h1
    · exact hnocap cell h1
    · rw [h1, Cell.Captured_merge, hpk, hck]
      rfl
  · intro k cell hk hkget
    rw [hcells] at hkget
    have hki : x + y * W ≠ k := by omega
    rw [List.getElem?_set_ne hki] at hkget
    exact hahead k cell (by omega) hkget

theorem Maze.FlagInv.mono {K K1 n : Nat} {m : Maze} (hinv : m.FlagInv K n) (hK : K ≤ K1) :
    m.FlagInv K1 n :=
  ⟨hinv.1, hinv.2.1, hinv.2.2.1, hinv.2.2.2.1,
    fun k cell hk hget => hinv.2.2.2.2 k cell (le_trans hK hk) hget⟩

/-- A character of a horizontal wall row keeps the counters' invariant: its
masks carry no flag and go to cells that hold no flag yet. -/
theorem wallRowChar_flags {W H : Nat} {m m1 : Maze} (hs : m.Shaped (W : Int) (H : Int))
    (i j : Nat) (c : Char) (hy : i / 2 < H) (hj : j ≤ 3 * W) {K n : Nat}
    (hK : K ≤ i / 2 * W) (hinv : m.FlagInv K n)
    (h : wallRowChar (W : Int) i ((i / 2 : Nat) : Int) m j c = .ok m1) : m1.FlagInv K n := by
  unfold wallRowChar at h
  by_cases hx : ((j / 3 : Nat) : Int) = (W : Int)
  · simp only [hx, if_true] at h
    split at h
    · cases h
    · cases h
      exact hinv
  · have hxW : j / 3 < W := by omega
    have hu : ∀ c0, Cell.Flag c0 = false → Cell.Captured c0 = false →
        ParseResult.ofOption (m.UpdateCellAt ((j / 3 : Nat) : Int) ((i / 2 : Nat) : Int) c0)
          = .ok m1 → m1.FlagInv K n :=
      fun c0 h1 h2 h3 => Maze.UpdateCellAt_noflag hs hxW hy h1 h2 (by omega) hinv
        (ParseResult.ofOption_ok h3)
    have hCF := hu CF (by decide) (by decide)
    have hTF := hu TF (by decide) (by decide)
    simp only [hx, if_false] at h
    split_ifs at h <;> (try split at h) <;> (try split_ifs at h) <;>
      first
      | exact hCF h
      | exact hTF h
      | (cases h; exact hinv)
      | cases h

/-- A character of a floor row: the flag position counts an `F` and marks the
cell, the other positions keep the counters. -/
theorem floorRowChar_flags {W H : Nat} {m m1 : Maze} (hs : m.Shaped (W : Int) (H : Int))
    (i j : Nat) (c : Char) (hy : i / 2 < H) (hj : j ≤ 3 * W) {n : Nat}
    (hinv : m.FlagInv (j / 3 + i / 2 * W) n)
    (h : floorRowChar (W : Int) i ((i / 2 : Nat) : Int) m j c = .ok m1) :
    m1.FlagInv ((j + 1) / 3 + i / 2 * W) (n + (if j % 3 = 2 ∧ c = 'F' then 1 else 0)) := by
  unfold floorRowChar at h
  by_cases hx : ((j / 3 : Nat) : Int) = (W : Int)
  · have hδ : (if j % 3 = 2 ∧ c = 'F' then 1 else 0) = 0 := if_neg (fun hc => by omega)
    rw [hδ]
    simp only [hx, if_true] at h
    split at h
    · cases h
    · cases h
      exact hinv.mono (by omega)
  · have hxW : j / 3 < W := by omega
    have hu : ∀ c0, Cell.Flag c0 = false → Cell.Captured c0 = false →
        ParseResult.ofOption (m.UpdateCellAt ((j / 3 : Nat) : Int) ((i / 2 : Nat) : Int) c0)
          = .ok m1 → m1.FlagInv ((j + 1) / 3 + i / 2 * W) n :=
      fun c0 h1 h2 h3 => (Maze.UpdateCellAt_noflag hs hxW hy h1 h2 (le_refl _) hinv
        (ParseResult.ofOption_ok h3)).mono (by omega)
    have hLF := hu LF (by decide) (by decide)
    have hR := hu (Color.ToCell Red) (by decide) (by decide)
    have hY := hu (Color.ToCell Yellow) (by decide) (by decide)
    have hB := hu (Color.ToCell Blue) (by decide) (by decide)
    have hkeep : m.FlagInv ((j + 1) / 3 + i / 2 * W) n := hinv.mono (by omega)
    simp only [hx, if_false] at h
    by_cases h0 : j % 3 = 0
    · have hδ : (if j % 3 = 2 ∧ c = 'F' then 1 else 0) = 0 := if_neg (fun hc => by omega)
      rw [hδ]
      simp only [h0, if_true] at h
      split_ifs at h <;>
        first
        | exact hLF h
        | (cases h; exact hkeep)
    · by_cases h1 : j % 3 = 1
      · have hδ : (if j % 3 = 2 ∧ c = 'F' then 1 else 0) = 0 := if_neg (fun hc => by omega)
        rw [hδ]
        have h10 : ¬ ((1 : Nat) = 0) := by decide
        simp only [h1, h10, if_true, if_false] at h
        split_ifs at h <;>
          first
          | exact hR h
          | exact hY h
          | exact hB h
          | (cases h; exact hkeep)
      · have h2 : j % 3 = 2 := by omega
        have h20 : ¬ ((2 : Nat) = 0) := by decide
        have h21 : ¬ ((2 : Nat) = 1) := by decide
        simp only [h2, h20, h21, if_true, if_false] at h
        by_cases hF : c = 'F'
        · have hδ : (if j % 3 = 2 ∧ c = 'F' then 1 else 0) = 1 := if_pos ⟨h2, hF⟩
          rw [hδ]
          rw [if_pos hF] at h
          have := Maze.UpdateCellAt_flag hs hxW hy hinv (ParseResult.ofOption_ok h)
          have e : (j + 1) / 3 + i / 2 * W = j / 3 + i / 2 * W + 1 := by omega
          rw [e]
          exact this
        · have hδ : (if j % 3 = 2 ∧ c = 'F' then 1 else 0) = 0 :=
            if_neg (fun hc => hF hc.2)
          rw [hδ]
          rw [if_neg hF] at h
          split_ifs at h <;>
            first
            | (cases h; exact hkeep)

theorem forRange_wall_flags {W H : Nat} (i : Nat) (hy : i / 2 < H) {K n : Nat}
    (hK : K ≤ i / 2 * W) :
    ∀ (cs : List Char) (j : Nat) (m m1 : Maze), m.Shaped (W : Int) (H : Int) →
      j + cs.length ≤ 3 * W + 1 → m.FlagInv K n →
      forRange (wallRowChar (W : Int) i ((i / 2 : Nat) : Int)) j cs m = .ok m1 →
      m1.Shaped (W : Int) (H : Int) ∧ m1.FlagInv K n := by
  intro cs
  induction cs with
  | nil =>
    intro j m m1 hs _ hinv h
    cases h
    exact ⟨hs, hinv⟩
  | cons c cs ih =>
    intro j m m1 hs hlen hinv h
    simp only [List.length_cons] at hlen
    have hstep := wallRowChar_spec hs i j c (y := ((i / 2 : Nat) : Int)) (by omega) (by omega)
      (by omega)
    unfold forRange at h
    cases hf : wallRowChar (W : Int) i ((i / 2 : Nat) : Int) m j c with
    | ok m2 =>
      rw [hf] at h
      exact ih (j + 1) m2 m1 (hstep.2 m2 hf).1 (by omega)
        (wallRowChar_flags hs i j c hy (by omega) hK hinv hf) h
    | error e => rw [hf] at h; cases h
    | panicked => rw [hf] at h; cases h

theorem forRange_floor_flags {W H : Nat} (i : Nat) (hy : i / 2 < H) :
    ∀ (cs : List Char) (j n : Nat) (m m1 : Maze), m.Shaped (W : Int) (H : Int) →
      j + cs.length ≤ 3 * W + 1 → m.FlagInv (j / 3 + i / 2 * W) n →
      forRange (floorRowChar (W : Int) i ((i / 2 : Nat) : Int)) j cs m = .ok m1 →
      m1.Shaped (W : Int) (H : Int) ∧
        m1.FlagInv ((j + cs.length) / 3 + i / 2 * W) (n + flagCountFrom j cs) := by
  intro cs
  induction cs with
  | nil =>
    intro j n m m1 hs _ hinv h
    cases h
    exact ⟨hs, hinv⟩
  | cons c cs ih =>
    intro j n m m1 hs hlen hinv h
    simp only [List.length_cons] at hlen
    have hstep := floorRowChar_spec hs i j c (y := ((i / 2 : Nat) : Int)) (by omega) (by omega)
      (by omega)
    unfold forRange at h
    cases hf : floorRowChar (W : Int) i ((i / 2 : Nat) : Int) m j c with
    | ok m2 =>
      rw [hf] at h
      have := ih (j + 1) _ m2 m1 (hstep.2 m2 hf).1 (by omega)
        (floorRowChar_flags hs i j c hy (by omega) hinv hf) h
      have e1 : j + (cs.length + 1) = j + 1 + cs.length := by omega
      rw [List.length_cons, e1]
      refine ⟨this.1, ?_⟩
      have e2 : n + flagCountFrom j (c :: cs)
          = n + (if j % 3 = 2 ∧ c = 'F' then 1 else 0) + flagCountFrom (j + 1) cs := by
        simp only [flagCountFrom]
        omega
      rw [e2]
      exact this.2
    | error e => rw [hf] at h; cases h
    | panicked => rw [hf] at h; cases h

/-- The loop over the lines of `MazeFromString` counts the `F` glyphs of the
cell rows in `flags` and marks one cell for each. -/
theorem parseMazeRows_flags {W H : Nat} :
    ∀ (rows : List (List Char)) (i n : Nat) (m m1 : Maze), m.Shaped (W : Int) (H : Int) →
      (∀ row ∈ rows, row.length = 3 * W + 1) →
      i + rows.length = 2 * H + 1 →
      m.FlagInv (i / 2 * W) n →
      parseMazeRows (W : Int) (H : Int) i rows m = .ok m1 →
      ∃ K, m1.FlagInv K (n + flagCountRows i rows) := by
  intro rows
  induction rows with
  | nil =>
    intro i n m m1 _ _ _ hinv h
    cases h
    exact ⟨_, hinv⟩
  | cons row rows ih =>
    intro i n m m1 hs hrows hlen hinv h
    simp only [List.length_cons] at hlen
    have hrow : row.length = 3 * W + 1 := hrows row (List.mem_cons_self _ _)
    have hrest : ∀ r ∈ rows, r.length = 3 * W + 1 :=
      fun r hr => hrows r (List.mem_cons_of_mem _ hr)
    unfold parseMazeRows at h
    by_cases hyH : ((i / 2 : Nat) : Int) = (H : Int)
    · have hi1 : ¬ (i % 2 = 1) := by omega
      simp only [hyH, if_true] at h
      have e : (i + 1) / 2 = i / 2 := by omega
      have := ih (i + 1) n m m1 hs hrest (by omega) (by rw [e]; exact hinv) h
      simpa only [flagCountRows, hi1, if_false, Nat.zero_add] using this
    · have hy : i / 2 < H := by omega
      simp only [hyH, if_false] at h
      by_cases hi : i % 2 = 0
      · have hi1 : ¬ (i % 2 = 1) := by omega
        simp only [hi, if_true] at h
        cases hf : forRange (wallRowChar (W : Int) i ((i / 2 : Nat) : Int)) 0 row m with
        | ok m2 =>
          rw [hf] at h
          obtain ⟨hs2, hinv2⟩ := forRange_wall_flags i hy (le_refl _) row 0 m m2 hs
            (by omega) hinv hf
          have e : (i + 1) / 2 = i / 2 := by omega
          have := ih (i + 1) n m2 m1 hs2 hrest (by omega) (by rw [e]; exact hinv2) h
          simpa only [flagCountRows, hi1, if_false, Nat.zero_add] using this
        | error e => rw [hf] at h; cases h
        | panicked => rw [hf] at h; cases h
      · have hi1 : i % 2 = 1 := by omega
        simp only [hi, if_false] at h
        cases hf : forRange (floorRowChar (W : Int) i ((i / 2 : Nat) : Int)) 0 row m with
        | ok m2 =>
          rw [hf] at h
          obtain ⟨hs2, hinv2⟩ := forRange_floor_flags i hy row 0 n m m2 hs
            (by omega) (by simpa using hinv) hf
          have e : (i + 1) / 2 = i / 2 + 1 := by omega
          have e3 : (0 + row.length) / 3 = W := by omega
          have hK : (0 + row.length) / 3 + i / 2 * W = (i + 1) / 2 * W := by
            rw [e3, e, Nat.add_mul]
            omega
          rw [hK] at hinv2
          have := ih (i + 1) _ m2 m1 hs2 hrest (by omega) hinv2 h
          simpa only [flagCountRows, hi1, if_true, Nat.add_assoc] using this
        | error e => rw [hf] at h; cases h
        | panicked => rw [hf] at h; cases h

/-- A maze the parser returns satisfies the counters' invariant for the number
of `F` glyphs in the flag positions of the cell rows. -/
theorem MazeFromRows_flags (rows : List (List Char)) (m : Maze)
    (h : MazeFromRows rows = .ok m) : ∃ K, m.FlagInv K (flagCountRows 0 rows) := by
  unfold MazeFromRows at h
  by_cases hodd : rows.length % 2 ≠ 1
  · rw [if_pos hodd] at h
    cases h
  · rw [if_neg hodd] at h
    have hodd1 : rows.length % 2 = 1 := not_not.1 hodd
    by_cases hh : (((rows.length - 1) / 2 : Nat) : Int) = 0
    · simp only [hh, if_true] at h
      cases h
    · simp only [hh, if_false] at h
      by_cases hw : Int.tdiv (((rows.headD []).length : Int) - 1) 3 * 3 + 1
          ≠ ((rows.headD []).length : Int)
      · rw [if_pos hw] at h
        cases h
      · rw [if_neg hw] at h
        have hw1 := not_not.1 hw
        generalize Int.tdiv (((rows.headD []).length : Int) - 1) 3 = width at hw1 h
        have hw0 : 0 ≤ width := by omega
        obtain ⟨W, rfl⟩ := Int.eq_ofNat_of_zero_le hw0
        cases hfw : firstWrongLength (rows.headD []).length 0 rows with
        | some i =>
          rw [hfw] at h
          cases h
        | none =>
          rw [hfw] at h
          have hall := firstWrongLength_none _ rows 0 hfw
          have hprod : (0 : Int) ≤ (W : Int) * (((rows.length - 1) / 2 : Nat) : Int) :=
            Int.mul_nonneg (by omega) (by omega)
          have hnew : NewMaze (W : Int) (((rows.length - 1) / 2 : Nat) : Int)
              = some { width := (W : Int), height := (((rows.length - 1) / 2 : Nat) : Int),
                       cells := List.replicate
                         ((W : Int) * (((rows.length - 1) / 2 : Nat) : Int)).toNat (0 : Cell),
                       robot := none, flags := 0, captured := 0 } := by
            unfold NewMaze goMake
            rw [if_neg (not_lt.2 hprod)]
            rfl
          simp only [hnew] at h
          have hshape : Maze.Shaped (W : Int) (((rows.length - 1) / 2 : Nat) : Int)
              { width := (W : Int), height := (((rows.length - 1) / 2 : Nat) : Int),
                cells := List.replicate
                  ((W : Int) * (((rows.length - 1) / 2 : Nat) : Int)).toNat (0 : Cell),
                robot := none, flags := 0, captured := 0 } :=
            ⟨rfl, rfl, List.length_replicate _ _⟩
          have hinv0 : Maze.FlagInv (0 / 2 * W) 0
              { width := (W : Int), height := (((rows.length - 1) / 2 : Nat) : Int),
                cells := List.replicate
                  ((W : Int) * (((rows.length - 1) / 2 : Nat) : Int)).toNat (0 : Cell),
                robot := none, flags := 0, captured := 0 } := by
            have h1 : Cell.Flag 0 = false := by decide
            have h2 : Cell.Captured 0 = false := by decide
            refine ⟨rfl, ?_, rfl, ?_, ?_⟩
            · simp [Maze.countFlag, List.countP_replicate, h1]
            · intro cell hmem
              rw [(List.mem_replicate.1 hmem).2]
              exact h2
            · intro k cell _ hget
              rw [(List.mem_replicate.1 (List.getElem?_mem hget)).2]
              exact h1
          have := parseMazeRows_flags rows 0 0 _ m hshape
            (by
              intro row hrow
              rw [hall row hrow]
              omega)
            (by omega) hinv0 h
          simpa using this

/-- C22: for every text that `MazeFromString` accepts, `FlagsRemaining()` of
the maze returned is the number of `F` glyphs in the flag positions of the
cell rows, which is the number of cells whose Flag bit is set, and
`FlagsCaptured()` is 0 with no cell marked Captured. -/
theorem MazeFromString_counts_flags (s : String) (m : Maze)
    (h : MazeFromString s = .ok m) :
    m.FlagsRemaining = (flagCountRows 0 (Split (TrimSpace s.toList)) : Nat) ∧
      m.FlagsRemaining = m.countFlag ∧
      m.FlagsCaptured = 0 ∧ m.countCaptured = 0 ∧
      ∀ cell ∈ m.cells, Cell.Captured cell = false := by
  obtain ⟨K, h1, h2, h3, h4, -⟩ := MazeFromRows_flags _ m h
  refine ⟨h1, h1.trans h2.symm, h3, ?_, h4⟩
  unfold Maze.countCaptured
  rw [List.countP_eq_zero.2 (fun cell hmem => by simp [h4 cell hmem])]
  rfl

/-- Witness for C22: a 2x2 maze text with two flags, a red and a yellow cell
and the robot. -/
theorem MazeFromString_counts_flags_witness :
    flagMaze.FlagsRemaining
        = (flagCountRows 0 (Split (TrimSpace
            "+--+--+\n| F|RF|\n+--+--+\n|Y>|  |\n+--+--+".toList)) : Nat) ∧
      flagMaze.FlagsRemaining = flagMaze.countFlag ∧
      flagMaze.FlagsCaptured = 0 ∧ flagMaze.countCaptured = 0 ∧
      ∀ cell ∈ flagMaze.cells, Cell.Captured cell = false :=
  MazeFromString_counts_flags "+--+--+\n| F|RF|\n+--+--+\n|Y>|  |\n+--+--+" flagMaze
    (by decide)

/-! ## C2: the counters after building calls and captures -/

/-- A capture, or a call whose mask keeps the Flag bit of its target and has
the Captured bit of its target, keeps the counters consistent with the cells:
`flags` counts the flag cells not captured, `captured` the captured cells. -/
theorem Maze.UpdateCellAt_byDesign {m m1 : Maze} {x y : Int} {c p : Cell}
    (hinv : m.Consistent) (hc : m.CellAt x y = some p)
    (hd : ((Cell.Captured c && !Cell.Flag c && Cell.Flag p && !Cell.Captured p) ||
      ((!Cell.Flag p || Cell.Flag c) && (Cell.Captured c == Cell.Captured p))) = true)
    (h : m.UpdateCellAt x y c = some m1) : m1.Consistent := by
  obtain ⟨i, p1, hi, hp, hcells, hflags, hcap, -, -, -⟩ := Maze.UpdateCellAt_some h
  have hp2 : p1 = p := by
    unfold Maze.CellAt at hc
    simp only [Option.bind_eq_bind, Option.bind_eq_some] at hc
    obtain ⟨j, hj, hjp⟩ := hc
    rw [hi] at hj
    cases hj
    rw [hp] at hjp
    exact Option.some.inj hjp
  subst hp2
  obtain ⟨-, hget⟩ := sliceGet_some hp
  obtain ⟨h1, h2, h3⟩ := hinv
  have hpall : (!Cell.Captured p1 || Cell.Flag p1) = true :=
    List.all_eq_true.1 h3 p1 (List.getElem?_mem hget)
  refine ⟨?_, ?_, ?_⟩
  · unfold Maze.countPending
    rw [hcells, countP_set_of_get _ _ _ p1 _ hget, hflags, h1]
    unfold Maze.countPending
    simp only [Cell.Flag_merge, Cell.Captured_merge]
    cases hFp : Cell.Flag p1 <;> cases hKp : Cell.Captured p1 <;>
      cases hFc : Cell.Flag c <;> cases hKc : Cell.Captured c <;>
      simp [hFp, hKp, hFc, hKc] at hd hpall ⊢
  · unfold Maze.countCaptured
    rw [hcells, countP_set_of_get _ _ _ p1 _ hget, hcap, h2]
    unfold Maze.countCaptured
    simp only [Cell.Captured_merge]
    cases hFp : Cell.Flag p1 <;> cases hKp : Cell.Captured p1 <;>
      cases hFc : Cell.Flag c <;> cases hKc : Cell.Captured c <;>
      simp [hFp, hKp, hFc, hKc] at hd hpall ⊢
  · rw [hcells, List.all_eq_true]
    intro a ha
    rcases List.mem_or_eq_of_mem_set ha with ha | ha
    · exact List.all_eq_true.1 h3 a ha
    · subst ha
      simp only [Cell.Flag_merge, Cell.Captured_merge]
      cases hFp : Cell.Flag p1 <;> cases hKp : Cell.Captured p1 <;>
        cases hFc : Cell.Flag c <;> cases hKc : Cell.Captured c <;>
        simp [hFp, hKp, hFc, hKc] at hd hpall ⊢

theorem NewMaze_consistent {w h : Int} {m0 : Maze} (hnew : NewMaze w h = some m0) :
    m0.Consistent := by
  unfold NewMaze goMake at hnew
  split at hnew
  · simp at hnew
  · simp only [Option.bind_eq_bind, Option.some_bind, Option.pure_def, Option.some.injEq] at hnew
    subst hnew
    have h1 : Cell.Flag 0 = false := by decide
    have h2 : Cell.Captured 0 = false := by decide
    refine ⟨?_, ?_, ?_⟩
    · simp [Maze.countPending, List.countP_replicate, h1]
    · simp [Maze.countCaptured, List.countP_replicate, h2]
    · rw [List.all_eq_true]
      intro a ha
      rw [(List.mem_replicate.1 ha).2]
      decide

theorem Maze.updateAll_consistent_from (calls : List (Int × Int × Cell)) :
    ∀ m : Maze, m.Consistent → m.callsByDesign calls = true →
      ∃ m1, m.updateAll calls = some m1 ∧ m1.Consistent := by
  induction calls with
  | nil => intro m hinv _; exact ⟨m, rfl, hinv⟩
  | cons call rest ih =>
    intro m hinv hk
    obtain ⟨x, y, c⟩ := call
    unfold Maze.callsByDesign at hk
    cases hc : m.CellAt x y with
    | none => simp [hc] at hk
    | some p =>
      cases hu : m.UpdateCellAt x y c with
      | none => simp [hc, hu] at hk
      | some m1 =>
        simp only [hc, hu] at hk
        rw [Bool.and_eq_true] at hk
        have hinv1 := Maze.UpdateCellAt_byDesign hinv hc hk.1 hu
        obtain ⟨m2, hm2, hres⟩ := ih m1 hinv1 hk.2
        exact ⟨m2, by simp [Maze.updateAll, hu, hm2], hres⟩

/-- C2 (amended): starting from an empty maze, after any sequence of
`UpdateCellAt` calls each of which is a capture (a mask with the Captured bit
and without the Flag bit, as `KF`, on a cell whose Flag bit is set and whose
Captured bit is not) or a call whose mask carries the Flag bit if its target
cell holds it and the Captured bit exactly when its target cell holds it,
every call returns, `FlagsCaptured()` equals the number of cells whose
Captured bit is set, and `FlagsRemaining()` equals the number of cells whose
Flag bit is set and whose Captured bit is not, which is the number of cells
whose Flag bit is set minus `FlagsCaptured()`. -/
theorem updateAll_counters_by_design (w h : Int) (m0 : Maze)
    (calls : List (Int × Int × Cell)) (hnew : NewMaze w h = some m0)
    (hcalls : m0.callsByDesign calls = true) :
    ∃ m, m0.updateAll calls = some m ∧
      m.FlagsCaptured = m.countCaptured ∧ m.FlagsRemaining = m.countPending ∧
      m.FlagsRemaining = m.countFlag - m.FlagsCaptured := by
  obtain ⟨m, hm, hcons⟩ := Maze.updateAll_consistent_from calls m0 (NewMaze_consistent hnew)
    hcalls
  have hsum := hcons.sum
  exact ⟨m, hm, hcons.2.1, hcons.1, by omega⟩

/-- Witness for C2 (amended): a 2x1 maze given a corner, a wall, a color and a
flag on one cell, a flag on the other, and the capture of the second flag. -/
theorem updateAll_counters_by_design_witness :
    ∃ m, Maze.updateAll
        { width := 2, height := 1, cells := [0, 0], robot := none, flags := 0, captured := 0 }
        [(0, 0, CF), (0, 0, TF), (0, 0, Color.ToCell Red), (0, 0, FF), (1, 0, FF),
          (1, 0, KF)] = some m ∧
      m.FlagsCaptured = m.countCaptured ∧ m.FlagsRemaining = m.countPending ∧
      m.FlagsRemaining = m.countFlag - m.FlagsCaptured :=
  updateAll_counters_by_design 2 1 _ _ (by decide) (by decide)

/-! ## C20: the Start check behind an unchecked line -/

/-- C20: a text without `ST` chip code and a text with two, each with an empty
second line: the parser slices that line out of range before it reaches the
test of `hasStartPos`, and returns no error. -/
theorem CircuitBoardFromString_start_check_unreached :
    stCodes "|MF|\n||\n|MF|" = 0 ∧
      CircuitBoardFromString "|MF|\n||\n|MF|" = .panicked ∧
      stCodes "|ST .. MF|\n||\n|MF .. ST|" = 2 ∧
      CircuitBoardFromString "|ST .. MF|\n||\n|MF .. ST|" = .panicked := by
  decide

end Gobot
